import Mathlib

/-!
Verification development for the flagparser repository: a low-level
command-line argument grammar engine. The Go source is shallowly embedded
here: Go strings become lists of characters (the repository only treats
ASCII names and one-byte groupable options, so byte indexing and character
indexing coincide on every input of interest), Go maps become association
lists iterated in insertion order, fallible functions return Except, and
the panic calls that guard broken invariants become an explicit error
variant. The Go stable sort is realised as a structural insertion sort,
which is extensionally the same stable ascending sort.
-/

namespace Flagparser

/-- Go strings modelled as lists of characters. -/
abbrev GoStr := List Char

/-- OptionType is the type of an Option: Go int64 bit flags (option.go). -/
abbrev OptionType := Nat

/-- kind flag for early options (1 shifted left by 4, option.go). -/
def optionKindEarly : OptionType := 16

/-- kind flag for standalone options (option.go). -/
def optionKindStandalone : OptionType := 32

/-- kind flag for groupable options (option.go). -/
def optionKindGroupable : OptionType := 64

/-- argument flag for options with no argument (option.go). -/
def optionArgumentNone : OptionType := 1

/-- argument flag for options with a required argument (option.go). -/
def optionArgumentRequired : OptionType := 2

/-- argument flag for options with an optional argument (option.go). -/
def optionArgumentOptional : OptionType := 4

/-- bitwise test mirroring Go OptionType.isEarly. -/
def OptionType.isEarly (ot : OptionType) : Bool := ot &&& optionKindEarly != 0

/-- bitwise test mirroring Go OptionType.isStandalone. -/
def OptionType.isStandalone (ot : OptionType) : Bool := ot &&& optionKindStandalone != 0

/-- bitwise test mirroring Go OptionType.isGroupable. -/
def OptionType.isGroupable (ot : OptionType) : Bool := ot &&& optionKindGroupable != 0

/-- early option requiring no arguments (option.go). -/
def OptionTypeEarlyArgumentNone : OptionType := optionKindEarly ||| optionArgumentNone

/-- standalone option requiring no arguments (option.go). -/
def OptionTypeStandaloneArgumentNone : OptionType := optionKindStandalone ||| optionArgumentNone

/-- standalone option requiring an argument (option.go). -/
def OptionTypeStandaloneArgumentRequired : OptionType := optionKindStandalone ||| optionArgumentRequired

/-- standalone option with an optional argument (option.go). -/
def OptionTypeStandaloneArgumentOptional : OptionType := optionKindStandalone ||| optionArgumentOptional

/-- groupable option requiring no arguments (option.go). -/
def OptionTypeGroupableArgumentNone : OptionType := optionKindGroupable ||| optionArgumentNone

/-- groupable option requiring an argument (option.go). -/
def OptionTypeGroupableArgumentRequired : OptionType := optionKindGroupable ||| optionArgumentRequired

/-- Option (option.go): one recognized flag. Named FlagOption because Option
is taken by the Lean prelude. The pfx field is the Go Prefix field. -/
structure FlagOption where
  defaultValue : GoStr
  pfx : GoStr
  name : GoStr
  otype : OptionType
deriving DecidableEq

/-- flagscanner.OptionToken: an option-class token with source index,
declared option marker (Go Prefix field, here pfx) and raw name. -/
structure OptionToken where
  idx : Nat
  pfx : GoStr
  name : GoStr
deriving DecidableEq

/-- flagscanner.PositionalArgumentToken: a positional token. -/
structure PositionalArgumentToken where
  idx : Nat
  value : GoStr
deriving DecidableEq

/-- flagscanner.OptionsArgumentsSeparatorToken: the separator token. -/
structure OptionsArgumentsSeparatorToken where
  idx : Nat
  sep : GoStr
deriving DecidableEq

/-- flagscanner.Token: the discriminated union of the three token kinds. -/
inductive Token where
  | option : OptionToken → Token
  | positional : PositionalArgumentToken → Token
  | separator : OptionsArgumentsSeparatorToken → Token
deriving DecidableEq

/-- Token.Index: the zero-based source index of a token. -/
def Token.index : Token → Nat
  | .option t => t.idx
  | .positional t => t.idx
  | .separator t => t.idx

/-- Token.String: the literal textual form of a token, used by the state
machine when a token is consumed verbatim (as an option argument or when
an option token is demoted to a positional). -/
def Token.str : Token → GoStr
  | .option t => t.pfx ++ t.name
  | .positional t => t.value
  | .separator t => t.sep

/-- Value (value.go): the output unit of the state machine. -/
inductive Value where
  | option (option : FlagOption) (tok : Token) (value : GoStr)
  | positionalArgument (tok : Token) (value : GoStr)
  | optionsArgumentsSeparator (tok : Token) (separator : GoStr)
deriving DecidableEq

/-- Value.Token: the originating token of a value (value.go). -/
def Value.token : Value → Token
  | .option _ tok _ => tok
  | .positionalArgument tok _ => tok
  | .optionsArgumentsSeparator tok _ => tok

/-- the source index of the originating token of a value. -/
def Value.index (v : Value) : Nat := v.token.index

/-- Value.Strings (value.go): the literal strings that reconstruct the
command-line fragment for one value. The final branch is the Go panic on
an out-of-range option type; it is unreachable for every value built by
the state machine, and the embedding returns no fragment there. -/
def Value.strings : Value → List GoStr
  | .option opt _ value =>
    if opt.otype = OptionTypeEarlyArgumentNone ∨
        opt.otype = OptionTypeGroupableArgumentNone ∨
        opt.otype = OptionTypeStandaloneArgumentNone then
      [opt.pfx ++ opt.name]
    else if opt.otype = OptionTypeStandaloneArgumentOptional then
      [opt.pfx ++ opt.name ++ '=' :: value]
    else if opt.otype = OptionTypeStandaloneArgumentRequired ∨
        opt.otype = OptionTypeGroupableArgumentRequired then
      [opt.pfx ++ opt.name, value]
    else []
  | .positionalArgument _ value => [value]
  | .optionsArgumentsSeparator _ separator => [separator]

/-- the token-free content of a value: which option it matched and the
resolved argument, or the positional or separator text. -/
inductive ValueContent where
  | option (option : FlagOption) (value : GoStr)
  | positionalArgument (value : GoStr)
  | optionsArgumentsSeparator (separator : GoStr)
deriving DecidableEq

/-- projection from a value to its token-free content. -/
def Value.content : Value → ValueContent
  | .option opt _ value => .option opt value
  | .positionalArgument _ value => .positionalArgument value
  | .optionsArgumentsSeparator _ separator => .optionsArgumentsSeparator separator

/-- Parser (parser.go): the caller-supplied configuration surface. -/
structure Parser where
  disablePermute : Bool := false
  maxPositionalArguments : Int := 0
  minPositionalArguments : Int := 0
  optionsArgumentsSeparator : GoStr := []
  options : List FlagOption := []

/-- the error taxonomy of the engine: configuration errors (config.go),
parse errors (doparse.go, parser.go) and the panic on broken invariants. -/
inductive Err where
  | ambiguousPfx (pfx : GoStr)
  | multipleOptionsWithSameName (name : GoStr) (options : List FlagOption)
  | tooLongGroupableOptionName (option : FlagOption)
  | emptyOptionName (option : FlagOption)
  | emptyOptionPfx (option : FlagOption)
  | unknownOption (name : GoStr) (pfx : GoStr) (tok : Token)
  | optionRequiresNoArgument (option : FlagOption) (tok : Token)
  | optionRequiresArgument (option : FlagOption) (tok : Token)
  | tooFewPositionalArguments (minArgs : Int) (haveArgs : Int)
  | tooManyPositionalArguments (maxArgs : Int) (haveArgs : Int)
  | panicked
deriving DecidableEq

/-- decidable equality for fallible results, used by concrete witnesses. -/
instance {e a : Type} [DecidableEq e] [DecidableEq a] : DecidableEq (Except e a) := fun x y =>
  match x, y with
  | .ok v, .ok w => if h : v = w then isTrue (by rw [h]) else isFalse (by simp [h])
  | .error v, .error w => if h : v = w then isTrue (by rw [h]) else isFalse (by simp [h])
  | .ok _, .error _ => isFalse (by simp)
  | .error _, .ok _ => isFalse (by simp)

/-- lookup in an association list modelling a Go map read. -/
def mapLookup {α : Type} : List (GoStr × α) → GoStr → Option α
  | [], _ => none
  | (k1, v) :: rest, k => if k1 = k then some v else mapLookup rest k

/-- insert-or-replace in an association list modelling a Go map write. -/
def mapSet {α : Type} : List (GoStr × α) → GoStr → α → List (GoStr × α)
  | [], k, v => [(k, v)]
  | (k1, v1) :: rest, k, v =>
    if k1 = k then (k1, v) :: rest else (k1, v1) :: mapSet rest k v

/-- config (config.go): the validated lookup context built per parse call. -/
structure Config where
  options : List (GoStr × FlagOption)
  pfxMap : List (GoStr × OptionType)
  parser : Parser

/-- config.disablePermute (config.go). -/
def Config.disablePermute (cfg : Config) : Bool := cfg.parser.disablePermute

/-- config.findOption (config.go): returns the option only when the name is
declared, the declared Prefix equals the token Prefix and the behavior bits
intersect the requested kind; otherwise ErrUnknownOption. -/
def Config.findOption (cfg : Config) (tok : OptionToken) (optname : GoStr)
    (kind : OptionType) : Except Err FlagOption :=
  match mapLookup cfg.options optname with
  | none => .error (.unknownOption optname tok.pfx (.option tok))
  | some opt =>
    if opt.pfx = tok.pfx ∧ opt.otype &&& kind ≠ 0 then .ok opt
    else .error (.unknownOption optname tok.pfx (.option tok))

/-- the second validation loop of newConfig (config.go): reject empty names
and empty prefixes in list order while grouping options by name; the name
groups keep first-occurrence order, which fixes one iteration order for the
Go map walked afterwards by the duplicate check. -/
def buildNames : List FlagOption → List (GoStr × List FlagOption) →
    Except Err (List (GoStr × List FlagOption))
  | [], acc => .ok acc
  | o :: rest, acc =>
    if o.name.length = 0 then .error (.emptyOptionName o)
    else if o.pfx.length = 0 then .error (.emptyOptionPfx o)
    else buildNames rest (namesAppend acc o.name o)
where
  /-- append one option to its name group, keeping group order. -/
  namesAppend : List (GoStr × List FlagOption) → GoStr → FlagOption →
      List (GoStr × List FlagOption)
  | [], k, o => [(k, [o])]
  | (k1, l) :: rest, k, o =>
    if k1 = k then (k1, l ++ [o]) :: rest else (k1, l) :: namesAppend rest k o

/-- the duplicate-name check of newConfig (config.go): first name group
whose size differs from one. -/
def findDup : List (GoStr × List FlagOption) → Option (GoStr × List FlagOption)
  | [] => none
  | (k, l) :: rest => if l.length ≠ 1 then some (k, l) else findDup rest

/-- one Go map update prefixes[p] with the given bit or-ed in (config.go);
a missing key reads as zero. -/
def pfxOr : List (GoStr × OptionType) → GoStr → OptionType →
    List (GoStr × OptionType)
  | [], k, bit => [(k, 0 ||| bit)]
  | (k1, fl) :: rest, k, bit =>
    if k1 = k then (k1, fl ||| bit) :: rest else (k1, fl) :: pfxOr rest k bit

/-- the prefix-collection loop of newConfig (config.go): groupable options
or in the groupable bit, otherwise standalone options or in the standalone
bit, and early options contribute nothing. -/
def buildPfxMap : List FlagOption → List (GoStr × OptionType) →
    List (GoStr × OptionType)
  | [], acc => acc
  | o :: rest, acc =>
    if OptionType.isGroupable o.otype then
      buildPfxMap rest (pfxOr acc o.pfx optionKindGroupable)
    else if OptionType.isStandalone o.otype then
      buildPfxMap rest (pfxOr acc o.pfx optionKindStandalone)
    else buildPfxMap rest acc

/-- the ambiguity check of newConfig (config.go): first Prefix carrying both
the groupable and the standalone bit. -/
def findAmbiguous : List (GoStr × OptionType) → Option GoStr
  | [] => none
  | (k, fl) :: rest =>
    if fl &&& (optionKindGroupable ||| optionKindStandalone) =
        optionKindGroupable ||| optionKindStandalone then some k
    else findAmbiguous rest

/-- the name-to-option map build of newConfig (config.go); a later option
with the same name overwrites an earlier one, as in a Go map. -/
def buildOptionsMap : List FlagOption → List (GoStr × FlagOption) →
    List (GoStr × FlagOption)
  | [], acc => acc
  | o :: rest, acc => buildOptionsMap rest (mapSet acc o.name o)

/-- newConfig (config.go): validate the option list and build the lookup
context, with the checks in source order: groupable-name length, then name
and Prefix emptiness, then duplicate names, then Prefix ambiguity; an empty
Prefix table is replaced by the GNU default scheme. -/
def newConfig (px : Parser) : Except Err Config :=
  match px.options.find?
      (fun o => decide (1 < o.name.length) && OptionType.isGroupable o.otype) with
  | some o => .error (.tooLongGroupableOptionName o)
  | none =>
    match buildNames px.options [] with
    | .error e => .error e
    | .ok names =>
      match findDup names with
      | some (n, l) => .error (.multipleOptionsWithSameName n l)
      | none =>
        let pfxs := buildPfxMap px.options []
        match findAmbiguous pfxs with
        | some p => .error (.ambiguousPfx p)
        | none =>
          let pfxs :=
            if pfxs.length = 0 then
              [(['-'], optionKindGroupable), (['-', '-'], optionKindStandalone)]
            else pfxs
          .ok { options := buildOptionsMap px.options [],
                pfxMap := pfxs, parser := px }

/-- the Go strings.Index(name, c) of the first occurrence of a character:
the byte index, or minus one when absent. -/
def goIndexOf : GoStr → Char → Int
  | [], _ => -1
  | c :: rest, target =>
    if c = target then 0
    else if goIndexOf rest target < 0 then -1 else goIndexOf rest target + 1

/-- the name=value split of doParseStandaloneOption (doparse.go): split at
the first equals sign only when its index is positive; otherwise the whole
raw name is the option name and the value is empty. -/
def splitOptName (name : GoStr) : GoStr × GoStr :=
  if 0 < goIndexOf name '=' then
    (name.takeWhile (fun c => c ≠ '='), (name.dropWhile (fun c => c ≠ '=')).tail)
  else (name, [])

/-- doParseStandaloneOption (doparse.go). The deque is modelled by passing
the next token, when any, and reporting whether it was consumed. -/
def doParseStandaloneOption (cfg : Config) (cur : OptionToken)
    (next : Option Token) : Except Err (Bool × Value) :=
  let (optname, optvalue) := splitOptName cur.name
  match cfg.findOption cur optname optionKindStandalone with
  | .error e => .error e
  | .ok opt =>
    if opt.otype = OptionTypeStandaloneArgumentNone then
      if optname ≠ cur.name then
        .error (.optionRequiresNoArgument opt (.option cur))
      else .ok (false, .option opt (.option cur) optvalue)
    else if opt.otype = OptionTypeStandaloneArgumentOptional then
      .ok (false, .option opt (.option cur)
        (if optvalue = [] then opt.defaultValue else optvalue))
    else if opt.otype = OptionTypeStandaloneArgumentRequired then
      if optname = cur.name then
        match next with
        | none => .error (.optionRequiresArgument opt (.option cur))
        | some tok => .ok (true, .option opt (.option cur) tok.str)
      else .ok (false, .option opt (.option cur) optvalue)
    else .error .panicked

/-- the per-character walk of doParseGroupableOption (doparse.go). The
deque is modelled by the next token, when any; consumption can only happen
on the last character, where the walk ends, so the next token needs no
threading beyond the consumed flag. -/
def groupWalk (cfg : Config) (cur : OptionToken) :
    GoStr → Option Token → List Value → Except Err (Bool × List Value)
  | [], _, acc => .ok (false, acc)
  | c :: rest, next, acc =>
    match cfg.findOption cur [c] optionKindGroupable with
    | .error e => .error e
    | .ok opt =>
      if opt.otype = OptionTypeGroupableArgumentNone then
        groupWalk cfg cur rest next (acc ++ [.option opt (.option cur) []])
      else if opt.otype = OptionTypeGroupableArgumentRequired then
        if rest.length ≠ 0 then
          .ok (false, acc ++ [.option opt (.option cur) rest])
        else
          match next with
          | some tok => .ok (true, acc ++ [.option opt (.option cur) tok.str])
          | none => .error (.optionRequiresArgument opt (.option cur))
      else .error .panicked

/-- doParseGroupableOption (doparse.go): walk the raw name from its first
character with an empty accumulator. -/
def doParseGroupableOption (cfg : Config) (cur : OptionToken)
    (next : Option Token) : Except Err (Bool × List Value) :=
  groupWalk cfg cur cur.name next []

/-- one transition of doParse (doparse.go): classify the current token,
dispatch option tokens by the Prefix family, and report whether the next
token was consumed together with the new flag and buffers. -/
def doParseStep (cfg : Config) (tok : Token) (next : Option Token)
    (onlypositionals : Bool) (options positionals : List Value) :
    Except Err (Bool × Bool × List Value × List Value) :=
  match tok with
  | .positional cur =>
    .ok (false, onlypositionals || cfg.parser.disablePermute, options,
      positionals ++ [.positionalArgument (.positional cur) cur.value])
  | .separator cur =>
    .ok (false, true, options,
      positionals ++ [.optionsArgumentsSeparator (.separator cur) cur.sep])
  | .option cur =>
    if onlypositionals then
      .ok (false, onlypositionals, options,
        positionals ++ [.positionalArgument (.option cur) (Token.str (.option cur))])
    else
      let optkind := (mapLookup cfg.pfxMap cur.pfx).getD 0
      if OptionType.isStandalone optkind then
        match doParseStandaloneOption cfg cur next with
        | .error e => .error e
        | .ok (consumed, value) =>
          .ok (consumed, onlypositionals, options ++ [value], positionals)
      else if OptionType.isGroupable optkind then
        match doParseGroupableOption cfg cur next with
        | .error e => .error e
        | .ok (consumed, values) =>
          .ok (consumed, onlypositionals, options ++ values, positionals)
      else .error .panicked

/-- doParse (doparse.go): the main token-consumption state machine, with
the onlypositionals flag and the two staging buffers passed explicitly;
the deque front is the head of the token list and popping past a consumed
argument token skips it. -/
def doParse (cfg : Config) :
    List Token → Bool → List Value → List Value →
    Except Err (List Value × List Value)
  | [], _, options, positionals => .ok (options, positionals)
  | [tok], onlypositionals, options, positionals =>
    match doParseStep cfg tok none onlypositionals options positionals with
    | .error e => .error e
    | .ok (_, _, options1, positionals1) => .ok (options1, positionals1)
  | tok :: next :: rest, onlypositionals, options, positionals =>
    match doParseStep cfg tok (some next) onlypositionals options positionals with
    | .error e => .error e
    | .ok (consumed, onlypositionals1, options1, positionals1) =>
      if consumed then doParse cfg rest onlypositionals1 options1 positionals1
      else doParse cfg (next :: rest) onlypositionals1 options1 positionals1

/-- stable insertion of a value into a list already sorted by source index,
placing the new value after every element with an index at most its own. -/
def insertValue (v : Value) : List Value → List Value
  | [] => [v]
  | w :: rest =>
    if w.index ≤ v.index then w :: insertValue v rest else v :: w :: rest

/-- sortValues (value.go): the stable ascending sort by originating-token
source index, realised as a structural insertion sort. -/
def sortValues (input : List Value) : List Value :=
  input.foldl (fun acc v => insertValue v acc) []

/-- permute (permute.go): preserve mode sorts the concatenation by source
index; reorder mode sorts the two buffers independently and emits all
options before all positionals. -/
def permute (disablePermute : Bool) (options positionals : List Value) :
    List Value :=
  if disablePermute then sortValues (options ++ positionals)
  else sortValues options ++ sortValues positionals

/-- earlyParse (early.go): scan the tokens once; an option token is tested
against every declared early option for an exact Prefix and name match and
the first match is returned at once; a positional token ends the scan with
no result when permutation is disabled. -/
def earlyParse (options : List FlagOption) :
    List Token → Bool → Option Value
  | [], _ => none
  | .option tok :: rest, disablePermute =>
    match options.find?
        (fun o => OptionType.isEarly o.otype && tok.pfx = o.pfx && tok.name = o.name) with
    | some o => some (.option o (.option tok) [])
    | none => earlyParse options rest disablePermute
  | .positional _ :: rest, disablePermute =>
    if disablePermute then none else earlyParse options rest disablePermute
  | .separator _ :: rest, disablePermute => earlyParse options rest disablePermute

/-- the longest declared marker that the argument properly extends; Go map
iteration order is immaterial because the longest proper extension of the
argument among its own initial segments is unique. -/
def bestPfx (pfxs : List GoStr) (arg : GoStr) : Option GoStr :=
  pfxs.foldl
    (fun acc p =>
      if p <+: arg ∧ p ≠ arg ∧ (acc.getD []).length < p.length then some p
      else acc)
    none

/-- Modelled from the spec: the external flagscanner tokenizer, absent from
this repository and specified only at its interface boundary. Each argument
becomes exactly one token bearing a zero-based source index: after the
separator everything is positional; an argument equal to the configured
separator, when separator recognition is enabled, is the separator token;
an argument properly extending a declared option marker is an option token
split at the longest such marker; anything else is positional. -/
def scanFrom (pfxs : List GoStr) (sep : GoStr) :
    Nat → Bool → List GoStr → List Token
  | _, _, [] => []
  | idx, seenSep, arg :: rest =>
    if seenSep then
      .positional ⟨idx, arg⟩ :: scanFrom pfxs sep (idx + 1) true rest
    else if sep ≠ [] ∧ arg = sep then
      .separator ⟨idx, sep⟩ :: scanFrom pfxs sep (idx + 1) true rest
    else
      match bestPfx pfxs arg with
      | some p =>
        .option ⟨idx, p, arg.drop p.length⟩ :: scanFrom pfxs sep (idx + 1) false rest
      | none =>
        .positional ⟨idx, arg⟩ :: scanFrom pfxs sep (idx + 1) false rest

/-- Modelled from the spec: the tokenizer entry point, starting at source
index zero before any separator. -/
def scan (pfxs : List GoStr) (sep : GoStr) (args : List GoStr) : List Token :=
  scanFrom pfxs sep 0 false args

/-- the keys of the Prefix table handed to the tokenizer (parser.go). -/
def pfxKeys (cfg : Config) : List GoStr := cfg.pfxMap.map Prod.fst

/-- the non-early tail of Parser.Parse (parser.go): run the state machine,
enforce the positional bounds in order, then permute. -/
def parseMain (px : Parser) (cfg : Config) (tokens : List Token) :
    Except Err (List Value) :=
  match doParse cfg tokens false [] [] with
  | .error e => .error e
  | .ok (options, positionals) =>
    if (positionals.length : Int) < px.minPositionalArguments then
      .error (.tooFewPositionalArguments px.minPositionalArguments positionals.length)
    else if px.maxPositionalArguments < (positionals.length : Int) then
      .error (.tooManyPositionalArguments px.maxPositionalArguments positionals.length)
    else .ok (permute cfg.disablePermute options positionals)

/-- the token-level body of Parser.Parse (parser.go): the early scan may
short-circuit with a single value, otherwise the state machine runs. -/
def parseTokens (px : Parser) (cfg : Config) (tokens : List Token) :
    Except Err (List Value) :=
  match earlyParse px.options tokens px.disablePermute with
  | some value => .ok [value]
  | none => parseMain px cfg tokens

/-- Parser.Parse (parser.go): build the configuration, tokenize the raw
arguments with the declared markers and separator, then parse. -/
def Parser.parse (px : Parser) (args : List GoStr) : Except Err (List Value) :=
  match newConfig px with
  | .error e => .error e
  | .ok cfg =>
    parseTokens px cfg (scan (pfxKeys cfg) px.optionsArgumentsSeparator args)


/-- the per-token test of the early scan (early.go): the first declared
early option whose Prefix and name both equal those of the option token. -/
def earlyMatch (options : List FlagOption) (tok : OptionToken) : Option FlagOption :=
  options.find?
    (fun o => OptionType.isEarly o.otype && tok.pfx = o.pfx && tok.name = o.name)

/-- a token the early scan walks past without returning: an option token
matching no declared early option, a positional token while permutation is
enabled, or a separator token. -/
def earlySkips (options : List FlagOption) (disablePermute : Bool) : Token → Prop
  | .option tok => earlyMatch options tok = none
  | .positional _ => disablePermute = false
  | .separator _ => True

/-- an option token matching no declared early option; positional and
separator tokens satisfy this trivially. -/
def noEarlyMatch (options : List FlagOption) : Token → Prop
  | .option tok => earlyMatch options tok = none
  | .positional _ => True
  | .separator _ => True

/-- the number of declared options bearing a given name. -/
def countName (opts : List FlagOption) (n : GoStr) : Nat :=
  (opts.filter (fun o => o.name = n)).length

/-- the configuration violation rejected by the groupable-name-length
check: some groupable-family option has a name longer than one unit. -/
def hasTooLongGroupable (opts : List FlagOption) : Prop :=
  ∃ o ∈ opts, 1 < o.name.length ∧ OptionType.isGroupable o.otype = true

/-- the configuration violation rejected by the emptiness check: some
option has an empty name or an empty Prefix. -/
def hasEmptyNameOrPfx (opts : List FlagOption) : Prop :=
  ∃ o ∈ opts, o.name = [] ∨ o.pfx = []

/-- the configuration violation rejected by the duplicate check: some name
is borne by two or more options. -/
def hasDuplicateName (opts : List FlagOption) : Prop :=
  ∃ n, 1 < countName opts n

/-- the configuration violation rejected by the ambiguity check: some
Prefix is borne both by a groupable-family option and by an option the
collection loop files as standalone. -/
def hasAmbiguousPfx (opts : List FlagOption) : Prop :=
  ∃ p, (∃ o ∈ opts, o.pfx = p ∧ OptionType.isGroupable o.otype = true) ∧
    (∃ o ∈ opts, o.pfx = p ∧ OptionType.isGroupable o.otype = false ∧
      OptionType.isStandalone o.otype = true)

/-- the size of the name group stored for one name. -/
def groupLen (m : List (GoStr × List FlagOption)) (n : GoStr) : Nat :=
  ((mapLookup m n).getD []).length

/-- the same parser with permutation disabled, as used when re-parsing a
re-serialized command line in preserve mode. -/
def preservePx (px : Parser) : Parser := { px with disablePermute := true }

/-- the configuration the preserve-mode twin validates to: same tables,
permutation disabled. -/
def preserveCfg (px : Parser) (cfg : Config) : Config :=
  { options := cfg.options, pfxMap := cfg.pfxMap, parser := preservePx px }

/-- the command-line fragments of a value sequence, concatenated in
order: the re-serialization contract of the engine. -/
def serializeValues (vals : List Value) : List GoStr :=
  (vals.map Value.strings).flatten

/-- an argument the tokenizer would classify as an option token: it
properly extends some declared marker. -/
def optionLike (keys : List GoStr) (w : GoStr) : Prop :=
  ∃ q ∈ keys, q <+: w ∧ q ≠ w

/-- whether a value is a matched-option value. -/
def isOptionValue : Value → Bool
  | .option _ _ _ => true
  | _ => false

/-- a token list made only of positional tokens, as the tokenizer emits
after the separator. -/
def allPositional : List Token → Prop
  | [] => True
  | .positional _ :: rest => allPositional rest
  | .option _ :: _ => False
  | .separator _ :: _ => False

/-- the shape of a tokenizer output before the separator: option tokens
never spell the separator, positional tokens are neither option-like nor
the separator, and everything after the separator token is positional. -/
def scanShape (keys : List GoStr) (sep : GoStr) : List Token → Prop
  | [] => True
  | .option t :: rest =>
      (sep ≠ [] → t.pfx ++ t.name ≠ sep) ∧ scanShape keys sep rest
  | .positional t :: rest =>
      ¬ optionLike keys t.value ∧ (sep ≠ [] → t.value ≠ sep) ∧
      scanShape keys sep rest
  | .separator t :: rest => t.sep = sep ∧ sep ≠ [] ∧ allPositional rest

/-- the conditions under which one matched-option value re-parses to the
same option and resolved argument: the option is the one its name maps
to, its type is one of the five legal non-early classes, a no-argument
value is empty, an optional value is empty only for an empty default,
and a required value never spells the separator. -/
def optValueFine (cfg : Config) (sep : GoStr) (o : FlagOption) (w : GoStr) : Prop :=
  mapLookup cfg.options o.name = some o ∧
  ((o.otype = OptionTypeStandaloneArgumentNone ∧ w = []) ∨
   (o.otype = OptionTypeStandaloneArgumentOptional ∧ (w = [] → o.defaultValue = [])) ∨
   (o.otype = OptionTypeStandaloneArgumentRequired ∧ (sep ≠ [] → w ≠ sep)) ∨
   (o.otype = OptionTypeGroupableArgumentNone ∧ w = []) ∨
   (o.otype = OptionTypeGroupableArgumentRequired ∧ (sep ≠ [] → w ≠ sep)))

/-- the conditions under which one positional or separator value
re-parses to the same content, given the re-parse state: whether the
separator fragment has been emitted and whether a positional has been
seen. -/
def posElemFine (keys : List GoStr) (sep : GoStr) (st : Bool × Bool) :
    Value → Prop
  | .positionalArgument _ w =>
      (sep ≠ [] → (st.1 = true ∨ w ≠ sep)) ∧
      (optionLike keys w → st.1 = true ∨ st.2 = true)
  | .optionsArgumentsSeparator _ s2 => s2 = sep ∧ sep ≠ [] ∧ st.1 = false
  | .option _ _ _ => False

/-- the re-parse state transition of one value: a positional marks a
positional as seen, the separator marks both flags. -/
def posStep (st : Bool × Bool) : Value → Bool × Bool
  | .positionalArgument _ _ => (st.1, true)
  | .optionsArgumentsSeparator _ _ => (true, true)
  | .option _ _ _ => st

/-- the per-value condition at a given re-parse state: option values only
in the initial state and sound in themselves, other values as above. -/
def valueFineAt (cfg : Config) (keys : List GoStr) (sep : GoStr)
    (st : Bool × Bool) : Value → Prop
  | .option o _ w => st = (false, false) ∧ optValueFine cfg sep o w
  | v => posElemFine keys sep st v

/-- a value sequence whose every element is fine at the state reached
before it. -/
def seqFine (cfg : Config) (keys : List GoStr) (sep : GoStr) :
    Bool × Bool → List Value → Prop
  | _, [] => True
  | st, v :: rest =>
      valueFineAt cfg keys sep st v ∧ seqFine cfg keys sep (posStep st v) rest

/-- the re-parse state after a value sequence. -/
def stateAfter (st : Bool × Bool) (l : List Value) : Bool × Bool :=
  l.foldl posStep st

/-- the hypotheses of the amended round-trip property, all about the
parser and its validated configuration: no early options, no equals sign
in names, markers or separator, no declared marker shadowing another
option fragment, and no option fragment spelling the separator. -/
structure RoundTripCtx (px : Parser) (cfg : Config) : Prop where
  hcfg : newConfig px = .ok cfg
  noEarly : ∀ o ∈ px.options, OptionType.isEarly o.otype = false
  namesClean : ∀ o ∈ px.options, '=' ∉ o.name
  pfxClean : ∀ q ∈ pfxKeys cfg, '=' ∉ q
  sepClean : '=' ∉ px.optionsArgumentsSeparator
  noShadow : ∀ o ∈ px.options, ∀ q ∈ pfxKeys cfg,
    q <+: o.pfx ++ o.name → q.length ≤ o.pfx.length
  notSep : ∀ o ∈ px.options, o.pfx ++ o.name ≠ px.optionsArgumentsSeparator

/-- the token-independent facts the state machine guarantees for every
matched-option value: the option is the one its name maps to and the type
is one of the five legal non-early classes, with an empty value for the
no-argument classes and an empty optional value only for an empty default. -/
def optValueCore (cfg : Config) (o : FlagOption) (w : GoStr) : Prop :=
  mapLookup cfg.options o.name = some o ∧
  ((o.otype = OptionTypeStandaloneArgumentNone ∧ w = []) ∨
   (o.otype = OptionTypeStandaloneArgumentOptional ∧ (w = [] → o.defaultValue = [])) ∨
   o.otype = OptionTypeStandaloneArgumentRequired ∨
   (o.otype = OptionTypeGroupableArgumentNone ∧ w = []) ∨
   o.otype = OptionTypeGroupableArgumentRequired)

/-- a value whose resolved required argument does not spell the separator;
non-option values satisfy this trivially. -/
def reqValueNotSep (sep : GoStr) : Value → Prop
  | .option o _ w =>
      (o.otype = OptionTypeStandaloneArgumentRequired ∨
        o.otype = OptionTypeGroupableArgumentRequired) → sep ≠ [] → w ≠ sep
  | .positionalArgument _ _ => True
  | .optionsArgumentsSeparator _ _ => True

/-- an options buffer holding a required-argument value that spells the
separator: the shape produced when a required option consumes the
separator token whole. -/
def badReqSep (sep : GoStr) (l : List Value) : Prop :=
  ∃ v ∈ l, ∃ o tok w, v = Value.option o tok w ∧ sep ≠ [] ∧ w = sep ∧
    (o.otype = OptionTypeStandaloneArgumentRequired ∨
      o.otype = OptionTypeGroupableArgumentRequired)

/-- the invariant carried through the state machine by the forward
round-trip analysis: the flag agrees with the replay state, the
positionals buffer is fine and indexed below the cursor, the options
buffer holds sound option values, and under disabled permutation the
options all precede the positionals. -/
def fwdInv (cfg : Config) (keys : List GoStr) (sep : GoStr) (i : Nat)
    (st : Bool × Bool) (op : Bool) (O P : List Value) : Prop :=
  op = (st.1 || (st.2 && cfg.disablePermute)) ∧
  st = stateAfter (false, false) P ∧
  seqFine cfg keys sep (false, false) P ∧
  (∀ v ∈ O, v.index < i) ∧ (∀ v ∈ P, v.index < i) ∧
  O.Pairwise (fun a b => a.index ≤ b.index) ∧
  P.Pairwise (fun a b => a.index ≤ b.index) ∧
  (∀ v ∈ O, ∃ o tok w, v = Value.option o tok w ∧ optValueCore cfg o w) ∧
  (∀ v ∈ P, isOptionValue v = false) ∧
  (cfg.disablePermute = true → (P = [] ∨ op = true) ∧
    ∀ vO ∈ O, ∀ vP ∈ P, vO.index ≤ vP.index)

/-- what the forward analysis guarantees of the final buffers: sound
option values, a fine positional sequence, both buffers index-sorted, and
options before positionals under disabled permutation. -/
def fwdOut (cfg : Config) (keys : List GoStr) (sep : GoStr)
    (O2 P2 : List Value) : Prop :=
  (∀ v ∈ O2, ∃ o tok w, v = Value.option o tok w ∧ optValueCore cfg o w) ∧
  seqFine cfg keys sep (false, false) P2 ∧
  (∀ v ∈ P2, isOptionValue v = false) ∧
  O2.Pairwise (fun a b => a.index ≤ b.index) ∧
  P2.Pairwise (fun a b => a.index ≤ b.index) ∧
  (cfg.disablePermute = true → ∀ vO ∈ O2, ∀ vP ∈ P2, vO.index ≤ vP.index)

/-- everything the replay of one serialized option value needs from the
validated configuration: the name maps back to the option, the name is
clean, the fragments neither spell the separator nor tokenize past the
declared marker, and the marker carries the right family bit. -/
def replayOptOk (cfg2 : Config) (keys : List GoStr) (sep : GoStr)
    (o : FlagOption) (w : GoStr) : Prop :=
  mapLookup cfg2.options o.name = some o ∧
  o.name ≠ [] ∧ '=' ∉ o.name ∧
  (sep ≠ [] → o.pfx ++ o.name ≠ sep) ∧
  bestPfx keys (o.pfx ++ o.name) = some o.pfx ∧
  ((o.otype = OptionTypeStandaloneArgumentNone ∧ w = [] ∧
      OptionType.isStandalone ((mapLookup cfg2.pfxMap o.pfx).getD 0) = true) ∨
   (o.otype = OptionTypeStandaloneArgumentOptional ∧
      (w = [] → o.defaultValue = []) ∧
      OptionType.isStandalone ((mapLookup cfg2.pfxMap o.pfx).getD 0) = true ∧
      bestPfx keys (o.pfx ++ o.name ++ '=' :: w) = some o.pfx ∧
      (sep ≠ [] → o.pfx ++ o.name ++ '=' :: w ≠ sep)) ∨
   (o.otype = OptionTypeStandaloneArgumentRequired ∧ (sep ≠ [] → w ≠ sep) ∧
      OptionType.isStandalone ((mapLookup cfg2.pfxMap o.pfx).getD 0) = true) ∨
   (o.otype = OptionTypeGroupableArgumentNone ∧ w = [] ∧ (∃ c, o.name = [c]) ∧
      OptionType.isStandalone ((mapLookup cfg2.pfxMap o.pfx).getD 0) = false ∧
      OptionType.isGroupable ((mapLookup cfg2.pfxMap o.pfx).getD 0) = true) ∨
   (o.otype = OptionTypeGroupableArgumentRequired ∧ (sep ≠ [] → w ≠ sep) ∧
      (∃ c, o.name = [c]) ∧
      OptionType.isStandalone ((mapLookup cfg2.pfxMap o.pfx).getD 0) = false ∧
      OptionType.isGroupable ((mapLookup cfg2.pfxMap o.pfx).getD 0) = true))

/-- sample required-argument standalone option used by concrete witnesses. -/
def optFile : FlagOption :=
  ⟨[], ['-', '-'], ['f', 'i', 'l', 'e'], OptionTypeStandaloneArgumentRequired⟩

/-- sample optional-argument standalone option used by concrete witnesses. -/
def optHttp : FlagOption :=
  ⟨['1', '.', '1'], ['-', '-'], ['h', 't', 't', 'p'], OptionTypeStandaloneArgumentOptional⟩

/-- sample no-argument standalone option used by concrete witnesses. -/
def optVerbose : FlagOption :=
  ⟨[], ['-', '-'], ['v', 'e', 'r', 'b', 'o', 's', 'e'], OptionTypeStandaloneArgumentNone⟩

/-- sample required-argument groupable option used by concrete witnesses. -/
def optX : FlagOption := ⟨[], ['-'], ['x'], OptionTypeGroupableArgumentRequired⟩

/-- sample no-argument groupable option used by concrete witnesses. -/
def optZ : FlagOption := ⟨[], ['-'], ['z'], OptionTypeGroupableArgumentNone⟩

/-- sample early option used by concrete witnesses. -/
def optH : FlagOption := ⟨[], ['-'], ['h'], OptionTypeEarlyArgumentNone⟩

/-- sample parser configuration used by concrete witnesses. -/
def sampleParser : Parser :=
  { disablePermute := false
    maxPositionalArguments := 1000
    minPositionalArguments := 0
    optionsArgumentsSeparator := ['-', '-']
    options := [optFile, optHttp, optVerbose, optX, optZ] }

/-- a parser with one required-argument option, a separator, and no
positional arguments allowed, used by concrete counterexamples. -/
def c10Px : Parser :=
  { disablePermute := false
    maxPositionalArguments := 0
    minPositionalArguments := 0
    optionsArgumentsSeparator := ['-', '-']
    options := [optFile] }

/-- the validated configuration of that parser. -/
def c10Config : Config :=
  match newConfig c10Px with
  | .ok cfg => cfg
  | .error _ => ⟨[], [], c10Px⟩

/-- the validated configuration of the sample parser. -/
def sampleConfig : Config :=
  match newConfig sampleParser with
  | .ok cfg => cfg
  | .error _ => ⟨[], [], sampleParser⟩

/-- a parser exhibiting the round-trip failure: a required-argument long
option, an early short help option, and a groupable short option. -/
def c1Px : Parser :=
  { disablePermute := false
    maxPositionalArguments := 0
    minPositionalArguments := 0
    optionsArgumentsSeparator := ['-', '-']
    options := [optFile, optH, optZ] }



/-! Helper lemmas. -/

/-- the first-occurrence index is minus one exactly on absence. -/
theorem goIndexOf_eq_neg_of_not_mem {s : GoStr} {c : Char} (h : c ∉ s) :
    goIndexOf s c = -1 := by
  induction s with
  | nil => rfl
  | cons a rest ih =>
    have ha : a ≠ c := fun hac => h (hac ▸ List.mem_cons_self a rest)
    have hr : c ∉ rest := fun hc => h (List.mem_cons_of_mem a hc)
    simp [goIndexOf, ha, ih hr]

/-- the first occurrence of an appended character absent from the front
part sits right after the front part. -/
theorem goIndexOf_append_cons {n : GoStr} {c : Char} (h : c ∉ n) (rest : GoStr) :
    goIndexOf (n ++ c :: rest) c = n.length := by
  induction n with
  | nil => simp [goIndexOf]
  | cons a tail ih =>
    have ha : a ≠ c := fun hac => h (hac ▸ List.mem_cons_self a tail)
    have ht : c ∉ tail := fun hc => h (List.mem_cons_of_mem a hc)
    have hih := ih ht
    have hge : ¬ goIndexOf (tail ++ c :: rest) c < 0 := by
      rw [hih]; omega
    show goIndexOf (a :: (tail ++ c :: rest)) c = _
    simp only [goIndexOf, ha, if_false, hge, hih]
    simp

/-- taking while different from an absent character crosses the front part. -/
theorem takeWhile_ne_append {n : GoStr} {c : Char} (h : c ∉ n) (v : GoStr) :
    (n ++ c :: v).takeWhile (fun x => x ≠ c) = n := by
  induction n with
  | nil => simp [List.takeWhile_cons]
  | cons a tail ih =>
    have ha : a ≠ c := fun hac => h (hac ▸ List.mem_cons_self a tail)
    have ht : c ∉ tail := fun hc => h (List.mem_cons_of_mem a hc)
    simp only [List.cons_append, List.takeWhile_cons, ha]
    simpa [ha] using ih ht

/-- dropping while different from an absent character crosses the front part. -/
theorem dropWhile_ne_append {n : GoStr} {c : Char} (h : c ∉ n) (v : GoStr) :
    (n ++ c :: v).dropWhile (fun x => x ≠ c) = c :: v := by
  induction n with
  | nil => simp [List.dropWhile_cons]
  | cons a tail ih =>
    have ha : a ≠ c := fun hac => h (hac ▸ List.mem_cons_self a tail)
    have ht : c ∉ tail := fun hc => h (List.mem_cons_of_mem a hc)
    simp only [List.cons_append, List.dropWhile_cons, ha]
    simpa [ha] using ih ht

/-- splitting a raw name of the shape name-equals-value at the first
equals sign, when the name is nonempty and has no equals sign inside. -/
theorem splitOptName_append {n : GoStr} (v : GoStr) (hne : n ≠ [])
    (h : '=' ∉ n) : splitOptName (n ++ '=' :: v) = (n, v) := by
  have hidx : goIndexOf (n ++ '=' :: v) '=' = n.length := goIndexOf_append_cons h v
  have hpos : 0 < goIndexOf (n ++ '=' :: v) '=' := by
    rw [hidx]
    have : n.length ≠ 0 := fun h0 => hne (List.length_eq_zero.mp h0)
    omega
  unfold splitOptName
  rw [if_pos hpos, takeWhile_ne_append h v, dropWhile_ne_append h v]
  simp

/-- splitting a raw name with no positive-index equals sign is trivial. -/
theorem splitOptName_id {n : GoStr} (h : ¬ 0 < goIndexOf n '=') :
    splitOptName n = (n, []) := by
  unfold splitOptName
  rw [if_neg h]



/-! Claim theorems. -/

/-- C7: for every configuration and option token, findOption returns the
declared option exactly when an option with that name exists, its declared
Prefix equals the token Prefix, and its behavior bits intersect the
requested family; a mismatch on any of the three axes yields the
UnknownOption error carrying the attempted name, the token Prefix and the
originating token, and never any other error. -/
theorem claim_C7_findOption (cfg : Config) (tok : OptionToken)
    (optname : GoStr) (kind : OptionType) :
    (∀ o, cfg.findOption tok optname kind = .ok o ↔
      (mapLookup cfg.options optname = some o ∧ o.pfx = tok.pfx ∧
        o.otype &&& kind ≠ 0)) ∧
    (∀ e, cfg.findOption tok optname kind = .error e →
      e = .unknownOption optname tok.pfx (.option tok)) := by
  unfold Config.findOption
  cases h : mapLookup cfg.options optname with
  | none =>
    refine ⟨fun o => ?_, fun e he => ?_⟩
    · simp
    · simpa using he.symm
  | some o1 =>
    have hmatch : (match (some o1 : Option FlagOption) with
        | none => Except.error (Err.unknownOption optname tok.pfx (Token.option tok))
        | some opt =>
          if opt.pfx = tok.pfx ∧ opt.otype &&& kind ≠ 0 then Except.ok opt
          else Except.error (Err.unknownOption optname tok.pfx (Token.option tok))) =
        (if o1.pfx = tok.pfx ∧ o1.otype &&& kind ≠ 0 then (Except.ok o1 : Except Err FlagOption)
          else Except.error (Err.unknownOption optname tok.pfx (Token.option tok))) := rfl
    rw [hmatch]
    by_cases hc : o1.pfx = tok.pfx ∧ o1.otype &&& kind ≠ 0
    · rw [if_pos hc]
      refine ⟨fun o => ?_, fun e he => ?_⟩
      · constructor
        · intro hok
          have ho : o1 = o := by simpa using hok
          subst ho
          exact ⟨rfl, hc.1, hc.2⟩
        · rintro ⟨hs, -, -⟩
          have ho : o1 = o := by simpa using hs
          simp [ho]
      · exact absurd he (by simp)
    · rw [if_neg hc]
      refine ⟨fun o => ?_, fun e he => ?_⟩
      · constructor
        · intro hok
          exact absurd hok (by simp)
        · rintro ⟨hs, hp, hk⟩
          have ho : o1 = o := by simpa using hs
          subst ho
          exact absurd ⟨hp, hk⟩ hc
      · simpa using he.symm

/-- C7 witness: a concrete successful lookup and a concrete mismatch both
settled through the theorem. -/
theorem claim_C7_findOption_witness :
    sampleConfig.findOption ⟨3, ['-', '-'], ['f', 'i', 'l', 'e']⟩
      ['f', 'i', 'l', 'e'] optionKindStandalone = .ok optFile ∧
    Err.unknownOption ['f', 'i', 'l', 'e'] ['-'] (.option ⟨3, ['-'], ['f', 'i', 'l', 'e']⟩) =
      .unknownOption ['f', 'i', 'l', 'e'] ['-'] (.option ⟨3, ['-'], ['f', 'i', 'l', 'e']⟩) := by
  constructor
  · exact ((claim_C7_findOption sampleConfig ⟨3, ['-', '-'], ['f', 'i', 'l', 'e']⟩
      ['f', 'i', 'l', 'e'] optionKindStandalone).1 optFile).mpr
      ⟨by decide, by decide, by decide⟩
  · exact (claim_C7_findOption sampleConfig ⟨3, ['-'], ['f', 'i', 'l', 'e']⟩
      ['f', 'i', 'l', 'e'] optionKindStandalone).2 _ (by decide)

/-- C5: a standalone required-argument option token written without an
equals-sign value consumes the next token, whatever its kind or shape, as
the literal argument value, and fails with OptionRequiresArgument exactly
when no next token exists. -/
theorem claim_C5_required_consumes_next (cfg : Config) (cur : OptionToken)
    (next : Option Token) (opt : FlagOption)
    (hsplit : ¬ 0 < goIndexOf cur.name '=')
    (hfind : cfg.findOption cur cur.name optionKindStandalone = .ok opt)
    (htype : opt.otype = OptionTypeStandaloneArgumentRequired) :
    doParseStandaloneOption cfg cur next =
      match next with
      | some tok => .ok (true, .option opt (.option cur) tok.str)
      | none => .error (.optionRequiresArgument opt (.option cur)) := by
  unfold doParseStandaloneOption
  rw [splitOptName_id hsplit]
  simp only [hfind, htype]
  have h1 : OptionTypeStandaloneArgumentRequired ≠ OptionTypeStandaloneArgumentNone := by decide
  have h2 : OptionTypeStandaloneArgumentRequired ≠ OptionTypeStandaloneArgumentOptional := by decide
  cases next <;> simp [h1, h2]

/-- C5 witness: the sample required option consumes a following
option-looking token whole, and fails at the end of the stream. -/
theorem claim_C5_required_consumes_next_witness :
    doParseStandaloneOption sampleConfig ⟨0, ['-', '-'], ['f', 'i', 'l', 'e']⟩
      (some (.option ⟨1, ['-', '-'], ['v', 'e', 'r', 'b', 'o', 's', 'e']⟩)) =
      .ok (true, .option optFile (.option ⟨0, ['-', '-'], ['f', 'i', 'l', 'e']⟩)
        ['-', '-', 'v', 'e', 'r', 'b', 'o', 's', 'e']) ∧
    doParseStandaloneOption sampleConfig ⟨0, ['-', '-'], ['f', 'i', 'l', 'e']⟩ none =
      .error (.optionRequiresArgument optFile
        (.option ⟨0, ['-', '-'], ['f', 'i', 'l', 'e']⟩)) := by
  constructor
  · exact claim_C5_required_consumes_next sampleConfig _ _ optFile
      (by decide) (by decide) (by decide)
  · exact claim_C5_required_consumes_next sampleConfig _ none optFile
      (by decide) (by decide) (by decide)

/-- C9: a standalone optional-argument option token carrying an explicit
but empty value, written as the name followed by a bare equals sign,
resolves to the declared default value, exactly as when the equals sign is
omitted, so the two spellings are indistinguishable. -/
theorem claim_C9_optional_empty_is_default (cfg : Config) (idx : Nat)
    (pfx : GoStr) (opt : FlagOption) (next : Option Token)
    (hlook : mapLookup cfg.options opt.name = some opt)
    (hpfx : opt.pfx = pfx)
    (htype : opt.otype = OptionTypeStandaloneArgumentOptional)
    (hne : opt.name ≠ [])
    (heq : '=' ∉ opt.name) :
    doParseStandaloneOption cfg ⟨idx, pfx, opt.name ++ ['=']⟩ next =
      .ok (false, .option opt (.option ⟨idx, pfx, opt.name ++ ['=']⟩)
        opt.defaultValue) ∧
    doParseStandaloneOption cfg ⟨idx, pfx, opt.name⟩ next =
      .ok (false, .option opt (.option ⟨idx, pfx, opt.name⟩)
        opt.defaultValue) := by
  have hfind : ∀ tk : OptionToken, tk.pfx = pfx →
      cfg.findOption tk opt.name optionKindStandalone = .ok opt := by
    intro tk htk
    unfold Config.findOption
    rw [hlook]
    have hb : opt.pfx = tk.pfx ∧ opt.otype &&& optionKindStandalone ≠ 0 :=
      ⟨by rw [hpfx, htk], by rw [htype]; decide⟩
    simp [hb.1, hb.2]
  have h1 : OptionTypeStandaloneArgumentOptional ≠ OptionTypeStandaloneArgumentNone := by decide
  constructor
  · unfold doParseStandaloneOption
    rw [show (⟨idx, pfx, opt.name ++ ['=']⟩ : OptionToken).name = opt.name ++ '=' :: [] from rfl,
      splitOptName_append [] hne heq]
    simp only [hfind ⟨idx, pfx, opt.name ++ ['=']⟩ rfl, htype]
    simp [h1]
  · unfold doParseStandaloneOption
    have hidx : goIndexOf opt.name '=' = -1 := goIndexOf_eq_neg_of_not_mem heq
    rw [show (⟨idx, pfx, opt.name⟩ : OptionToken).name = opt.name from rfl,
      splitOptName_id (by rw [hidx]; omega)]
    simp only [hfind ⟨idx, pfx, opt.name⟩ rfl, htype]
    simp [h1]

/-- C9 witness: the sample optional option with a bare equals sign and
with no equals sign both resolve to the default value. -/
theorem claim_C9_optional_empty_is_default_witness :
    doParseStandaloneOption sampleConfig ⟨0, ['-', '-'], ['h', 't', 't', 'p', '=']⟩ none =
      .ok (false, .option optHttp (.option ⟨0, ['-', '-'], ['h', 't', 't', 'p', '=']⟩)
        ['1', '.', '1']) ∧
    doParseStandaloneOption sampleConfig ⟨0, ['-', '-'], ['h', 't', 't', 'p']⟩ none =
      .ok (false, .option optHttp (.option ⟨0, ['-', '-'], ['h', 't', 't', 'p']⟩)
        ['1', '.', '1']) := by
  have h := claim_C9_optional_empty_is_default sampleConfig 0 ['-', '-'] optHttp none
    (by decide) (by decide) (by decide) (by decide) (by decide)
  exact h


/-- the scan step of earlyParse rewritten through earlyMatch. -/
theorem earlyParse_cons_option (options : List FlagOption) (tok : OptionToken)
    (rest : List Token) (dp : Bool) :
    earlyParse options (.option tok :: rest) dp =
      match earlyMatch options tok with
      | some o => some (.option o (.option tok) [])
      | none => earlyParse options rest dp := rfl

/-- the early scan ignores every token it walks past. -/
theorem earlyParse_append_skips (options : List FlagOption) (dp : Bool)
    (pre rest : List Token) (hpre : ∀ t ∈ pre, earlySkips options dp t) :
    earlyParse options (pre ++ rest) dp = earlyParse options rest dp := by
  induction pre with
  | nil => rfl
  | cons t pre1 ih =>
    have ht := hpre t (List.mem_cons_self t pre1)
    have hrest : ∀ t1 ∈ pre1, earlySkips options dp t1 :=
      fun t1 h1 => hpre t1 (List.mem_cons_of_mem t h1)
    cases t with
    | option tok =>
      rw [List.cons_append, earlyParse_cons_option, ht]
      exact ih hrest
    | positional tok =>
      have : dp = false := ht
      subst this
      rw [List.cons_append]
      show earlyParse options (pre1 ++ rest) false = _
      exact ih hrest
    | separator tok =>
      rw [List.cons_append]
      show earlyParse options (pre1 ++ rest) dp = _
      exact ih hrest

/-- C3: for every token sequence containing an option token that exactly
matches a declared early option and is reachable by the early-scan rules,
the token-level parse returns exactly the matched-option value of the
first such match and no error, no matter what follows the match. -/
theorem claim_C3_early_short_circuit (px : Parser) (cfg : Config)
    (pre post : List Token) (t : OptionToken) (o : FlagOption)
    (hpre : ∀ tok ∈ pre, earlySkips px.options px.disablePermute tok)
    (hfind : earlyMatch px.options t = some o) :
    parseTokens px cfg (pre ++ .option t :: post) =
      .ok [.option o (.option t) []] := by
  unfold parseTokens
  rw [earlyParse_append_skips px.options px.disablePermute pre _ hpre,
    earlyParse_cons_option, hfind]

/-- C3 witness: an early help option after invalid tokens is returned
alone, though the state machine would have raised UnknownOption. -/
theorem claim_C3_early_short_circuit_witness :
    parseTokens { sampleParser with options := [optH, optX, optZ] } sampleConfig
      ([.option ⟨0, ['-', '-'], ['b', 'o', 'g', 'u', 's']⟩,
        .positional ⟨1, ['w']⟩] ++ .option ⟨2, ['-'], ['h']⟩ :: [.positional ⟨3, ['q']⟩]) =
      .ok [.option optH (.option ⟨2, ['-'], ['h']⟩) []] := by
  exact claim_C3_early_short_circuit _ sampleConfig
    [.option ⟨0, ['-', '-'], ['b', 'o', 'g', 'u', 's']⟩, .positional ⟨1, ['w']⟩]
    [.positional ⟨3, ['q']⟩] ⟨2, ['-'], ['h']⟩ optH
    (by
      intro tok htok
      simp only [List.mem_cons, List.mem_singleton] at htok
      rcases htok with h | h | h
      · subst h; show earlyMatch _ _ = none; decide
      · subst h; show (false = false); rfl
      · exact absurd h (by simp))
    (by decide)

/-- C4: when the first early-matching option token comes after a
positional token, the early scan misses it exactly when permutation is
disabled: with permutation disabled the scan reports not found, and with
permutation enabled the same sequence still yields the match. -/
theorem claim_C4_positional_gates_early_scan (options : List FlagOption)
    (pre mid : List Token) (p : PositionalArgumentToken) (v : Value)
    (hpre : ∀ t ∈ pre, noEarlyMatch options t)
    (hmid : earlyParse options mid false = some v) :
    earlyParse options (pre ++ .positional p :: mid) true = none ∧
    earlyParse options (pre ++ .positional p :: mid) false = some v := by
  constructor
  · induction pre with
    | nil => rfl
    | cons t pre1 ih =>
      have ht := hpre t (List.mem_cons_self t pre1)
      have hrest : ∀ t1 ∈ pre1, noEarlyMatch options t1 :=
        fun t1 h1 => hpre t1 (List.mem_cons_of_mem t h1)
      cases t with
      | option tok =>
        rw [List.cons_append, earlyParse_cons_option, ht]
        exact ih hrest
      | positional tok => rfl
      | separator tok =>
        rw [List.cons_append]
        show earlyParse options (pre1 ++ _) true = none
        exact ih hrest
  · have hskip : ∀ t ∈ pre, earlySkips options false t := by
      intro t htmem
      have := hpre t htmem
      cases t with
      | option tok => exact this
      | positional tok => rfl
      | separator tok => trivial
    rw [earlyParse_append_skips options false pre _ hskip]
    show earlyParse options mid false = some v
    exact hmid

/-- C4 witness: a positional before the early help option hides it under
disabled permutation and leaves it reachable under enabled permutation. -/
theorem claim_C4_positional_gates_early_scan_witness :
    earlyParse [optH] ([.option ⟨0, ['-'], ['x']⟩] ++
      .positional ⟨1, ['f']⟩ :: [.option ⟨2, ['-'], ['h']⟩]) true = none ∧
    earlyParse [optH] ([.option ⟨0, ['-'], ['x']⟩] ++
      .positional ⟨1, ['f']⟩ :: [.option ⟨2, ['-'], ['h']⟩]) false =
      some (.option optH (.option ⟨2, ['-'], ['h']⟩) []) := by
  exact claim_C4_positional_gates_early_scan [optH]
    [.option ⟨0, ['-'], ['x']⟩] [.option ⟨2, ['-'], ['h']⟩] ⟨1, ['f']⟩ _
    (by
      intro t htmem
      simp only [List.mem_singleton] at htmem
      subst htmem
      show earlyMatch _ _ = none
      decide)
    (by decide)


/-- the unfolding equation of the groupable walk at one character. -/
theorem groupWalk_cons_eq (cfg : Config) (cur : OptionToken) (c : Char)
    (rest : GoStr) (next : Option Token) (acc : List Value) :
    groupWalk cfg cur (c :: rest) next acc =
      (match cfg.findOption cur [c] optionKindGroupable with
       | .error e => .error e
       | .ok opt =>
         if opt.otype = OptionTypeGroupableArgumentNone then
           groupWalk cfg cur rest next (acc ++ [.option opt (.option cur) []])
         else if opt.otype = OptionTypeGroupableArgumentRequired then
           if rest.length ≠ 0 then
             .ok (false, acc ++ [.option opt (.option cur) rest])
           else
             match next with
             | some tok => .ok (true, acc ++ [.option opt (.option cur) tok.str])
             | none => .error (.optionRequiresArgument opt (.option cur))
         else .error .panicked) := by
  simp only [groupWalk]

/-- the groupable walk across characters that all resolve to no-argument
groupable options appends one matched value per character. -/
theorem groupWalk_noArg (cfg : Config) (cur : OptionToken) (next : Option Token)
    {g : GoStr} {os : List FlagOption}
    (hg : List.Forall₂ (fun ch o =>
      cfg.findOption cur [ch] optionKindGroupable = .ok o ∧
      o.otype = OptionTypeGroupableArgumentNone) g os) :
    ∀ acc, groupWalk cfg cur g next acc =
      .ok (false, acc ++ os.map (fun o => .option o (.option cur) [])) := by
  induction hg with
  | nil => intro acc; simp [groupWalk]
  | @cons ch o g1 os1 h1 h2 ih =>
    intro acc
    obtain ⟨hfind, htype⟩ := h1
    rw [groupWalk_cons_eq, hfind]
    simp only [htype, if_true]
    rw [ih (acc ++ [Value.option o (.option cur) []])]
    simp

/-- the groupable walk at a required-argument character: an in-token
remainder is taken whole and ends the walk, otherwise the next token is
consumed whole, otherwise the walk fails with OptionRequiresArgument. -/
theorem groupWalk_required (cfg : Config) (cur : OptionToken) (next : Option Token)
    {g : GoStr} {os : List FlagOption}
    (hg : List.Forall₂ (fun ch o =>
      cfg.findOption cur [ch] optionKindGroupable = .ok o ∧
      o.otype = OptionTypeGroupableArgumentNone) g os)
    (c : Char) (opt : FlagOption) (rest : GoStr)
    (hc : cfg.findOption cur [c] optionKindGroupable = .ok opt)
    (hreq : opt.otype = OptionTypeGroupableArgumentRequired) :
    ∀ acc, groupWalk cfg cur (g ++ c :: rest) next acc =
      (if rest.length ≠ 0 then
        .ok (false, acc ++ os.map (fun o => .option o (.option cur) []) ++
          [.option opt (.option cur) rest])
      else
        match next with
        | some tok => .ok (true, acc ++ os.map (fun o => .option o (.option cur) []) ++
            [.option opt (.option cur) tok.str])
        | none => .error (.optionRequiresArgument opt (.option cur))) := by
  have hne : opt.otype ≠ OptionTypeGroupableArgumentNone := by rw [hreq]; decide
  induction hg with
  | nil =>
    intro acc
    rw [show ([] : GoStr) ++ c :: rest = c :: rest from rfl]
    rw [groupWalk_cons_eq, hc]
    have hd : ¬(OptionTypeGroupableArgumentRequired = OptionTypeGroupableArgumentNone) := by decide
    cases next <;> by_cases h3 : rest.length ≠ 0 <;> simp [hne, hreq, h3, hd]
  | @cons ch o g1 os1 h1 h2 ih =>
    intro acc
    obtain ⟨hfind, htype⟩ := h1
    rw [List.cons_append, groupWalk_cons_eq, hfind]
    simp only [htype, if_true]
    rw [ih (acc ++ [Value.option o (.option cur) []])]
    cases next <;> by_cases h3 : rest.length ≠ 0 <;> simp [h3]

/-- every value the groupable walk appends shares the originating token. -/
theorem groupWalk_token (cfg : Config) (cur : OptionToken) :
    ∀ (s : GoStr) (next : Option Token) (acc : List Value) (consumed : Bool)
      (vals : List Value),
      groupWalk cfg cur s next acc = .ok (consumed, vals) →
      ∀ v ∈ vals, v ∈ acc ∨ v.token = .option cur := by
  intro s
  induction s with
  | nil =>
    intro next acc consumed vals h v hv
    have hacc : acc = vals := by
      simp [groupWalk] at h
      exact h.2
    exact Or.inl (hacc ▸ hv)
  | cons c rest ih =>
    intro next acc consumed vals h v hv
    rw [groupWalk_cons_eq] at h
    cases hfind : cfg.findOption cur [c] optionKindGroupable with
    | error e => rw [hfind] at h; exact absurd h (by simp)
    | ok opt =>
      rw [hfind] at h
      simp only [] at h
      have hstep : ∀ w : GoStr, v ∈ acc ++ [Value.option opt (.option cur) w] →
          v ∈ acc ∨ v.token = .option cur := by
        intro w hw
        rcases List.mem_append.mp hw with ha | hb
        · exact Or.inl ha
        · right
          have hveq : v = Value.option opt (.option cur) w := by simpa using hb
          rw [hveq]; rfl
      by_cases h1 : opt.otype = OptionTypeGroupableArgumentNone
      · simp only [h1, if_true] at h
        have hmem := ih next (acc ++ [Value.option opt (.option cur) []]) consumed vals h v hv
        rcases hmem with hmem | htok
        · exact hstep [] hmem
        · exact Or.inr htok
      · simp only [h1, if_false] at h
        by_cases h2 : opt.otype = OptionTypeGroupableArgumentRequired
        · simp only [h2, if_true] at h
          by_cases h3 : rest.length ≠ 0
          · rw [if_pos h3] at h
            have hvals : vals = acc ++ [Value.option opt (.option cur) rest] := by
              simp at h
              exact h.2.symm
            exact hstep rest (hvals ▸ hv)
          · rw [if_neg h3] at h
            cases next with
            | none => exact absurd h (by simp)
            | some tok =>
              have hvals : vals = acc ++ [Value.option opt (.option cur) tok.str] := by
                simp at h
                exact h.2.symm
              exact hstep tok.str (hvals ▸ hv)
        · simp only [h2, if_false] at h
          exact absurd h (by simp)


/-- C6: the groupable walk resolves the raw name one character at a time,
each resolved character producing its own matched-option value that shares
the originating token; when a required-argument character is reached, an
in-token remainder is taken whole as the argument and the walk ends,
otherwise an existing next token is consumed whole, otherwise the parse
fails with OptionRequiresArgument. -/
theorem claim_C6_groupable_walk (cfg : Config) (cur : OptionToken)
    (next : Option Token) :
    (∀ os, List.Forall₂ (fun ch o =>
        cfg.findOption cur [ch] optionKindGroupable = .ok o ∧
        o.otype = OptionTypeGroupableArgumentNone) cur.name os →
      doParseGroupableOption cfg cur next =
        .ok (false, os.map (fun o => .option o (.option cur) []))) ∧
    (∀ g os c opt rest, cur.name = g ++ c :: rest →
      List.Forall₂ (fun ch o =>
        cfg.findOption cur [ch] optionKindGroupable = .ok o ∧
        o.otype = OptionTypeGroupableArgumentNone) g os →
      cfg.findOption cur [c] optionKindGroupable = .ok opt →
      opt.otype = OptionTypeGroupableArgumentRequired →
      doParseGroupableOption cfg cur next =
        (if rest.length ≠ 0 then
          .ok (false, os.map (fun o => .option o (.option cur) []) ++
            [.option opt (.option cur) rest])
        else
          match next with
          | some tok => .ok (true, os.map (fun o => .option o (.option cur) []) ++
              [.option opt (.option cur) tok.str])
          | none => .error (.optionRequiresArgument opt (.option cur)))) ∧
    (∀ consumed vals, doParseGroupableOption cfg cur next = .ok (consumed, vals) →
      ∀ v ∈ vals, v.token = .option cur) := by
  refine ⟨fun os hg => ?_, fun g os c opt rest hname hg hc hreq => ?_,
    fun consumed vals h v hv => ?_⟩
  · unfold doParseGroupableOption
    rw [groupWalk_noArg cfg cur next hg []]
    simp
  · unfold doParseGroupableOption
    rw [hname, groupWalk_required cfg cur next hg c opt rest hc hreq []]
    cases next <;> by_cases h3 : rest.length ≠ 0 <;> simp [h3]
  · have := groupWalk_token cfg cur cur.name next [] consumed vals h v hv
    rcases this with hmem | htok
    · exact absurd hmem (by simp)
    · exact htok

/-- C6 witness: the sample group of a no-argument and then a required
groupable option consumes the next token for the trailing character,
consumes the in-token remainder when glued, shares one originating token
everywhere, and fails without a next token. -/
theorem claim_C6_groupable_walk_witness :
    doParseGroupableOption sampleConfig ⟨0, ['-'], ['z', 'x']⟩
      (some (.positional ⟨1, ['F']⟩)) =
      .ok (true, [.option optZ (.option ⟨0, ['-'], ['z', 'x']⟩) [],
        .option optX (.option ⟨0, ['-'], ['z', 'x']⟩) ['F']]) ∧
    doParseGroupableOption sampleConfig ⟨0, ['-'], ['z', 'x', 'F']⟩ none =
      .ok (false, [.option optZ (.option ⟨0, ['-'], ['z', 'x', 'F']⟩) [],
        .option optX (.option ⟨0, ['-'], ['z', 'x', 'F']⟩) ['F']]) ∧
    doParseGroupableOption sampleConfig ⟨0, ['-'], ['z', 'x']⟩ none =
      .error (.optionRequiresArgument optX (.option ⟨0, ['-'], ['z', 'x']⟩)) := by
  have hforall : List.Forall₂ (fun ch o =>
      sampleConfig.findOption ⟨0, ['-'], ['z', 'x']⟩ [ch] optionKindGroupable = .ok o ∧
      o.otype = OptionTypeGroupableArgumentNone) ['z'] [optZ] :=
    List.Forall₂.cons ⟨by decide, by decide⟩ List.Forall₂.nil
  refine ⟨?_, ?_, ?_⟩
  · have h := ((claim_C6_groupable_walk sampleConfig ⟨0, ['-'], ['z', 'x']⟩
      (some (.positional ⟨1, ['F']⟩))).2.1) ['z'] [optZ] 'x' optX []
      (by decide) (List.Forall₂.cons ⟨by decide, by decide⟩ List.Forall₂.nil)
      (by decide) (by decide)
    simpa using h
  · have h := ((claim_C6_groupable_walk sampleConfig ⟨0, ['-'], ['z', 'x', 'F']⟩
      none).2.1) ['z'] [optZ] 'x' optX ['F']
      (by decide) (List.Forall₂.cons ⟨by decide, by decide⟩ List.Forall₂.nil)
      (by decide) (by decide)
    simpa using h
  · have h := ((claim_C6_groupable_walk sampleConfig ⟨0, ['-'], ['z', 'x']⟩
      none).2.1) ['z'] [optZ] 'x' optX []
      (by decide) (List.Forall₂.cons ⟨by decide, by decide⟩ List.Forall₂.nil)
      (by decide) (by decide)
    simpa using h


/-- stable insertion produces a permutation of pushing at the front. -/
theorem insertValue_perm (v : Value) (l : List Value) :
    (insertValue v l).Perm (v :: l) := by
  induction l with
  | nil => exact List.Perm.refl _
  | cons w rest ih =>
    by_cases hle : w.index ≤ v.index
    · rw [insertValue, if_pos hle]
      exact (ih.cons w).trans (List.Perm.swap v w rest)
    · rw [insertValue, if_neg hle]

/-- stable insertion preserves sortedness by source index. -/
theorem insertValue_sorted (v : Value) {l : List Value}
    (hl : List.Pairwise (fun a b => a.index ≤ b.index) l) :
    List.Pairwise (fun a b => a.index ≤ b.index) (insertValue v l) := by
  induction l with
  | nil => simp [insertValue]
  | cons w rest ih =>
    obtain ⟨hw, hrest⟩ := List.pairwise_cons.mp hl
    by_cases hle : w.index ≤ v.index
    · rw [insertValue, if_pos hle]
      refine List.pairwise_cons.mpr ⟨?_, ih hrest⟩
      intro b hb
      have : b ∈ v :: rest := (insertValue_perm v rest).mem_iff.mp hb
      rcases List.mem_cons.mp this with hbv | hbr
      · rw [hbv]; exact hle
      · exact hw b hbr
    · rw [insertValue, if_neg hle]
      refine List.pairwise_cons.mpr ⟨?_, hl⟩
      intro b hb
      have hvw : v.index ≤ w.index := Nat.le_of_lt (Nat.lt_of_not_le hle)
      rcases List.mem_cons.mp hb with hbw | hbr
      · rw [hbw]; exact hvw
      · exact Nat.le_trans hvw (hw b hbr)

/-- the fold of stable insertions permutes the concatenation. -/
theorem sortValues_fold_perm (l : List Value) :
    ∀ acc, (l.foldl (fun acc v => insertValue v acc) acc).Perm (acc ++ l) := by
  induction l with
  | nil => intro acc; simp
  | cons v rest ih =>
    intro acc
    have h1 := ih (insertValue v acc)
    have h2 : (insertValue v acc ++ rest).Perm (acc ++ v :: rest) := by
      refine ((insertValue_perm v acc).append_right rest).trans ?_
      exact (List.perm_middle).symm
    exact (List.foldl_cons _ _ ▸ h1).trans h2

/-- sortValues permutes its input. -/
theorem sortValues_perm (l : List Value) : (sortValues l).Perm l := by
  have := sortValues_fold_perm l []
  simpa [sortValues] using this

/-- the fold of stable insertions keeps the accumulator sorted. -/
theorem sortValues_fold_sorted (l : List Value) :
    ∀ acc, List.Pairwise (fun a b => a.index ≤ b.index) acc →
      List.Pairwise (fun a b => a.index ≤ b.index)
        (l.foldl (fun acc v => insertValue v acc) acc) := by
  induction l with
  | nil => intro acc hacc; simpa
  | cons v rest ih =>
    intro acc hacc
    exact List.foldl_cons _ _ ▸ ih (insertValue v acc) (insertValue_sorted v hacc)

/-- sortValues sorts by source index. -/
theorem sortValues_sorted (l : List Value) :
    List.Pairwise (fun a b => a.index ≤ b.index) (sortValues l) :=
  sortValues_fold_sorted l [] (List.Pairwise.nil)

/-- a list sorted by source index that is a permutation of a strictly
sorted list equals it. -/
theorem sorted_perm_strict_unique :
    ∀ {L M : List Value}, M.Perm L →
      List.Pairwise (fun a b => a.index ≤ b.index) M →
      List.Pairwise (fun a b => a.index < b.index) L → M = L := by
  intro L
  induction L with
  | nil =>
    intro M hperm _ _
    exact List.Perm.eq_nil hperm
  | cons x L1 ih =>
    intro M hperm hM hL
    obtain ⟨hxL, hL1⟩ := List.pairwise_cons.mp hL
    cases M with
    | nil => exact absurd hperm.symm (by simp)
    | cons y M1 =>
      obtain ⟨hyM, hM1⟩ := List.pairwise_cons.mp hM
      have hyx : y = x := by
        have hy_mem : y ∈ x :: L1 := hperm.mem_iff.mp (List.mem_cons_self y M1)
        rcases List.mem_cons.mp hy_mem with h | h
        · exact h
        · exfalso
          have hx_mem : x ∈ y :: M1 := hperm.symm.mem_iff.mp (List.mem_cons_self x L1)
          rcases List.mem_cons.mp hx_mem with h1 | h1
          · have := hxL y h
            rw [h1] at this
            exact Nat.lt_irrefl _ this
          · have h2 := hyM x h1
            have h3 := hxL y h
            exact Nat.lt_irrefl _ (Nat.lt_of_lt_of_le h3 h2)
      subst hyx
      have htail : M1.Perm L1 := hperm.cons_inv
      rw [ih htail hM1 hL1]

/-- C2: reorder mode emits every options-buffer value before every
positionals-buffer value with each group sorted by source index, and
preserve mode reproduces any strictly index-sorted original ordering of
the two buffers, regardless of which buffer each item landed in. -/
theorem claim_C2_permute_modes (options positionals : List Value) :
    (permute false options positionals =
        sortValues options ++ sortValues positionals ∧
      (sortValues options).Perm options ∧
      (sortValues positionals).Perm positionals ∧
      List.Pairwise (fun a b => a.index ≤ b.index) (sortValues options) ∧
      List.Pairwise (fun a b => a.index ≤ b.index) (sortValues positionals)) ∧
    (∀ original : List Value,
      List.Pairwise (fun a b => a.index < b.index) original →
      (options ++ positionals).Perm original →
      permute true options positionals = original) := by
  constructor
  · exact ⟨rfl, sortValues_perm options, sortValues_perm positionals,
      sortValues_sorted options, sortValues_sorted positionals⟩
  · intro original hstrict hperm
    show sortValues (options ++ positionals) = original
    exact sorted_perm_strict_unique
      ((sortValues_perm (options ++ positionals)).trans hperm)
      (sortValues_sorted (options ++ positionals)) hstrict

/-- C2 witness: the permute test fixture of the repository, on which
reorder mode floats the options ahead and preserve mode restores the
original token order. -/
theorem claim_C2_permute_modes_witness :
    permute true
      [.option optVerbose (.option ⟨1, ['-', '-'], ['v', 'e', 'r', 'b', 'o', 's', 'e']⟩) [],
        .option optFile (.option ⟨4, ['-', '-'], ['f', 'i', 'l', 'e']⟩) ['a']]
      [.positionalArgument (.positional ⟨2, ['p']⟩) ['p'],
        .optionsArgumentsSeparator (.separator ⟨3, ['-', '-']⟩) ['-', '-']] =
      [.option optVerbose (.option ⟨1, ['-', '-'], ['v', 'e', 'r', 'b', 'o', 's', 'e']⟩) [],
        .positionalArgument (.positional ⟨2, ['p']⟩) ['p'],
        .optionsArgumentsSeparator (.separator ⟨3, ['-', '-']⟩) ['-', '-'],
        .option optFile (.option ⟨4, ['-', '-'], ['f', 'i', 'l', 'e']⟩) ['a']] := by
  exact (claim_C2_permute_modes _ _).2 _
    (by decide)
    (by decide)


/-- a set bit survives an or with itself present. -/
theorem or64_and64_ne (x : Nat) :
    (x ||| optionKindGroupable) &&& optionKindGroupable ≠ 0 := by
  show (x ||| 64) &&& 64 ≠ 0
  intro h
  have h6 : ((x ||| 64) &&& 64).testBit 6 = true := by
    rw [Nat.testBit_and, Nat.testBit_or]
    have hb : Nat.testBit 64 6 = true := by decide
    simp [hb]
  rw [h, Nat.zero_testBit] at h6
  exact Bool.false_ne_true h6

/-- a set bit survives an or with itself present. -/
theorem or32_and32_ne (x : Nat) :
    (x ||| optionKindStandalone) &&& optionKindStandalone ≠ 0 := by
  show (x ||| 32) &&& 32 ≠ 0
  intro h
  have h5 : ((x ||| 32) &&& 32).testBit 5 = true := by
    rw [Nat.testBit_and, Nat.testBit_or]
    have hb : Nat.testBit 32 5 = true := by decide
    simp [hb]
  rw [h, Nat.zero_testBit] at h5
  exact Bool.false_ne_true h5

/-- an or with the groupable bit leaves the standalone bit alone. -/
theorem or64_and32 (x : Nat) :
    (x ||| optionKindGroupable) &&& optionKindStandalone = x &&& optionKindStandalone := by
  show (x ||| 64) &&& 32 = x &&& 32
  apply Nat.eq_of_testBit_eq
  intro i
  rw [Nat.testBit_and, Nat.testBit_and, Nat.testBit_or]
  by_cases h5 : i = 5
  · subst h5
    have hb : Nat.testBit 64 5 = false := by decide
    simp [hb]
  · have h32 : (32 : Nat).testBit i = false := by
      have he : (32 : Nat) = 2 ^ 5 := by norm_num
      rw [he, Nat.testBit_two_pow]
      simpa using fun hh => h5 hh.symm
    rw [h32]
    simp

/-- an or with the standalone bit leaves the groupable bit alone. -/
theorem or32_and64 (x : Nat) :
    (x ||| optionKindStandalone) &&& optionKindGroupable = x &&& optionKindGroupable := by
  show (x ||| 32) &&& 64 = x &&& 64
  apply Nat.eq_of_testBit_eq
  intro i
  rw [Nat.testBit_and, Nat.testBit_and, Nat.testBit_or]
  by_cases h6 : i = 6
  · subst h6
    have hb : Nat.testBit 32 6 = false := by decide
    simp [hb]
  · have h64 : (64 : Nat).testBit i = false := by
      have he : (64 : Nat) = 2 ^ 6 := by norm_num
      rw [he, Nat.testBit_two_pow]
      simpa using fun hh => h6 hh.symm
    rw [h64]
    simp

/-- both family bits set separately give both set jointly. -/
theorem and_both_bits {x : Nat} (h64 : x &&& 64 ≠ 0) (h32 : x &&& 32 ≠ 0) :
    x &&& (optionKindGroupable ||| optionKindStandalone) =
      optionKindGroupable ||| optionKindStandalone := by
  have hb6 : x.testBit 6 = true := by
    by_contra hb
    apply h64
    apply Nat.eq_of_testBit_eq
    intro i
    rw [Nat.testBit_and, Nat.zero_testBit]
    by_cases h6 : i = 6
    · subst h6
      simp [Bool.eq_false_iff.mpr hb]
    · have : (64 : Nat).testBit i = false := by
        have he : (64 : Nat) = 2 ^ 6 := by norm_num
        rw [he, Nat.testBit_two_pow]
        simpa using fun hh => h6 hh.symm
      simp [this]
  have hb5 : x.testBit 5 = true := by
    by_contra hb
    apply h32
    apply Nat.eq_of_testBit_eq
    intro i
    rw [Nat.testBit_and, Nat.zero_testBit]
    by_cases h5 : i = 5
    · subst h5
      simp [Bool.eq_false_iff.mpr hb]
    · have : (32 : Nat).testBit i = false := by
        have he : (32 : Nat) = 2 ^ 5 := by norm_num
        rw [he, Nat.testBit_two_pow]
        simpa using fun hh => h5 hh.symm
      simp [this]
  apply Nat.eq_of_testBit_eq
  intro i
  rw [Nat.testBit_and]
  by_cases h6 : i = 6
  · subst h6
    have hb : Nat.testBit (optionKindGroupable ||| optionKindStandalone) 6 = true := by decide
    simp [hb, hb6]
  · by_cases h5 : i = 5
    · subst h5
      have hb : Nat.testBit (optionKindGroupable ||| optionKindStandalone) 5 = true := by decide
      simp [hb, hb5]
    · have hb : Nat.testBit (optionKindGroupable ||| optionKindStandalone) i = false := by
        have he : (optionKindGroupable ||| optionKindStandalone : Nat) = 96 := by decide
        rw [he]
        have h96 : (96 : Nat) = 2 ^ 6 ||| 2 ^ 5 := by decide
        rw [h96, Nat.testBit_or, Nat.testBit_two_pow, Nat.testBit_two_pow]
        simp only [Bool.or_eq_false_iff, decide_eq_false_iff_not]
        exact ⟨fun hh => h6 hh.symm, fun hh => h5 hh.symm⟩
      simp [hb]

/-- a successful map read names a member entry. -/
theorem mapLookup_mem {α : Type} : ∀ {m : List (GoStr × α)} {k : GoStr} {v : α},
    mapLookup m k = some v → (k, v) ∈ m := by
  intro m
  induction m with
  | nil => intro k v h; exact absurd h (by simp [mapLookup])
  | cons kv rest ih =>
    intro k v h
    rw [show mapLookup (kv :: rest) k =
      (if kv.1 = k then some kv.2 else mapLookup rest k) from rfl] at h
    by_cases hk : kv.1 = k
    · rw [if_pos hk] at h
      have hv : kv.2 = v := by simpa using h
      have : (k, v) = kv := by
        rw [← hk, ← hv]
      rw [this]
      exact List.mem_cons_self kv rest
    · rw [if_neg hk] at h
      exact List.mem_cons_of_mem kv (ih h)

/-- with duplicate-free keys a member entry is the map read. -/
theorem mapLookup_of_mem_nodup {α : Type} :
    ∀ {m : List (GoStr × α)}, (m.map Prod.fst).Nodup →
      ∀ {k : GoStr} {v : α}, (k, v) ∈ m → mapLookup m k = some v := by
  intro m
  induction m with
  | nil => intro _ k v h; exact absurd h (by simp)
  | cons kv rest ih =>
    intro hnd k v h
    rw [List.map_cons, List.nodup_cons] at hnd
    obtain ⟨hknotin, hndrest⟩ := hnd
    rcases List.mem_cons.mp h with he | hm
    · rw [← he]
      show mapLookup ((k, v) :: rest) k = some v
      simp [mapLookup]
    · have hkne : kv.1 ≠ k := by
        intro hcontra
        apply hknotin
        rw [hcontra]
        exact List.mem_map.mpr ⟨(k, v), hm, rfl⟩
      show (if kv.1 = k then some kv.2 else mapLookup rest k) = some v
      rw [if_neg hkne]
      exact ih hndrest hm


/-- the emptiness loop fails inside the scan when some option has an empty
name or Prefix. -/
theorem buildNames_error_of_empty :
    ∀ {opts : List FlagOption}, hasEmptyNameOrPfx opts → ∀ acc,
      (∃ o, buildNames opts acc = .error (.emptyOptionName o)) ∨
      (∃ o, buildNames opts acc = .error (.emptyOptionPfx o)) := by
  intro opts
  induction opts with
  | nil => intro h _; obtain ⟨o, hmem, _⟩ := h; exact absurd hmem (by simp)
  | cons o1 rest ih =>
    intro h acc
    by_cases hn : o1.name.length = 0
    · exact Or.inl ⟨o1, by simp [buildNames, hn]⟩
    · by_cases hp : o1.pfx.length = 0
      · exact Or.inr ⟨o1, by simp [buildNames, hn, hp]⟩
      · have hrest : hasEmptyNameOrPfx rest := by
          obtain ⟨o, hmem, hcase⟩ := h
          rcases List.mem_cons.mp hmem with he | hm
          · exfalso
            rcases hcase with hc | hc
            · exact hn (by rw [← he] at hn ⊢; rw [hc]; rfl)
            · exact hp (by rw [← he] at hp ⊢; rw [hc]; rfl)
          · exact ⟨o, hm, hcase⟩
        rw [show buildNames (o1 :: rest) acc =
          buildNames rest (buildNames.namesAppend acc o1.name o1) from by
            simp [buildNames, hn, hp]]
        exact ih hrest _

/-- the emptiness loop succeeds into the fold of group insertions when no
option has an empty name or Prefix. -/
theorem buildNames_ok_of_clean :
    ∀ {opts : List FlagOption}, (∀ o ∈ opts, o.name ≠ [] ∧ o.pfx ≠ []) →
      ∀ acc, buildNames opts acc =
        .ok (opts.foldl (fun acc o => buildNames.namesAppend acc o.name o) acc) := by
  intro opts
  induction opts with
  | nil => intro _ acc; rfl
  | cons o1 rest ih =>
    intro h acc
    obtain ⟨hn, hp⟩ := h o1 (List.mem_cons_self o1 rest)
    have hn0 : ¬ o1.name.length = 0 := fun h0 => hn (List.length_eq_zero.mp h0)
    have hp0 : ¬ o1.pfx.length = 0 := fun h0 => hp (List.length_eq_zero.mp h0)
    rw [show buildNames (o1 :: rest) acc =
      buildNames rest (buildNames.namesAppend acc o1.name o1) from by
        simp [buildNames, hn0, hp0]]
    rw [ih (fun o hm => h o (List.mem_cons_of_mem o1 hm)) _]
    rfl

/-- appending one option grows exactly its own name group by one. -/
theorem namesAppend_groupLen (k : GoStr) (o : FlagOption) (n : GoStr) :
    ∀ m, groupLen (buildNames.namesAppend m k o) n =
      groupLen m n + (if k = n then 1 else 0) := by
  intro m
  induction m with
  | nil =>
    by_cases hk : k = n
    · subst hk; simp [buildNames.namesAppend, groupLen, mapLookup]
    · simp [buildNames.namesAppend, groupLen, mapLookup, hk]
  | cons kv rest ih =>
    obtain ⟨k1, l1⟩ := kv
    by_cases h1 : k1 = k
    · rw [show buildNames.namesAppend ((k1, l1) :: rest) k o =
        (k1, l1 ++ [o]) :: rest from by simp [buildNames.namesAppend, h1]]
      by_cases h2 : k1 = n
      · have hkn : k = n := h1 ▸ h2
        simp [groupLen, mapLookup, h2, hkn]
      · have hkn : ¬ k = n := fun hc => h2 (h1.trans hc)
        simp [groupLen, mapLookup, h2, hkn]
    · rw [show buildNames.namesAppend ((k1, l1) :: rest) k o =
        (k1, l1) :: buildNames.namesAppend rest k o from by
          simp [buildNames.namesAppend, h1]]
      by_cases h2 : k1 = n
      · have hkn : ¬ k = n := fun hc => h1 (h2.trans hc.symm).symm.symm
        simp [groupLen, mapLookup, h2, hkn]
      · simp only [groupLen,
          show mapLookup ((k1, l1) :: buildNames.namesAppend rest k o) n =
            mapLookup (buildNames.namesAppend rest k o) n from by simp [mapLookup, h2],
          show mapLookup ((k1, l1) :: rest) n = mapLookup rest n from by
            simp [mapLookup, h2]]
        exact ih

/-- the fold of group insertions counts options by name. -/
theorem buildNames_fold_groupLen (opts : List FlagOption) (n : GoStr) :
    ∀ acc, groupLen
        (opts.foldl (fun acc o => buildNames.namesAppend acc o.name o) acc) n =
      groupLen acc n + countName opts n := by
  induction opts with
  | nil => intro acc; simp [countName]
  | cons o rest ih =>
    intro acc
    rw [List.foldl_cons, ih, namesAppend_groupLen]
    have hc : countName (o :: rest) n =
        (if o.name = n then 1 else 0) + countName rest n := by
      by_cases ho : o.name = n
      · simp [countName, ho, Nat.add_comm]
      · simp [countName, ho]
    rw [hc]
    omega

/-- every key of a group insertion is an old key or the inserted name. -/
theorem namesAppend_keys_mem (k : GoStr) (o : FlagOption) :
    ∀ m x, x ∈ (buildNames.namesAppend m k o).map Prod.fst →
      x ∈ m.map Prod.fst ∨ x = k := by
  intro m
  induction m with
  | nil => intro x hx; right; simpa [buildNames.namesAppend] using hx
  | cons kv rest ih =>
    obtain ⟨k1, l1⟩ := kv
    intro x hx
    by_cases h1 : k1 = k
    · rw [show buildNames.namesAppend ((k1, l1) :: rest) k o =
        (k1, l1 ++ [o]) :: rest from by simp [buildNames.namesAppend, h1]] at hx
      exact Or.inl (by simpa using hx)
    · rw [show buildNames.namesAppend ((k1, l1) :: rest) k o =
        (k1, l1) :: buildNames.namesAppend rest k o from by
          simp [buildNames.namesAppend, h1]] at hx
      rw [List.map_cons, List.mem_cons] at hx
      rcases hx with he | hm
      · exact Or.inl (by simp [he])
      · rcases ih x hm with ha | hb
        · exact Or.inl (List.mem_cons_of_mem _ ha)
        · exact Or.inr hb

/-- group insertion preserves duplicate-free keys. -/
theorem namesAppend_keys_nodup (k : GoStr) (o : FlagOption) :
    ∀ {m}, ((m : List (GoStr × List FlagOption)).map Prod.fst).Nodup →
      ((buildNames.namesAppend m k o).map Prod.fst).Nodup := by
  intro m
  induction m with
  | nil => intro _; simp [buildNames.namesAppend]
  | cons kv rest ih =>
    obtain ⟨k1, l1⟩ := kv
    intro hnd
    rw [List.map_cons, List.nodup_cons] at hnd
    obtain ⟨hnotin, hrest⟩ := hnd
    by_cases h1 : k1 = k
    · rw [show buildNames.namesAppend ((k1, l1) :: rest) k o =
        (k1, l1 ++ [o]) :: rest from by simp [buildNames.namesAppend, h1]]
      rw [List.map_cons, List.nodup_cons]
      exact ⟨hnotin, hrest⟩
    · rw [show buildNames.namesAppend ((k1, l1) :: rest) k o =
        (k1, l1) :: buildNames.namesAppend rest k o from by
          simp [buildNames.namesAppend, h1]]
      rw [List.map_cons, List.nodup_cons]
      refine ⟨fun hcontra => ?_, ih hrest⟩
      rcases namesAppend_keys_mem k o rest k1 hcontra with ha | hb
      · exact hnotin ha
      · exact h1 hb

/-- group insertion keeps every stored group nonempty. -/
theorem namesAppend_nonempty (k : GoStr) (o : FlagOption) :
    ∀ {m}, (∀ kv ∈ (m : List (GoStr × List FlagOption)), kv.2 ≠ []) →
      ∀ kv ∈ buildNames.namesAppend m k o, kv.2 ≠ [] := by
  intro m
  induction m with
  | nil =>
    intro _ kv hkv
    have hkv2 : kv = (k, [o]) := by simpa [buildNames.namesAppend] using hkv
    rw [hkv2]
    simp
  | cons kv1 rest ih =>
    obtain ⟨k1, l1⟩ := kv1
    intro hne kv hkv
    by_cases h1 : k1 = k
    · rw [show buildNames.namesAppend ((k1, l1) :: rest) k o =
        (k1, l1 ++ [o]) :: rest from by simp [buildNames.namesAppend, h1]] at hkv
      rcases List.mem_cons.mp hkv with he | hm
      · rw [he]; simp
      · exact hne kv (List.mem_cons_of_mem (k1, l1) hm)
    · rw [show buildNames.namesAppend ((k1, l1) :: rest) k o =
        (k1, l1) :: buildNames.namesAppend rest k o from by
          simp [buildNames.namesAppend, h1]] at hkv
      rcases List.mem_cons.mp hkv with he | hm
      · exact he ▸ hne (k1, l1) (List.mem_cons_self (k1, l1) rest)
      · exact ih (fun kv2 h2 => hne kv2 (List.mem_cons_of_mem (k1, l1) h2)) kv hm

/-- a group of unexpected size makes the duplicate check report. -/
theorem findDup_isSome :
    ∀ {m : List (GoStr × List FlagOption)},
      (∃ kv ∈ m, kv.2.length ≠ 1) → ∃ n l, findDup m = some (n, l) := by
  intro m
  induction m with
  | nil => intro h; obtain ⟨kv, hm, _⟩ := h; exact absurd hm (by simp)
  | cons kv rest ih =>
    obtain ⟨k1, l1⟩ := kv
    intro h
    by_cases h1 : l1.length ≠ 1
    · exact ⟨k1, l1, by simp [findDup, h1]⟩
    · obtain ⟨kv2, hm2, hl2⟩ := h
      have hmr : kv2 ∈ rest := by
        rcases List.mem_cons.mp hm2 with he | hmr
        · exact absurd (by rw [he] at hl2; exact hl2) h1
        · exact hmr
      obtain ⟨n, l, hfd⟩ := ih ⟨kv2, hmr, hl2⟩
      refine ⟨n, l, ?_⟩
      show (if l1.length ≠ 1 then some (k1, l1) else findDup rest) = some (n, l)
      rw [if_neg h1]
      exact hfd

/-- groups all of size one pass the duplicate check. -/
theorem findDup_eq_none :
    ∀ {m : List (GoStr × List FlagOption)},
      (∀ kv ∈ m, kv.2.length = 1) → findDup m = none := by
  intro m
  induction m with
  | nil => intro _; rfl
  | cons kv rest ih =>
    obtain ⟨k1, l1⟩ := kv
    intro h
    have h1 : l1.length = 1 := h (k1, l1) (List.mem_cons_self _ rest)
    show (if l1.length ≠ 1 then some (k1, l1) else findDup rest) = none
    rw [if_neg (by simp [h1])]
    exact ih (fun kv2 h2 => h kv2 (List.mem_cons_of_mem _ h2))


/-- the map read after an or-update. -/
theorem pfxOr_lookup (k : GoStr) (bit : OptionType) (n : GoStr) :
    ∀ m, mapLookup (pfxOr m k bit) n =
      if k = n then some (((mapLookup m n).getD 0) ||| bit)
      else mapLookup m n := by
  intro m
  induction m with
  | nil =>
    by_cases hk : k = n
    · simp [pfxOr, mapLookup, hk]
    · simp [pfxOr, mapLookup, hk]
  | cons kv rest ih =>
    obtain ⟨k1, v1⟩ := kv
    by_cases h1 : k1 = k
    · rw [show pfxOr ((k1, v1) :: rest) k bit = (k1, v1 ||| bit) :: rest from by
        simp [pfxOr, h1]]
      by_cases h2 : k1 = n
      · have hkn : k = n := h1 ▸ h2
        simp [mapLookup, h2, hkn]
      · have hkn : ¬ k = n := fun hc => h2 (h1.trans hc)
        simp [mapLookup, h2, hkn]
    · rw [show pfxOr ((k1, v1) :: rest) k bit = (k1, v1) :: pfxOr rest k bit from by
        simp [pfxOr, h1]]
      by_cases h2 : k1 = n
      · have hkn : ¬ k = n := fun hc => h1 (h2.trans hc.symm).symm.symm
        simp [mapLookup, h2, hkn]
      · rw [show mapLookup ((k1, v1) :: pfxOr rest k bit) n =
          mapLookup (pfxOr rest k bit) n from by simp [mapLookup, h2],
          show mapLookup ((k1, v1) :: rest) n = mapLookup rest n from by
            simp [mapLookup, h2]]
        exact ih

/-- the Prefix table built by the collection loop carries the groupable
bit for a Prefix exactly when a groupable option bears it, and carries the
standalone bit exactly when an option the loop files as standalone bears
it, beyond whatever the accumulator already carried. -/
theorem buildPfxMap_bits (p : GoStr) :
    ∀ (opts : List FlagOption) (acc : List (GoStr × OptionType)),
      ((((mapLookup (buildPfxMap opts acc) p).getD 0) &&& optionKindGroupable ≠ 0) ↔
        (((mapLookup acc p).getD 0 &&& optionKindGroupable ≠ 0) ∨
          ∃ o ∈ opts, o.pfx = p ∧ OptionType.isGroupable o.otype = true)) ∧
      ((((mapLookup (buildPfxMap opts acc) p).getD 0) &&& optionKindStandalone ≠ 0) ↔
        (((mapLookup acc p).getD 0 &&& optionKindStandalone ≠ 0) ∨
          ∃ o ∈ opts, o.pfx = p ∧ OptionType.isGroupable o.otype = false ∧
            OptionType.isStandalone o.otype = true)) := by
  intro opts
  induction opts with
  | nil => intro acc; simp [buildPfxMap]
  | cons o rest ih =>
    intro acc
    by_cases hg : OptionType.isGroupable o.otype = true
    · rw [show buildPfxMap (o :: rest) acc =
        buildPfxMap rest (pfxOr acc o.pfx optionKindGroupable) from by
          simp [buildPfxMap, hg]]
      obtain ⟨ihg, ihs⟩ := ih (pfxOr acc o.pfx optionKindGroupable)
      rw [pfxOr_lookup o.pfx optionKindGroupable p acc] at ihg ihs
      by_cases hp : o.pfx = p
      · rw [if_pos hp] at ihg ihs
        constructor
        · rw [ihg]
          simp only [Option.getD_some]
          constructor
          · intro _
            exact Or.inr ⟨o, List.mem_cons_self o rest, hp, hg⟩
          · intro _
            exact Or.inl (or64_and64_ne _)
        · rw [ihs]
          simp only [Option.getD_some, or64_and32]
          constructor
          · intro h
            rcases h with h | ⟨o2, hm2, hrest⟩
            · exact Or.inl h
            · exact Or.inr ⟨o2, List.mem_cons_of_mem o hm2, hrest⟩
          · intro h
            rcases h with h | ⟨o2, hm2, hp2, hng2, hs2⟩
            · exact Or.inl h
            · rcases List.mem_cons.mp hm2 with he | hm3
              · rw [he] at hng2
                exact absurd (hg.symm.trans hng2) (by simp)
              · exact Or.inr ⟨o2, hm3, hp2, hng2, hs2⟩
      · rw [if_neg hp] at ihg ihs
        constructor
        · rw [ihg]
          constructor
          · intro h
            rcases h with h | ⟨o2, hm2, hrest⟩
            · exact Or.inl h
            · exact Or.inr ⟨o2, List.mem_cons_of_mem o hm2, hrest⟩
          · intro h
            rcases h with h | ⟨o2, hm2, hp2, hg2⟩
            · exact Or.inl h
            · rcases List.mem_cons.mp hm2 with he | hm3
              · exact absurd (he ▸ hp2) hp
              · exact Or.inr ⟨o2, hm3, hp2, hg2⟩
        · rw [ihs]
          constructor
          · intro h
            rcases h with h | ⟨o2, hm2, hrest⟩
            · exact Or.inl h
            · exact Or.inr ⟨o2, List.mem_cons_of_mem o hm2, hrest⟩
          · intro h
            rcases h with h | ⟨o2, hm2, hp2, hrest2⟩
            · exact Or.inl h
            · rcases List.mem_cons.mp hm2 with he | hm3
              · exact absurd (he ▸ hp2) hp
              · exact Or.inr ⟨o2, hm3, hp2, hrest2⟩
    · by_cases hs : OptionType.isStandalone o.otype = true
      · rw [show buildPfxMap (o :: rest) acc =
          buildPfxMap rest (pfxOr acc o.pfx optionKindStandalone) from by
            simp [buildPfxMap, hg, hs]]
        obtain ⟨ihg, ihs⟩ := ih (pfxOr acc o.pfx optionKindStandalone)
        rw [pfxOr_lookup o.pfx optionKindStandalone p acc] at ihg ihs
        by_cases hp : o.pfx = p
        · rw [if_pos hp] at ihg ihs
          constructor
          · rw [ihg]
            simp only [Option.getD_some, or32_and64]
            constructor
            · intro h
              rcases h with h | ⟨o2, hm2, hrest⟩
              · exact Or.inl h
              · exact Or.inr ⟨o2, List.mem_cons_of_mem o hm2, hrest⟩
            · intro h
              rcases h with h | ⟨o2, hm2, hp2, hg2⟩
              · exact Or.inl h
              · rcases List.mem_cons.mp hm2 with he | hm3
                · rw [he] at hg2
                  exact absurd hg2 hg
                · exact Or.inr ⟨o2, hm3, hp2, hg2⟩
          · rw [ihs]
            simp only [Option.getD_some]
            constructor
            · intro _
              right
              refine ⟨o, List.mem_cons_self o rest, hp, ?_, hs⟩
              simpa using hg
            · intro _
              exact Or.inl (or32_and32_ne _)
        · rw [if_neg hp] at ihg ihs
          constructor
          · rw [ihg]
            constructor
            · intro h
              rcases h with h | ⟨o2, hm2, hrest⟩
              · exact Or.inl h
              · exact Or.inr ⟨o2, List.mem_cons_of_mem o hm2, hrest⟩
            · intro h
              rcases h with h | ⟨o2, hm2, hp2, hrest2⟩
              · exact Or.inl h
              · rcases List.mem_cons.mp hm2 with he | hm3
                · exact absurd (he ▸ hp2) hp
                · exact Or.inr ⟨o2, hm3, hp2, hrest2⟩
          · rw [ihs]
            constructor
            · intro h
              rcases h with h | ⟨o2, hm2, hrest⟩
              · exact Or.inl h
              · exact Or.inr ⟨o2, List.mem_cons_of_mem o hm2, hrest⟩
            · intro h
              rcases h with h | ⟨o2, hm2, hp2, hrest2⟩
              · exact Or.inl h
              · rcases List.mem_cons.mp hm2 with he | hm3
                · exact absurd (he ▸ hp2) hp
                · exact Or.inr ⟨o2, hm3, hp2, hrest2⟩
      · rw [show buildPfxMap (o :: rest) acc = buildPfxMap rest acc from by
          simp [buildPfxMap, hg, hs]]
        obtain ⟨ihg, ihs⟩ := ih acc
        constructor
        · rw [ihg]
          constructor
          · intro h
            rcases h with h | ⟨o2, hm2, hrest⟩
            · exact Or.inl h
            · exact Or.inr ⟨o2, List.mem_cons_of_mem o hm2, hrest⟩
          · intro h
            rcases h with h | ⟨o2, hm2, hp2, hg2⟩
            · exact Or.inl h
            · rcases List.mem_cons.mp hm2 with he | hm3
              · rw [he] at hg2
                exact absurd hg2 hg
              · exact Or.inr ⟨o2, hm3, hp2, hg2⟩
        · rw [ihs]
          constructor
          · intro h
            rcases h with h | ⟨o2, hm2, hrest⟩
            · exact Or.inl h
            · exact Or.inr ⟨o2, List.mem_cons_of_mem o hm2, hrest⟩
          · intro h
            rcases h with h | ⟨o2, hm2, hp2, hng2, hs2⟩
            · exact Or.inl h
            · rcases List.mem_cons.mp hm2 with he | hm3
              · rw [he] at hs2
                exact absurd hs2 hs
              · exact Or.inr ⟨o2, hm3, hp2, hng2, hs2⟩

/-- an entry with both family bits makes the ambiguity check report. -/
theorem findAmbiguous_isSome :
    ∀ {m : List (GoStr × OptionType)},
      (∃ kv ∈ m, kv.2 &&& (optionKindGroupable ||| optionKindStandalone) =
        optionKindGroupable ||| optionKindStandalone) →
      ∃ p, findAmbiguous m = some p := by
  intro m
  induction m with
  | nil => intro h; obtain ⟨kv, hm, _⟩ := h; exact absurd hm (by simp)
  | cons kv rest ih =>
    obtain ⟨k1, v1⟩ := kv
    intro h
    by_cases h1 : v1 &&& (optionKindGroupable ||| optionKindStandalone) =
        optionKindGroupable ||| optionKindStandalone
    · exact ⟨k1, by simp [findAmbiguous, h1]⟩
    · obtain ⟨kv2, hm2, hl2⟩ := h
      have hmr : kv2 ∈ rest := by
        rcases List.mem_cons.mp hm2 with he | hmr
        · exact absurd (by rw [he] at hl2; exact hl2) h1
        · exact hmr
      obtain ⟨p, hfa⟩ := ih ⟨kv2, hmr, hl2⟩
      refine ⟨p, ?_⟩
      show (if v1 &&& (optionKindGroupable ||| optionKindStandalone) =
        optionKindGroupable ||| optionKindStandalone then some k1
        else findAmbiguous rest) = some p
      rw [if_neg h1]
      exact hfa


/-- the fold of group insertions preserves duplicate-free keys. -/
theorem buildNamesFold_keys_nodup (opts : List FlagOption) :
    ∀ acc, ((acc : List (GoStr × List FlagOption)).map Prod.fst).Nodup →
      (((opts.foldl (fun acc o => buildNames.namesAppend acc o.name o) acc)).map
        Prod.fst).Nodup := by
  induction opts with
  | nil => intro acc h; simpa using h
  | cons o rest ih =>
    intro acc h
    rw [List.foldl_cons]
    exact ih _ (namesAppend_keys_nodup o.name o h)

/-- the fold of group insertions keeps every stored group nonempty. -/
theorem buildNamesFold_nonempty (opts : List FlagOption) :
    ∀ acc, (∀ kv ∈ (acc : List (GoStr × List FlagOption)), kv.2 ≠ []) →
      ∀ kv ∈ opts.foldl (fun acc o => buildNames.namesAppend acc o.name o) acc,
        kv.2 ≠ [] := by
  induction opts with
  | nil => intro acc h; simpa using h
  | cons o rest ih =>
    intro acc h
    rw [List.foldl_cons]
    exact ih _ (namesAppend_nonempty o.name o h)

/-- C8: the configuration builder reports the violation of the kind
checked earliest in the fixed sequence: the groupable-name-length check,
then the name-or-Prefix emptiness check, then the duplicate-name check,
then the Prefix-ambiguity check; a list violating several kinds at once
always fails with the earliest kind. -/
theorem claim_C8_validation_order (px : Parser) :
    (hasTooLongGroupable px.options →
      ∃ o, newConfig px = .error (.tooLongGroupableOptionName o)) ∧
    (¬ hasTooLongGroupable px.options → hasEmptyNameOrPfx px.options →
      (∃ o, newConfig px = .error (.emptyOptionName o)) ∨
      (∃ o, newConfig px = .error (.emptyOptionPfx o))) ∧
    (¬ hasTooLongGroupable px.options → ¬ hasEmptyNameOrPfx px.options →
      hasDuplicateName px.options →
      ∃ n l, newConfig px = .error (.multipleOptionsWithSameName n l)) ∧
    (¬ hasTooLongGroupable px.options → ¬ hasEmptyNameOrPfx px.options →
      ¬ hasDuplicateName px.options → hasAmbiguousPfx px.options →
      ∃ p, newConfig px = .error (.ambiguousPfx p)) := by
  have hpred : ∀ o : FlagOption,
      (decide (1 < o.name.length) && OptionType.isGroupable o.otype) = true ↔
      (1 < o.name.length ∧ OptionType.isGroupable o.otype = true) := by
    intro o
    simp
  refine ⟨fun htl => ?_, fun hntl hemp => ?_, fun hntl hnemp hdup => ?_,
    fun hntl hnemp hndup hamb => ?_⟩
  · obtain ⟨o0, hm0, hlen0, hg0⟩ := htl
    cases hf : px.options.find?
        (fun o => decide (1 < o.name.length) && OptionType.isGroupable o.otype) with
    | none =>
      exact absurd ((hpred o0).mpr ⟨hlen0, hg0⟩)
        (List.find?_eq_none.mp hf o0 hm0)
    | some o =>
      refine ⟨o, ?_⟩
      unfold newConfig
      rw [hf]
  · have hfnone : px.options.find?
        (fun o => decide (1 < o.name.length) && OptionType.isGroupable o.otype) = none :=
      List.find?_eq_none.mpr (fun x hx hpx => hntl ⟨x, hx, (hpred x).mp hpx⟩)
    rcases buildNames_error_of_empty hemp [] with ⟨o, hbn⟩ | ⟨o, hbn⟩
    · refine Or.inl ⟨o, ?_⟩
      unfold newConfig
      rw [hfnone, hbn]
    · refine Or.inr ⟨o, ?_⟩
      unfold newConfig
      rw [hfnone, hbn]
  · have hfnone : px.options.find?
        (fun o => decide (1 < o.name.length) && OptionType.isGroupable o.otype) = none :=
      List.find?_eq_none.mpr (fun x hx hpx => hntl ⟨x, hx, (hpred x).mp hpx⟩)
    have hclean : ∀ o ∈ px.options, o.name ≠ [] ∧ o.pfx ≠ [] := by
      intro o hm
      constructor
      · exact fun h0 => hnemp ⟨o, hm, Or.inl h0⟩
      · exact fun h0 => hnemp ⟨o, hm, Or.inr h0⟩
    have hbn := buildNames_ok_of_clean hclean []
    obtain ⟨n, hcount⟩ := hdup
    have hgl := buildNames_fold_groupLen px.options n []
    have hgl0 : groupLen ([] : List (GoStr × List FlagOption)) n = 0 := rfl
    rw [hgl0] at hgl
    set fold := px.options.foldl
      (fun acc o => buildNames.namesAppend acc o.name o) [] with hfold
    cases hlk : mapLookup fold n with
    | none =>
      exfalso
      have : groupLen fold n = 0 := by simp [groupLen, hlk]
      omega
    | some l =>
      have hlen : l.length = countName px.options n := by
        have : groupLen fold n = l.length := by simp [groupLen, hlk]
        omega
      obtain ⟨n2, l2, hfd⟩ := findDup_isSome
        ⟨(n, l), mapLookup_mem hlk, by simp [hlen]; omega⟩
      refine ⟨n2, l2, ?_⟩
      unfold newConfig
      rw [hfnone, hbn]
      simp [hfd]
  · have hfnone : px.options.find?
        (fun o => decide (1 < o.name.length) && OptionType.isGroupable o.otype) = none :=
      List.find?_eq_none.mpr (fun x hx hpx => hntl ⟨x, hx, (hpred x).mp hpx⟩)
    have hclean : ∀ o ∈ px.options, o.name ≠ [] ∧ o.pfx ≠ [] := by
      intro o hm
      constructor
      · exact fun h0 => hnemp ⟨o, hm, Or.inl h0⟩
      · exact fun h0 => hnemp ⟨o, hm, Or.inr h0⟩
    have hbn := buildNames_ok_of_clean hclean []
    set fold := px.options.foldl
      (fun acc o => buildNames.namesAppend acc o.name o) [] with hfold
    have hfdnone : findDup fold = none := by
      apply findDup_eq_none
      intro kv hkv
      obtain ⟨k, l⟩ := kv
      have hnd : (fold.map Prod.fst).Nodup :=
        buildNamesFold_keys_nodup px.options [] (by simp)
      have hlk : mapLookup fold k = some l := mapLookup_of_mem_nodup hnd hkv
      have hgl := buildNames_fold_groupLen px.options k []
      have hgl0 : groupLen ([] : List (GoStr × List FlagOption)) k = 0 := rfl
      rw [hgl0, ← hfold] at hgl
      have hlen : l.length = countName px.options k := by
        have : groupLen fold k = l.length := by simp [groupLen, hlk]
        omega
      have hle : countName px.options k ≤ 1 := by
        by_contra hc
        exact hndup ⟨k, by omega⟩
      have hne : l ≠ [] :=
        buildNamesFold_nonempty px.options [] (by simp) (k, l) hkv
      have hpos : 0 < l.length := List.length_pos.mpr hne
      simp only []
      omega
    obtain ⟨p, ⟨og, hmg, hpg, hgg⟩, ⟨os, hms, hps, hgs, hss⟩⟩ := hamb
    have hbits := buildPfxMap_bits p px.options []
    have hacc0 : ((mapLookup ([] : List (GoStr × OptionType)) p).getD 0) = 0 := rfl
    rw [hacc0] at hbits
    obtain ⟨hbitsg, hbitss⟩ := hbits
    have hG : ((mapLookup (buildPfxMap px.options []) p).getD 0) &&&
        optionKindGroupable ≠ 0 :=
      hbitsg.mpr (Or.inr ⟨og, hmg, hpg, hgg⟩)
    have hS : ((mapLookup (buildPfxMap px.options []) p).getD 0) &&&
        optionKindStandalone ≠ 0 :=
      hbitss.mpr (Or.inr ⟨os, hms, hps, hgs, hss⟩)
    cases hlk : mapLookup (buildPfxMap px.options []) p with
    | none =>
      exfalso
      rw [hlk] at hG
      exact hG (by simp)
    | some fl =>
      rw [hlk] at hG hS
      simp only [Option.getD_some] at hG hS
      obtain ⟨p2, hfa⟩ := findAmbiguous_isSome
        ⟨(p, fl), mapLookup_mem hlk, and_both_bits hG hS⟩
      refine ⟨p2, ?_⟩
      unfold newConfig
      rw [hfnone, hbn]
      simp [hfdnone, hfa]

/-- C8 witness: an option list violating the groupable-name-length rule,
the duplicate rule and the ambiguity rule at once fails with
NameTooLongForGrouping, and the same list without the long name but still
duplicated fails with the duplicate error. -/
theorem claim_C8_validation_order_witness :
    (∃ o, newConfig { options :=
        [⟨[], ['-'], ['p', 'q'], OptionTypeGroupableArgumentRequired⟩,
         ⟨[], ['-'], ['s'], OptionTypeStandaloneArgumentNone⟩,
         ⟨[], ['-'], ['s'], OptionTypeGroupableArgumentNone⟩] } =
      .error (.tooLongGroupableOptionName o)) ∧
    (∃ n l, newConfig { options :=
        [⟨[], ['-'], ['s'], OptionTypeStandaloneArgumentNone⟩,
         ⟨[], ['-'], ['s'], OptionTypeGroupableArgumentNone⟩] } =
      .error (.multipleOptionsWithSameName n l)) := by
  constructor
  · exact (claim_C8_validation_order _).1
      ⟨⟨[], ['-'], ['p', 'q'], OptionTypeGroupableArgumentRequired⟩,
        by simp, by decide, by decide⟩
  · exact (claim_C8_validation_order _).2.2.1
      (by unfold hasTooLongGroupable; decide)
      (by unfold hasEmptyNameOrPfx; decide)
      ⟨['s'], by unfold countName; decide⟩


/-- C10 counterexample: an input containing the separator token parses
without any error when MaxPositionalArguments is zero, because the
required-argument option consumes the separator token whole; the claimed
TooManyPositionalArguments failure does not occur. -/
theorem claim_C10_counterexample :
    Token.separator ⟨1, ['-', '-']⟩ ∈
      scan (pfxKeys c10Config) c10Px.optionsArgumentsSeparator
        [['-', '-', 'f', 'i', 'l', 'e'], ['-', '-']] ∧
    c10Px.maxPositionalArguments = 0 ∧
    Parser.parse c10Px [['-', '-', 'f', 'i', 'l', 'e'], ['-', '-']] =
      .ok [.option optFile (.option ⟨0, ['-', '-'], ['f', 'i', 'l', 'e']⟩)
        ['-', '-']] := by
  decide

/-- C10 amended: the positional bounds are compared against the whole
positionals buffer, separator value and demoted values included; when the
early scan finds nothing, the state machine completes with the separator
value pushed into the positionals buffer, the minimum bound is satisfied
and the maximum is zero, the parse fails with TooManyPositionalArguments
carrying the full buffer length, even with no true positional present. -/
theorem claim_C10_separator_counts (px : Parser) (cfg : Config)
    (tokens : List Token) (options positionals : List Value)
    (hearly : earlyParse px.options tokens px.disablePermute = none)
    (hdp : doParse cfg tokens false [] [] = .ok (options, positionals))
    (hsep : ∃ v ∈ positionals, ∃ tok sep, v = .optionsArgumentsSeparator tok sep)
    (hmin : px.minPositionalArguments ≤ (positionals.length : Int))
    (hmax : px.maxPositionalArguments = 0) :
    parseTokens px cfg tokens =
      .error (.tooManyPositionalArguments 0 positionals.length) := by
  obtain ⟨v, hv, _⟩ := hsep
  have hpos : 0 < positionals.length :=
    List.length_pos.mpr (by rintro rfl; simp at hv)
  unfold parseTokens
  rw [hearly]
  show parseMain px cfg tokens = _
  unfold parseMain
  rw [hdp]
  show (if (positionals.length : Int) < px.minPositionalArguments then
      Except.error (Err.tooFewPositionalArguments px.minPositionalArguments
        positionals.length)
    else if px.maxPositionalArguments < (positionals.length : Int) then
      Except.error (Err.tooManyPositionalArguments px.maxPositionalArguments
        positionals.length)
    else Except.ok (permute cfg.disablePermute options positionals)) = _
  rw [if_neg (by omega), if_pos (by rw [hmax]; exact_mod_cast hpos), hmax]

/-- C10 amended witness: a lone separator token with zero allowed
positionals fails with TooManyPositionalArguments of count one. -/
theorem claim_C10_separator_counts_witness :
    parseTokens c10Px c10Config [.separator ⟨0, ['-', '-']⟩] =
      .error (.tooManyPositionalArguments 0 1) := by
  exact claim_C10_separator_counts c10Px c10Config [.separator ⟨0, ['-', '-']⟩]
    [] [.optionsArgumentsSeparator (.separator ⟨0, ['-', '-']⟩) ['-', '-']]
    (by decide) (by decide)
    ⟨.optionsArgumentsSeparator (.separator ⟨0, ['-', '-']⟩) ['-', '-'],
      by simp, .separator ⟨0, ['-', '-']⟩, ['-', '-'], rfl⟩
    (by decide) (by decide)


/-- C1 counterexample: with an early help option declared, the input
spelled option-name equals dash h parses to one required-option value,
re-serializes to two fragments, and re-parsing those under preserve mode
returns the early help value instead, a different value sequence even
modulo originating tokens. -/
theorem claim_C1_counterexample :
    Parser.parse c1Px [['-', '-', 'f', 'i', 'l', 'e', '=', '-', 'h']] =
      .ok [.option optFile
        (.option ⟨0, ['-', '-'], ['f', 'i', 'l', 'e', '=', '-', 'h']⟩) ['-', 'h']] ∧
    serializeValues [.option optFile
        (.option ⟨0, ['-', '-'], ['f', 'i', 'l', 'e', '=', '-', 'h']⟩) ['-', 'h']] =
      [['-', '-', 'f', 'i', 'l', 'e'], ['-', 'h']] ∧
    Parser.parse (preservePx c1Px) [['-', '-', 'f', 'i', 'l', 'e'], ['-', 'h']] =
      .ok [.option optH (.option ⟨1, ['-'], ['h']⟩) []] ∧
    [.option optFile
        (.option ⟨0, ['-', '-'], ['f', 'i', 'l', 'e', '=', '-', 'h']⟩) ['-', 'h']].map
        Value.content ≠
      [.option optH (.option ⟨1, ['-'], ['h']⟩) []].map Value.content := by
  decide


/-- the step function of the longest-marker fold. -/
theorem bestPfx_eq_foldl (pfxs : List GoStr) (arg : GoStr) :
    bestPfx pfxs arg = pfxs.foldl
      (fun acc p =>
        if p <+: arg ∧ p ≠ arg ∧ (acc.getD []).length < p.length then some p
        else acc)
      none := rfl

/-- any property holding of the seed and of every candidate holds of the
longest-marker fold result. -/
theorem bestPfx_fold_prop (arg : GoStr) (P : GoStr → Prop) :
    ∀ (pfxs : List GoStr) (acc : Option GoStr),
      (∀ q, acc = some q → P q) →
      (∀ k ∈ pfxs, k <+: arg ∧ k ≠ arg → P k) →
      ∀ p, pfxs.foldl
          (fun acc p =>
            if p <+: arg ∧ p ≠ arg ∧ (acc.getD []).length < p.length then some p
            else acc)
          acc = some p → P p := by
  intro pfxs
  induction pfxs with
  | nil => intro acc hacc _ p hp; exact hacc p hp
  | cons k rest ih =>
    intro acc hacc hmem p hp
    rw [List.foldl_cons] at hp
    by_cases hk : k <+: arg ∧ k ≠ arg ∧ ((acc.getD []).length < k.length)
    · rw [if_pos hk] at hp
      refine ih (some k) ?_ (fun k2 h2 hc => hmem k2 (List.mem_cons_of_mem k h2) hc) p hp
      intro q hq
      have : k = q := by simpa using hq
      exact this ▸ hmem k (List.mem_cons_self k rest) ⟨hk.1, hk.2.1⟩
    · rw [if_neg hk] at hp
      exact ih acc hacc (fun k2 h2 hc => hmem k2 (List.mem_cons_of_mem k h2) hc) p hp

/-- the longest-marker fold never shrinks below the seed. -/
theorem bestPfx_fold_isSome (arg : GoStr) :
    ∀ (pfxs : List GoStr) (q : GoStr),
      ∃ p, pfxs.foldl
          (fun acc p =>
            if p <+: arg ∧ p ≠ arg ∧ (acc.getD []).length < p.length then some p
            else acc)
          (some q) = some p ∧ q.length ≤ p.length := by
  intro pfxs
  induction pfxs with
  | nil => intro q; exact ⟨q, rfl, Nat.le_refl _⟩
  | cons k rest ih =>
    intro q
    rw [List.foldl_cons]
    by_cases hk : k <+: arg ∧ k ≠ arg ∧ (((some q).getD []).length < k.length)
    · rw [if_pos hk]
      obtain ⟨p, hp, hle⟩ := ih k
      have hq : q.length < k.length := by simpa using hk.2.2
      exact ⟨p, hp, by omega⟩
    · rw [if_neg hk]
      exact ih q

/-- the longest-marker fold result is at least as long as any candidate. -/
theorem bestPfx_fold_maximal (arg : GoStr) :
    ∀ (pfxs : List GoStr) (acc : Option GoStr) (k : GoStr),
      k ∈ pfxs → k <+: arg → k ≠ arg →
      ∀ p, pfxs.foldl
          (fun acc p =>
            if p <+: arg ∧ p ≠ arg ∧ (acc.getD []).length < p.length then some p
            else acc)
          acc = some p → k.length ≤ p.length := by
  intro pfxs
  induction pfxs with
  | nil => intro _ k hk; exact absurd hk (by simp)
  | cons k1 rest ih =>
    intro acc k hk hpre hne p hp
    rw [List.foldl_cons] at hp
    rcases List.mem_cons.mp hk with he | hm
    · subst he
      by_cases hcond : k <+: arg ∧ k ≠ arg ∧ ((acc.getD []).length < k.length)
      · rw [if_pos hcond] at hp
        obtain ⟨p2, hp2, hle⟩ := bestPfx_fold_isSome arg rest k
        rw [hp2] at hp
        have hpp : p2 = p := by simpa using hp
        subst hpp
        exact hle
      · have hlen : ¬ (acc.getD []).length < k.length := by
          intro hc
          exact hcond ⟨hpre, hne, hc⟩
        rw [if_neg hcond] at hp
        cases acc with
        | none =>
          have hk0 : k.length = 0 := by
            simp only [Option.getD_none, List.length_nil] at hlen
            omega
          omega
        | some q0 =>
          obtain ⟨p2, hp2, hle⟩ := bestPfx_fold_isSome arg rest q0
          rw [hp2] at hp
          have hpp : p2 = p := by simpa using hp
          subst hpp
          have hq0 : k.length ≤ q0.length := by
            simpa using hlen
          omega
    · by_cases hcond : k1 <+: arg ∧ k1 ≠ arg ∧ ((acc.getD []).length < k1.length)
      · rw [if_pos hcond] at hp
        exact ih (some k1) k hm hpre hne p hp
      · rw [if_neg hcond] at hp
        exact ih acc k hm hpre hne p hp

/-- a nonempty candidate forces the longest-marker fold to return
something. -/
theorem bestPfx_isSome (pfxs : List GoStr) (arg : GoStr) (k : GoStr)
    (hk : k ∈ pfxs) (hkne : k ≠ []) (hpre : k <+: arg) (hne : k ≠ arg) :
    ∃ p, bestPfx pfxs arg = some p := by
  rw [bestPfx_eq_foldl]
  have hgen : ∀ (l : List GoStr) (acc : Option GoStr), k ∈ l →
      ∃ p, l.foldl
        (fun acc p =>
          if p <+: arg ∧ p ≠ arg ∧ (acc.getD []).length < p.length then some p
          else acc)
        acc = some p := by
    intro l
    induction l with
    | nil => intro _ hmem; exact absurd hmem (by simp)
    | cons k1 rest ih =>
      intro acc hmem
      rw [List.foldl_cons]
      rcases List.mem_cons.mp hmem with he | hm
      · subst he
        by_cases hcond : k <+: arg ∧ k ≠ arg ∧ ((acc.getD []).length < k.length)
        · rw [if_pos hcond]
          obtain ⟨p, hp, _⟩ := bestPfx_fold_isSome arg rest k
          exact ⟨p, hp⟩
        · rw [if_neg hcond]
          cases acc with
          | none =>
            exfalso
            apply hcond
            refine ⟨hpre, hne, ?_⟩
            simp only [Option.getD_none, List.length_nil]
            exact List.length_pos.mpr hkne
          | some q0 =>
            obtain ⟨p, hp, _⟩ := bestPfx_fold_isSome arg rest q0
            exact ⟨p, hp⟩
      · by_cases hcond : k1 <+: arg ∧ k1 ≠ arg ∧ ((acc.getD []).length < k1.length)
        · rw [if_pos hcond]
          exact ih (some k1) hm
        · rw [if_neg hcond]
          exact ih acc hm
  exact hgen pfxs none hk

/-- two initial segments of the same list with the same length agree. -/
theorem prefix_eq_of_length_eq {l p q : GoStr} (hp : p <+: l) (hq : q <+: l)
    (hlen : p.length = q.length) : p = q := by
  rw [List.prefix_iff_eq_take.mp hp, List.prefix_iff_eq_take.mp hq, hlen]

/-- the unique longest candidate is the longest-marker choice. -/
theorem bestPfx_eq_some (pfxs : List GoStr) (arg : GoStr) (p : GoStr)
    (hmem : p ∈ pfxs) (hpne : p ≠ []) (hpre : p <+: arg) (hne : p ≠ arg)
    (hmax : ∀ q ∈ pfxs, q <+: arg → q ≠ arg → q.length ≤ p.length) :
    bestPfx pfxs arg = some p := by
  obtain ⟨p2, hp2⟩ := bestPfx_isSome pfxs arg p hmem hpne hpre hne
  have hprop := bestPfx_fold_prop arg
    (fun q => q ∈ pfxs ∧ q <+: arg ∧ q ≠ arg) pfxs none
    (by intro q hq; exact absurd hq (by simp))
    (fun k hk hc => ⟨hk, hc⟩) p2 (bestPfx_eq_foldl pfxs arg ▸ hp2)
  obtain ⟨hp2mem, hp2pre, hp2ne⟩ := hprop
  have h1 : p2.length ≤ p.length := hmax p2 hp2mem hp2pre hp2ne
  have h2 : p.length ≤ p2.length :=
    bestPfx_fold_maximal arg pfxs none p hmem hpre hne p2
      (bestPfx_eq_foldl pfxs arg ▸ hp2)
  rw [hp2, prefix_eq_of_length_eq hp2pre hpre (by omega)]

/-- no candidate leaves the longest-marker fold empty. -/
theorem bestPfx_eq_none (pfxs : List GoStr) (arg : GoStr)
    (h : ¬ optionLike pfxs arg) : bestPfx pfxs arg = none := by
  rw [bestPfx_eq_foldl]
  have hgen : ∀ (l : List GoStr), (∀ k ∈ l, ¬ (k <+: arg ∧ k ≠ arg)) →
      l.foldl
        (fun acc p =>
          if p <+: arg ∧ p ≠ arg ∧ (acc.getD []).length < p.length then some p
          else acc)
        none = none := by
    intro l
    induction l with
    | nil => intro _; rfl
    | cons k rest ih =>
      intro hl
      rw [List.foldl_cons,
        if_neg (fun hc => hl k (List.mem_cons_self k rest) ⟨hc.1, hc.2.1⟩)]
      exact ih (fun k2 h2 => hl k2 (List.mem_cons_of_mem k h2))
  refine hgen pfxs (fun k hk hc => ?_)
  exact h ⟨k, hk, hc⟩


/-- the tokenizer step after the separator. -/
theorem scanFrom_cons_seen (keys : List GoStr) (sep : GoStr) (idx : Nat)
    (arg : GoStr) (rest : List GoStr) :
    scanFrom keys sep idx true (arg :: rest) =
      .positional ⟨idx, arg⟩ :: scanFrom keys sep (idx + 1) true rest := by
  simp [scanFrom]

/-- the tokenizer step on the separator. -/
theorem scanFrom_cons_sep (keys : List GoStr) (sep : GoStr) (idx : Nat)
    (rest : List GoStr) (hsep : sep ≠ []) :
    scanFrom keys sep idx false (sep :: rest) =
      .separator ⟨idx, sep⟩ :: scanFrom keys sep (idx + 1) true rest := by
  simp [scanFrom, hsep]

/-- the tokenizer step on a marker-extending argument. -/
theorem scanFrom_cons_opt (keys : List GoStr) (sep : GoStr) (idx : Nat)
    (arg : GoStr) (rest : List GoStr) (p : GoStr)
    (hnsep : sep ≠ [] → arg ≠ sep) (hbest : bestPfx keys arg = some p) :
    scanFrom keys sep idx false (arg :: rest) =
      .option ⟨idx, p, arg.drop p.length⟩ ::
        scanFrom keys sep (idx + 1) false rest := by
  have hns : ¬ (sep ≠ [] ∧ arg = sep) := by
    rintro ⟨h1, h2⟩
    exact hnsep h1 h2
  simp [scanFrom, hns, hbest]

/-- the tokenizer step on a plain positional argument. -/
theorem scanFrom_cons_pos (keys : List GoStr) (sep : GoStr) (idx : Nat)
    (arg : GoStr) (rest : List GoStr)
    (hnsep : sep ≠ [] → arg ≠ sep) (hbest : bestPfx keys arg = none) :
    scanFrom keys sep idx false (arg :: rest) =
      .positional ⟨idx, arg⟩ :: scanFrom keys sep (idx + 1) false rest := by
  have hns : ¬ (sep ≠ [] ∧ arg = sep) := by
    rintro ⟨h1, h2⟩
    exact hnsep h1 h2
  simp [scanFrom, hns, hbest]

/-- the tokenizer numbers its output consecutively from the start index. -/
theorem scanFrom_map_index (keys : List GoStr) (sep : GoStr) :
    ∀ (args : List GoStr) (idx : Nat) (ss : Bool),
      (scanFrom keys sep idx ss args).map Token.index =
        List.range' idx args.length := by
  intro args
  induction args with
  | nil => intro idx ss; simp [scanFrom]
  | cons arg rest ih =>
    intro idx ss
    cases ss with
    | true =>
      rw [scanFrom_cons_seen, List.map_cons, ih (idx + 1) true]
      simp [List.range'_succ, Token.index]
    | false =>
      by_cases hs : sep ≠ [] ∧ arg = sep
      · rw [hs.2, scanFrom_cons_sep keys sep idx rest hs.1, List.map_cons,
          ih (idx + 1) true]
        simp [List.range'_succ, Token.index]
      · cases hbest : bestPfx keys arg with
        | some p =>
          rw [scanFrom_cons_opt keys sep idx arg rest p
            (fun h1 h2 => hs ⟨h1, h2⟩) hbest, List.map_cons, ih (idx + 1) false]
          simp [List.range'_succ, Token.index]
        | none =>
          rw [scanFrom_cons_pos keys sep idx arg rest
            (fun h1 h2 => hs ⟨h1, h2⟩) hbest, List.map_cons, ih (idx + 1) false]
          simp [List.range'_succ, Token.index]

/-- after the separator the tokenizer emits only positional tokens. -/
theorem allPositional_scanFrom (keys : List GoStr) (sep : GoStr) :
    ∀ (args : List GoStr) (idx : Nat),
      allPositional (scanFrom keys sep idx true args) := by
  intro args
  induction args with
  | nil => intro idx; trivial
  | cons arg rest ih =>
    intro idx
    rw [scanFrom_cons_seen]
    show allPositional (scanFrom keys sep (idx + 1) true rest)
    exact ih (idx + 1)

/-- before the separator the tokenizer output has the scan shape. -/
theorem scanShape_scanFrom (keys : List GoStr) (sep : GoStr)
    (hkeys : ∀ q ∈ keys, q ≠ []) :
    ∀ (args : List GoStr) (idx : Nat),
      scanShape keys sep (scanFrom keys sep idx false args) := by
  intro args
  induction args with
  | nil => intro idx; trivial
  | cons arg rest ih =>
    intro idx
    by_cases hs : sep ≠ [] ∧ arg = sep
    · rw [hs.2, scanFrom_cons_sep keys sep idx rest hs.1]
      exact ⟨rfl, hs.1, allPositional_scanFrom keys sep rest (idx + 1)⟩
    · have hnsep : sep ≠ [] → arg ≠ sep := fun h1 h2 => hs ⟨h1, h2⟩
      cases hbest : bestPfx keys arg with
      | some p =>
        rw [scanFrom_cons_opt keys sep idx arg rest p hnsep hbest]
        refine ⟨?_, ih (idx + 1)⟩
        intro h1
        have hparts := bestPfx_fold_prop arg
          (fun q => q ∈ keys ∧ q <+: arg ∧ q ≠ arg) keys none
          (by intro q hq; exact absurd hq (by simp))
          (fun k hk hc => ⟨hk, hc⟩) p (bestPfx_eq_foldl keys arg ▸ hbest)
        obtain ⟨-, hpre, -⟩ := hparts
        have harg : p ++ arg.drop p.length = arg := by
          obtain ⟨t, ht⟩ := hpre
          rw [← ht, List.drop_left]
        show p ++ arg.drop p.length ≠ sep
        rw [harg]
        exact hnsep h1
      | none =>
        rw [scanFrom_cons_pos keys sep idx arg rest hnsep hbest]
        refine ⟨?_, hnsep, ih (idx + 1)⟩
        intro hol
        obtain ⟨q, hq, hqpre, hqne⟩ := hol
        obtain ⟨p, hp⟩ := bestPfx_isSome keys arg q hq (hkeys q hq) hqpre hqne
        rw [hbest] at hp
        exact absurd hp (by simp)


/-- a successful configuration build decomposes into its checks. -/
theorem newConfig_ok_parts {px : Parser} {cfg : Config}
    (h : newConfig px = .ok cfg) :
    px.options.find?
      (fun o => decide (1 < o.name.length) && OptionType.isGroupable o.otype) = none ∧
    (∃ names, buildNames px.options [] = .ok names ∧ findDup names = none) ∧
    findAmbiguous (buildPfxMap px.options []) = none ∧
    cfg.options = buildOptionsMap px.options [] ∧
    cfg.pfxMap = (if (buildPfxMap px.options []).length = 0 then
      [(['-'], optionKindGroupable), (['-', '-'], optionKindStandalone)]
      else buildPfxMap px.options []) ∧
    cfg.parser = px := by
  unfold newConfig at h
  cases hf : px.options.find?
      (fun o => decide (1 < o.name.length) && OptionType.isGroupable o.otype) with
  | some o => simp [hf] at h
  | none =>
    simp only [hf] at h
    cases hbn : buildNames px.options [] with
    | error e => simp [hbn] at h
    | ok names =>
      simp only [hbn] at h
      cases hfd : findDup names with
      | some kv => obtain ⟨n, l⟩ := kv; simp [hfd] at h
      | none =>
        simp only [hfd] at h
        cases hfa : findAmbiguous (buildPfxMap px.options []) with
        | some p => simp [hfa] at h
        | none =>
          simp only [hfa, Except.ok.injEq] at h
          subst h
          exact ⟨rfl, ⟨names, rfl, hfd⟩, rfl, rfl, rfl, rfl⟩

/-- every option of a buildable configuration has a name and a marker. -/
theorem buildNames_ok_clean :
    ∀ {opts : List FlagOption} {acc m},
      buildNames opts acc = .ok m → ∀ o ∈ opts, o.name ≠ [] ∧ o.pfx ≠ [] := by
  intro opts
  induction opts with
  | nil => intro _ _ _ o hm; exact absurd hm (by simp)
  | cons o1 rest ih =>
    intro acc m h o hm
    by_cases hn : o1.name.length = 0
    · rw [show buildNames (o1 :: rest) acc = .error (.emptyOptionName o1) from by
        simp [buildNames, hn]] at h
      exact absurd h (by simp)
    · by_cases hp : o1.pfx.length = 0
      · rw [show buildNames (o1 :: rest) acc = .error (.emptyOptionPfx o1) from by
          simp [buildNames, hn, hp]] at h
        exact absurd h (by simp)
      · rw [show buildNames (o1 :: rest) acc =
          buildNames rest (buildNames.namesAppend acc o1.name o1) from by
            simp [buildNames, hn, hp]] at h
        rcases List.mem_cons.mp hm with he | hm2
        · subst he
          exact ⟨fun h0 => hn (by rw [h0]; rfl), fun h0 => hp (by rw [h0]; rfl)⟩
        · exact ih h o hm2

/-- names are unique in a buildable configuration. -/
theorem countName_le_one_of_newConfig {px : Parser} {cfg : Config}
    (h : newConfig px = .ok cfg) : ∀ n, countName px.options n ≤ 1 := by
  obtain ⟨-, ⟨names, hbn, hfd⟩, -, -, -, -⟩ := newConfig_ok_parts h
  intro n
  by_contra hc
  have hclean := buildNames_ok_clean hbn
  have hok := buildNames_ok_of_clean hclean []
  rw [hok] at hbn
  have hnames : names = px.options.foldl
      (fun acc o => buildNames.namesAppend acc o.name o) [] := by
    simpa using hbn.symm
  subst hnames
  have hgl := buildNames_fold_groupLen px.options n []
  have hgl0 : groupLen ([] : List (GoStr × List FlagOption)) n = 0 := rfl
  rw [hgl0] at hgl
  cases hlk : mapLookup (px.options.foldl
      (fun acc o => buildNames.namesAppend acc o.name o) []) n with
  | none =>
    have : groupLen (px.options.foldl
        (fun acc o => buildNames.namesAppend acc o.name o) []) n = 0 := by
      simp [groupLen, hlk]
    omega
  | some l =>
    have hlen : l.length = countName px.options n := by
      have : groupLen (px.options.foldl
          (fun acc o => buildNames.namesAppend acc o.name o) []) n = l.length := by
        simp [groupLen, hlk]
      omega
    obtain ⟨n2, l2, hfd2⟩ := findDup_isSome
      ⟨(n, l), mapLookup_mem hlk, by simp only []; omega⟩
    rw [hfd2] at hfd
    exact absurd hfd (by simp)

/-- the map read after a last-wins insertion. -/
theorem mapSet_lookup {α : Type} (k : GoStr) (v : α) (n : GoStr) :
    ∀ m, mapLookup (mapSet m k v) n =
      if k = n then some v else mapLookup m n := by
  intro m
  induction m with
  | nil =>
    by_cases hk : k = n
    · simp [mapSet, mapLookup, hk]
    · simp [mapSet, mapLookup, hk]
  | cons kv rest ih =>
    obtain ⟨k1, v1⟩ := kv
    by_cases h1 : k1 = k
    · rw [show mapSet ((k1, v1) :: rest) k v = (k1, v) :: rest from by
        simp [mapSet, h1]]
      by_cases h2 : k1 = n
      · have hkn : k = n := h1 ▸ h2
        simp [mapLookup, h2, hkn]
      · have hkn : ¬ k = n := fun hc => h2 (h1.trans hc)
        simp [mapLookup, h2, hkn]
    · rw [show mapSet ((k1, v1) :: rest) k v = (k1, v1) :: mapSet rest k v from by
        simp [mapSet, h1]]
      by_cases h2 : k1 = n
      · have hkn : ¬ k = n := fun hc => h1 (h2.trans hc.symm).symm.symm
        simp [mapLookup, h2, hkn]
      · rw [show mapLookup ((k1, v1) :: mapSet rest k v) n =
          mapLookup (mapSet rest k v) n from by simp [mapLookup, h2],
          show mapLookup ((k1, v1) :: rest) n = mapLookup rest n from by
            simp [mapLookup, h2]]
        exact ih

/-- the option table reads back the last declared option of each name. -/
theorem buildOptionsMap_lookup :
    ∀ (opts : List FlagOption) (acc : List (GoStr × FlagOption)) (n : GoStr),
      mapLookup (buildOptionsMap opts acc) n =
        match opts.reverse.find? (fun o => o.name = n) with
        | some o => some o
        | none => mapLookup acc n := by
  intro opts
  induction opts with
  | nil => intro acc n; simp [buildOptionsMap]
  | cons o rest ih =>
    intro acc n
    rw [show buildOptionsMap (o :: rest) acc =
      buildOptionsMap rest (mapSet acc o.name o) from rfl, ih]
    rw [List.reverse_cons, List.find?_append]
    cases hfr : rest.reverse.find? (fun o => o.name = n) with
    | some o2 => simp
    | none =>
      simp only [Option.none_orElse]
      by_cases ho : o.name = n
      · simp [ho, mapSet_lookup]
      · simp [ho, mapSet_lookup]

/-- a read from the option table names a declared option with that name. -/
theorem optionsMap_mem {px : Parser} {cfg : Config}
    (h : newConfig px = .ok cfg) {n : GoStr} {o : FlagOption}
    (hlk : mapLookup cfg.options n = some o) : o ∈ px.options ∧ o.name = n := by
  obtain ⟨-, -, -, hopts, -, -⟩ := newConfig_ok_parts h
  rw [hopts, buildOptionsMap_lookup] at hlk
  cases hfr : px.options.reverse.find? (fun o => o.name = n) with
  | none => rw [hfr] at hlk; exact absurd hlk (by simp [mapLookup])
  | some o2 =>
    rw [hfr] at hlk
    have ho2 : o2 = o := by simpa using hlk
    subst ho2
    have hmem := List.mem_of_find?_eq_some hfr
    have hname := List.find?_some hfr
    exact ⟨List.mem_reverse.mp hmem, by simpa using hname⟩

/-- every declared option of a buildable configuration is read back by its
own name. -/
theorem optionsMap_self {px : Parser} {cfg : Config}
    (h : newConfig px = .ok cfg) {o : FlagOption} (hm : o ∈ px.options) :
    mapLookup cfg.options o.name = some o := by
  obtain ⟨-, -, -, hopts, -, -⟩ := newConfig_ok_parts h
  rw [hopts, buildOptionsMap_lookup]
  cases hfr : px.options.reverse.find? (fun o2 => o2.name = o.name) with
  | none =>
    exfalso
    have := List.find?_eq_none.mp hfr o (List.mem_reverse.mpr hm)
    simp at this
  | some o2 =>
    have hmem2 : o2 ∈ px.options :=
      List.mem_reverse.mp (List.mem_of_find?_eq_some hfr)
    have hname2 : o2.name = o.name := by simpa using List.find?_some hfr
    have hcount := countName_le_one_of_newConfig h o.name
    have hmemf : o ∈ px.options.filter (fun o2 => o2.name = o.name) :=
      List.mem_filter.mpr ⟨hm, by simp⟩
    have hmemf2 : o2 ∈ px.options.filter (fun o2 => o2.name = o.name) :=
      List.mem_filter.mpr ⟨hmem2, by simp [hname2]⟩
    have heq : o2 = o := by
      unfold countName at hcount
      cases hfl : px.options.filter (fun o2 => o2.name = o.name) with
      | nil => rw [hfl] at hmemf; exact absurd hmemf (by simp)
      | cons x tail =>
        rw [hfl] at hcount hmemf hmemf2
        cases tail with
        | nil =>
          have h1 : o = x := by simpa using hmemf
          have h2 : o2 = x := by simpa using hmemf2
          rw [h1, h2]
        | cons y tail2 => simp at hcount
    rw [heq]


/-- a set standalone bit makes the standalone test true. -/
theorem isStandalone_of_and {x : Nat} (h : x &&& optionKindStandalone ≠ 0) :
    OptionType.isStandalone x = true := by
  simp [OptionType.isStandalone, bne_iff_ne, h]

/-- a set groupable bit makes the groupable test true. -/
theorem isGroupable_of_and {x : Nat} (h : x &&& optionKindGroupable ≠ 0) :
    OptionType.isGroupable x = true := by
  simp [OptionType.isGroupable, bne_iff_ne, h]

/-- a clear groupable bit makes the groupable test false. -/
theorem isGroupable_eq_false_of_and {x : Nat} (h : x &&& optionKindGroupable = 0) :
    OptionType.isGroupable x = false := by
  simp [OptionType.isGroupable, bne_iff_ne, h]

/-- a clear standalone bit makes the standalone test false. -/
theorem isStandalone_eq_false_of_and {x : Nat} (h : x &&& optionKindStandalone = 0) :
    OptionType.isStandalone x = false := by
  simp [OptionType.isStandalone, bne_iff_ne, h]

/-- a clean ambiguity check means no entry carries both family bits. -/
theorem findAmbiguous_eq_none :
    ∀ {m : List (GoStr × OptionType)}, findAmbiguous m = none →
      ∀ kv ∈ m, kv.2 &&& (optionKindGroupable ||| optionKindStandalone) ≠
        optionKindGroupable ||| optionKindStandalone := by
  intro m
  induction m with
  | nil => intro _ kv hm; exact absurd hm (by simp)
  | cons kv1 rest ih =>
    obtain ⟨k1, v1⟩ := kv1
    intro h kv hm
    by_cases h1 : v1 &&& (optionKindGroupable ||| optionKindStandalone) =
        optionKindGroupable ||| optionKindStandalone
    · rw [show findAmbiguous ((k1, v1) :: rest) = some k1 from by
        simp [findAmbiguous, h1]] at h
      exact absurd h (by simp)
    · rw [show findAmbiguous ((k1, v1) :: rest) = findAmbiguous rest from by
        simp [findAmbiguous, h1]] at h
      rcases List.mem_cons.mp hm with he | hm2
      · rw [he]; exact h1
      · exact ih h kv hm2

/-- the keys of the Prefix table built by the collection loop all come from
the accumulator or from declared markers. -/
theorem buildPfxMap_keys :
    ∀ (opts : List FlagOption) (acc : List (GoStr × OptionType)) (k : GoStr),
      k ∈ (buildPfxMap opts acc).map Prod.fst →
      k ∈ acc.map Prod.fst ∨ ∃ o ∈ opts, o.pfx = k := by
  have hpfxOr : ∀ (m : List (GoStr × OptionType)) (k2 : GoStr) (bit : OptionType)
      (k : GoStr), k ∈ (pfxOr m k2 bit).map Prod.fst →
      k = k2 ∨ k ∈ m.map Prod.fst := by
    intro m
    induction m with
    | nil =>
      intro k2 bit k hk
      simp [pfxOr] at hk
      exact Or.inl hk
    | cons kv rest ih =>
      obtain ⟨k1, v1⟩ := kv
      intro k2 bit k hk
      by_cases h1 : k1 = k2
      · rw [show pfxOr ((k1, v1) :: rest) k2 bit = (k1, v1 ||| bit) :: rest from by
          simp [pfxOr, h1]] at hk
        simp only [List.map_cons, List.mem_cons] at hk
        rcases hk with he | hm
        · exact Or.inr (by simp [he])
        · exact Or.inr (by simp; exact Or.inr (by simpa using hm))
      · rw [show pfxOr ((k1, v1) :: rest) k2 bit = (k1, v1) :: pfxOr rest k2 bit from by
          simp [pfxOr, h1]] at hk
        simp only [List.map_cons, List.mem_cons] at hk
        rcases hk with he | hm
        · exact Or.inr (by simp [he])
        · rcases ih k2 bit k hm with h | h
          · exact Or.inl h
          · exact Or.inr (by simp; exact Or.inr (by simpa using h))
  intro opts
  induction opts with
  | nil => intro acc k hk; exact Or.inl hk
  | cons o rest ih =>
    intro acc k hk
    by_cases hg : OptionType.isGroupable o.otype = true
    · rw [show buildPfxMap (o :: rest) acc =
        buildPfxMap rest (pfxOr acc o.pfx optionKindGroupable) from by
          simp [buildPfxMap, hg]] at hk
      rcases ih _ k hk with h | ⟨o2, hm2, hp2⟩
      · rcases hpfxOr acc o.pfx optionKindGroupable k h with he | h2
        · exact Or.inr ⟨o, List.mem_cons_self o rest, he.symm⟩
        · exact Or.inl h2
      · exact Or.inr ⟨o2, List.mem_cons_of_mem o hm2, hp2⟩
    · by_cases hs : OptionType.isStandalone o.otype = true
      · rw [show buildPfxMap (o :: rest) acc =
          buildPfxMap rest (pfxOr acc o.pfx optionKindStandalone) from by
            simp [buildPfxMap, hg, hs]] at hk
        rcases ih _ k hk with h | ⟨o2, hm2, hp2⟩
        · rcases hpfxOr acc o.pfx optionKindStandalone k h with he | h2
          · exact Or.inr ⟨o, List.mem_cons_self o rest, he.symm⟩
          · exact Or.inl h2
        · exact Or.inr ⟨o2, List.mem_cons_of_mem o hm2, hp2⟩
      · rw [show buildPfxMap (o :: rest) acc = buildPfxMap rest acc from by
          simp [buildPfxMap, hg, hs]] at hk
        rcases ih acc k hk with h | ⟨o2, hm2, hp2⟩
        · exact Or.inl h
        · exact Or.inr ⟨o2, List.mem_cons_of_mem o hm2, hp2⟩

/-- every marker key of a validated configuration is nonempty. -/
theorem pfxKeys_ne_nil {px : Parser} {cfg : Config}
    (h : newConfig px = .ok cfg) : ∀ q ∈ pfxKeys cfg, q ≠ [] := by
  obtain ⟨-, ⟨names, hbn, -⟩, -, -, hmap, -⟩ := newConfig_ok_parts h
  intro q hq
  unfold pfxKeys at hq
  rw [hmap] at hq
  by_cases hlen : (buildPfxMap px.options []).length = 0
  · rw [if_pos hlen] at hq
    simp at hq
    rcases hq with h1 | h1 <;> simp [h1]
  · rw [if_neg hlen] at hq
    rcases buildPfxMap_keys px.options [] q hq with h1 | ⟨o, hm, hp⟩
    · exact absurd h1 (by simp)
    · rw [← hp]
      exact (buildNames_ok_clean hbn o hm).2

/-- a standalone-family option stamps the standalone bit, and only it, on
its marker in the Prefix table of its validated configuration. -/
theorem pfxMap_bit_standalone {px : Parser} {cfg : Config}
    (h : newConfig px = .ok cfg) {o : FlagOption} (hm : o ∈ px.options)
    (hs : OptionType.isStandalone o.otype = true)
    (hg : OptionType.isGroupable o.otype = false) :
    OptionType.isStandalone ((mapLookup cfg.pfxMap o.pfx).getD 0) = true ∧
    o.pfx ∈ pfxKeys cfg := by
  obtain ⟨-, -, hfa, -, hmap, -⟩ := newConfig_ok_parts h
  have hbits := (buildPfxMap_bits o.pfx px.options []).2
  have hbit : ((mapLookup (buildPfxMap px.options []) o.pfx).getD 0) &&&
      optionKindStandalone ≠ 0 := by
    rw [hbits]
    exact Or.inr ⟨o, hm, rfl, hg, hs⟩
  have hlk : mapLookup (buildPfxMap px.options []) o.pfx ≠ none := by
    intro hc
    rw [hc] at hbit
    exact hbit (by decide)
  have hne : buildPfxMap px.options [] ≠ [] := by
    intro hc
    rw [hc] at hlk
    exact hlk rfl
  have hlen : ¬ (buildPfxMap px.options []).length = 0 := by
    simpa [List.length_eq_zero] using hne
  rw [hmap, if_neg hlen]
  refine ⟨isStandalone_of_and hbit, ?_⟩
  unfold pfxKeys
  rw [hmap, if_neg hlen]
  cases hl : mapLookup (buildPfxMap px.options []) o.pfx with
  | none => exact absurd hl hlk
  | some fl => exact List.mem_map.mpr ⟨(o.pfx, fl), mapLookup_mem hl, rfl⟩

/-- a groupable option stamps the groupable bit on its marker, and the
ambiguity check guarantees the standalone bit stays clear there. -/
theorem pfxMap_bit_groupable {px : Parser} {cfg : Config}
    (h : newConfig px = .ok cfg) {o : FlagOption} (hm : o ∈ px.options)
    (hg : OptionType.isGroupable o.otype = true) :
    OptionType.isGroupable ((mapLookup cfg.pfxMap o.pfx).getD 0) = true ∧
    OptionType.isStandalone ((mapLookup cfg.pfxMap o.pfx).getD 0) = false ∧
    o.pfx ∈ pfxKeys cfg := by
  obtain ⟨-, -, hfa, -, hmap, -⟩ := newConfig_ok_parts h
  have hbits := (buildPfxMap_bits o.pfx px.options []).1
  have hbit : ((mapLookup (buildPfxMap px.options []) o.pfx).getD 0) &&&
      optionKindGroupable ≠ 0 := by
    rw [hbits]
    exact Or.inr ⟨o, hm, rfl, hg⟩
  have hlk : mapLookup (buildPfxMap px.options []) o.pfx ≠ none := by
    intro hc
    rw [hc] at hbit
    exact hbit (by decide)
  have hne : buildPfxMap px.options [] ≠ [] := by
    intro hc
    rw [hc] at hlk
    exact hlk rfl
  have hlen : ¬ (buildPfxMap px.options []).length = 0 := by
    simpa [List.length_eq_zero] using hne
  cases hl : mapLookup (buildPfxMap px.options []) o.pfx with
  | none => exact absurd hl hlk
  | some fl =>
    have hsbit : fl &&& optionKindStandalone = 0 := by
      by_contra hc
      have hboth := and_both_bits
        (by rw [hl] at hbit; simpa using hbit) (by simpa using hc)
      exact findAmbiguous_eq_none hfa (o.pfx, fl) (mapLookup_mem hl) hboth
    rw [hmap, if_neg hlen]
    refine ⟨?_, ?_, ?_⟩
    · rw [hl] at hbit ⊢
      exact isGroupable_of_and (by simpa using hbit)
    · rw [hl]
      exact isStandalone_eq_false_of_and (by simpa using hsbit)
    · unfold pfxKeys
      rw [hmap, if_neg hlen]
      exact List.mem_map.mpr ⟨(o.pfx, fl), mapLookup_mem hl, rfl⟩

/-- every groupable option of a validated configuration bears a
one-character name. -/
theorem groupable_name_single {px : Parser} {cfg : Config}
    (h : newConfig px = .ok cfg) {o : FlagOption} (hm : o ∈ px.options)
    (hg : OptionType.isGroupable o.otype = true) : ∃ c, o.name = [c] := by
  obtain ⟨hf, ⟨names, hbn, -⟩, -, -, -, -⟩ := newConfig_ok_parts h
  have hnf := List.find?_eq_none.mp hf o hm
  simp only [Bool.and_eq_true, decide_eq_true_eq, not_and, hg] at hnf
  have hle : o.name.length ≤ 1 := by
    by_contra hc
    exact absurd hg (by simpa using hnf (by omega))
  have hne : o.name ≠ [] := (buildNames_ok_clean hbn o hm).1
  have h1 : o.name.length = 1 := by
    cases hn : o.name with
    | nil => exact absurd hn hne
    | cons c t =>
      rw [hn] at hle
      simp at hle
      simp [hle]
  exact List.length_eq_one.mp h1

/-- validation ignores the permutation flag: the configuration of the
preserve-mode twin differs only in its stored parser. -/
theorem newConfig_preserve {px : Parser} {cfg : Config}
    (h : newConfig px = .ok cfg) :
    newConfig (preservePx px) = .ok (preserveCfg px cfg) := by
  obtain ⟨h1, ⟨names, h2, h3⟩, h4, h5, h6, h7⟩ := newConfig_ok_parts h
  unfold newConfig preserveCfg
  have hopts : (preservePx px).options = px.options := rfl
  rw [hopts]
  simp only [h1, h2, h3, h4]
  rw [h5, h6]

/-- with no declared early option the early scan never returns a value. -/
theorem earlyParse_none_of_noEarly {opts : List FlagOption}
    (h : ∀ o ∈ opts, OptionType.isEarly o.otype = false) :
    ∀ (toks : List Token) (dp : Bool), earlyParse opts toks dp = none := by
  intro toks
  induction toks with
  | nil => intro dp; rfl
  | cons t rest ih =>
    intro dp
    cases t with
    | option tok =>
      have hf : opts.find?
          (fun o => OptionType.isEarly o.otype && tok.pfx = o.pfx &&
            tok.name = o.name) = none := by
        rw [List.find?_eq_none]
        intro o hm
        simp [h o hm]
      simp [earlyParse, hf, ih]
    | positional tok => cases dp <;> simp [earlyParse, ih]
    | separator tok => simp [earlyParse, ih]


/-- a name without an equals sign is not split. -/
theorem splitOptName_no_eq {name : GoStr} (h : '=' ∉ name) :
    splitOptName name = (name, []) := by
  apply splitOptName_id
  rw [goIndexOf_eq_neg_of_not_mem h]
  decide

/-- a split that returns the whole name carries no value. -/
theorem splitOptName_fst_eq {name : GoStr}
    (h : (splitOptName name).1 = name) : (splitOptName name).2 = [] := by
  by_cases hidx : 0 < goIndexOf name '='
  · exfalso
    rw [show splitOptName name =
        (name.takeWhile (fun c => c ≠ '='),
          (name.dropWhile (fun c => c ≠ '=')).tail) from by
      unfold splitOptName; rw [if_pos hidx]] at h
    simp only [] at h
    have hall := List.takeWhile_eq_self_iff.mp h
    have hnm : '=' ∉ name := by
      intro hc
      have := hall '=' hc
      simp at this
    rw [goIndexOf_eq_neg_of_not_mem hnm] at hidx
    exact absurd hidx (by decide)
  · rw [splitOptName_id hidx]

/-- a prefix concatenated with the matching drop restores the word. -/
theorem prefix_append_drop {q w : GoStr} (h : q <+: w) :
    q ++ w.drop q.length = w := by
  conv_rhs => rw [← List.take_append_drop q.length w]
  rw [← List.prefix_iff_eq_take.mp h]

/-- a successful option lookup certifies the three-axis match. -/
theorem findOption_ok {cfg : Config} {tok : OptionToken} {n : GoStr}
    {kind : OptionType} {opt : FlagOption}
    (h : cfg.findOption tok n kind = .ok opt) :
    mapLookup cfg.options n = some opt ∧ opt.pfx = tok.pfx ∧
      opt.otype &&& kind ≠ 0 := by
  unfold Config.findOption at h
  cases hl : mapLookup cfg.options n with
  | none => simp [hl] at h
  | some o2 =>
    simp only [hl] at h
    by_cases hc : o2.pfx = tok.pfx ∧ o2.otype &&& kind ≠ 0
    · rw [if_pos hc] at h
      have ho : o2 = opt := by simpa using h
      subst ho
      exact ⟨rfl, hc.1, hc.2⟩
    · rw [if_neg hc] at h
      exact absurd h (by simp)

/-- the three-axis match makes the option lookup succeed. -/
theorem findOption_ok_intro {cfg : Config} {tok : OptionToken} {n : GoStr}
    {kind : OptionType} {opt : FlagOption}
    (hl : mapLookup cfg.options n = some opt) (hp : opt.pfx = tok.pfx)
    (hb : opt.otype &&& kind ≠ 0) :
    cfg.findOption tok n kind = .ok opt := by
  unfold Config.findOption
  simp only [hl]
  rw [if_pos ⟨hp, hb⟩]

/-- an empty token list ends the state machine with the buffers as built. -/
theorem doParse_nil (cfg : Config) (op : Bool) (O P : List Value) :
    doParse cfg [] op O P = .ok (O, P) := rfl

/-- the state machine on its very last token. -/
theorem doParse_single (cfg : Config) (t : Token) (op : Bool)
    (O P : List Value) :
    doParse cfg [t] op O P =
      match doParseStep cfg t none op O P with
      | .error e => .error e
      | .ok (_, _, O1, P1) => .ok (O1, P1) := by
  simp only [doParse]

/-- the state machine step with a successor token in the deque. -/
theorem doParse_cons₂ (cfg : Config) (t u : Token) (T : List Token)
    (op : Bool) (O P : List Value) :
    doParse cfg (t :: u :: T) op O P =
      match doParseStep cfg t (some u) op O P with
      | .error e => .error e
      | .ok (c, op1, O1, P1) =>
        if c then doParse cfg T op1 O1 P1
        else doParse cfg (u :: T) op1 O1 P1 := by
  simp only [doParse]

/-- a step that never consumes its successor advances the machine by
exactly one token. -/
theorem doParse_step_nonconsume {cfg : Config} {t : Token} {op : Bool}
    {O P : List Value} {op2 : Bool} {O2 P2 : List Value}
    (h : ∀ nx, doParseStep cfg t nx op O P = .ok (false, op2, O2, P2)) :
    ∀ T, doParse cfg (t :: T) op O P = doParse cfg T op2 O2 P2 := by
  intro T
  cases T with
  | nil => rw [doParse_single, h none, doParse_nil]
  | cons u T2 => rw [doParse_cons₂, h (some u)]; rfl

/-- a step that consumes its successor advances the machine by two. -/
theorem doParse_step_consume {cfg : Config} {t u : Token} {op : Bool}
    {O P : List Value} {op2 : Bool} {O2 P2 : List Value}
    (h : doParseStep cfg t (some u) op O P = .ok (true, op2, O2, P2))
    (T : List Token) :
    doParse cfg (t :: u :: T) op O P = doParse cfg T op2 O2 P2 := by
  rw [doParse_cons₂, h]; rfl

/-- inserting past elements with indices at most the new one appends. -/
theorem insertValue_append {v : Value} :
    ∀ {l : List Value}, (∀ w ∈ l, w.index ≤ v.index) →
      insertValue v l = l ++ [v] := by
  intro l
  induction l with
  | nil => intro _; rfl
  | cons w rest ih =>
    intro h
    show (if w.index ≤ v.index then w :: insertValue v rest
      else v :: w :: rest) = _
    rw [if_pos (h w (List.mem_cons_self w rest)),
      ih (fun u hu => h u (List.mem_cons_of_mem w hu))]
    rfl

/-- the stable sort leaves an already index-sorted list unchanged. -/
theorem sortValues_eq_self {l : List Value}
    (h : l.Pairwise (fun a b => a.index ≤ b.index)) : sortValues l = l := by
  have hgen : ∀ (l2 acc : List Value),
      (acc ++ l2).Pairwise (fun a b => a.index ≤ b.index) →
      l2.foldl (fun acc v => insertValue v acc) acc = acc ++ l2 := by
    intro l2
    induction l2 with
    | nil => intro acc _; simp
    | cons v rest ih =>
      intro acc hp
      rw [List.foldl_cons]
      have hacc : ∀ w ∈ acc, w.index ≤ v.index := by
        intro w hw
        have := (List.pairwise_append.mp hp).2.2 w hw v (by simp)
        exact this
      rw [insertValue_append hacc, ih (acc ++ [v]) (by simpa using hp)]
      simp
  have := hgen l [] (by simpa using h)
  simpa [sortValues] using this

/-- preserve mode is the stable sort of the concatenated buffers. -/
theorem permute_preserve (O P : List Value) :
    permute true O P = sortValues (O ++ P) := rfl

/-- reorder mode sorts the two buffers independently. -/
theorem permute_reorder (O P : List Value) :
    permute false O P = sortValues O ++ sortValues P := rfl

/-- the replay state after one more value steps once. -/
theorem stateAfter_append (st : Bool × Bool) (l : List Value) (v : Value) :
    stateAfter st (l ++ [v]) = posStep (stateAfter st l) v := by
  simp [stateAfter]

/-- a fine sequence extends by a value fine at its final state. -/
theorem seqFine_append {cfg : Config} {keys : List GoStr} {sep : GoStr} :
    ∀ {l : List Value} {st : Bool × Bool} {v : Value},
      seqFine cfg keys sep st l →
      valueFineAt cfg keys sep (stateAfter st l) v →
      seqFine cfg keys sep st (l ++ [v]) := by
  intro l
  induction l with
  | nil =>
    intro st v _ hv
    exact ⟨hv, trivial⟩
  | cons w rest ih =>
    intro st v hseq hv
    obtain ⟨hw, hrest⟩ := hseq
    refine ⟨hw, ih hrest ?_⟩
    have : stateAfter st (w :: rest) = stateAfter (posStep st w) rest := by
      simp [stateAfter]
    rw [← this]
    exact hv

/-- sound option values ahead of a fine positional tail keep the whole
sequence fine from the initial state. -/
theorem seqFine_options_prefix {cfg : Config} {keys : List GoStr}
    {sep : GoStr} :
    ∀ {O P : List Value},
      (∀ v ∈ O, ∃ o tok w, v = Value.option o tok w ∧
        optValueFine cfg sep o w) →
      seqFine cfg keys sep (false, false) P →
      seqFine cfg keys sep (false, false) (O ++ P) := by
  intro O
  induction O with
  | nil => intro P _ hP; simpa using hP
  | cons v rest ih =>
    intro P hO hP
    obtain ⟨o, tok, w, hv, hfine⟩ := hO v (List.mem_cons_self v rest)
    subst hv
    exact ⟨⟨rfl, hfine⟩, ih (fun u hu => hO u (List.mem_cons_of_mem _ hu)) hP⟩

/-- each scanned token reproduces its argument literally and carries its
position. -/
theorem scanFrom_head_str (keys : List GoStr) (sep : GoStr) (idx : Nat)
    (arg : GoStr) (rest : List GoStr) (hnsep : ¬ (sep ≠ [] ∧ arg = sep)) :
    ∃ u, scanFrom keys sep idx false (arg :: rest) =
        u :: scanFrom keys sep (idx + 1) false rest ∧
      Token.str u = arg ∧ Token.index u = idx := by
  have hnsep2 : sep ≠ [] → arg ≠ sep := fun h1 h2 => hnsep ⟨h1, h2⟩
  cases hbest : bestPfx keys arg with
  | some p =>
    refine ⟨.option ⟨idx, p, arg.drop p.length⟩,
      scanFrom_cons_opt keys sep idx arg rest p hnsep2 hbest, ?_, rfl⟩
    have hprop := bestPfx_fold_prop arg
      (fun q => q ∈ keys ∧ q <+: arg ∧ q ≠ arg) keys none
      (by intro q hq; exact absurd hq (by simp))
      (fun k hk hc => ⟨hk, hc⟩) p (bestPfx_eq_foldl keys arg ▸ hbest)
    exact prefix_append_drop hprop.2.1
  | none =>
    exact ⟨.positional ⟨idx, arg⟩,
      scanFrom_cons_pos keys sep idx arg rest hnsep2 hbest, rfl, rfl⟩


/-- one machine step only appends to the two buffers. -/
theorem doParseStep_frame {cfg : Config} {t : Token} {nx : Option Token}
    {op : Bool} {O P : List Value} {c op2 : Bool} {O2 P2 : List Value}
    (h : doParseStep cfg t nx op O P = .ok (c, op2, O2, P2)) :
    (∃ dO, O2 = O ++ dO) ∧ ∃ dP, P2 = P ++ dP := by
  cases t with
  | positional cur =>
    simp only [doParseStep, Except.ok.injEq, Prod.mk.injEq] at h
    exact ⟨⟨[], by simp [← h.2.2.1]⟩, ⟨_, h.2.2.2.symm⟩⟩
  | separator cur =>
    simp only [doParseStep, Except.ok.injEq, Prod.mk.injEq] at h
    exact ⟨⟨[], by simp [← h.2.2.1]⟩, ⟨_, h.2.2.2.symm⟩⟩
  | option cur =>
    simp only [doParseStep] at h
    by_cases hop : op = true
    · rw [if_pos hop] at h
      simp only [Except.ok.injEq, Prod.mk.injEq] at h
      exact ⟨⟨[], by simp [← h.2.2.1]⟩, ⟨_, h.2.2.2.symm⟩⟩
    · rw [if_neg hop] at h
      by_cases hsa : OptionType.isStandalone
          ((mapLookup cfg.pfxMap cur.pfx).getD 0) = true
      · rw [if_pos hsa] at h
        cases hrun : doParseStandaloneOption cfg cur nx with
        | error e => simp [hrun] at h
        | ok r =>
          obtain ⟨c1, v⟩ := r
          simp only [hrun, Except.ok.injEq, Prod.mk.injEq] at h
          exact ⟨⟨[v], h.2.2.1.symm⟩, ⟨[], by simp [← h.2.2.2]⟩⟩
      · rw [if_neg hsa] at h
        by_cases hg : OptionType.isGroupable
            ((mapLookup cfg.pfxMap cur.pfx).getD 0) = true
        · rw [if_pos hg] at h
          cases hrun : doParseGroupableOption cfg cur nx with
          | error e => simp [hrun] at h
          | ok r =>
            obtain ⟨c1, vs⟩ := r
            simp only [hrun, Except.ok.injEq, Prod.mk.injEq] at h
            exact ⟨⟨vs, h.2.2.1.symm⟩, ⟨[], by simp [← h.2.2.2]⟩⟩
        · rw [if_neg hg] at h
          exact absurd h (by simp)

/-- the state machine only appends to the two buffers. -/
theorem doParse_frame (cfg : Config) :
    ∀ (n : Nat) (toks : List Token), toks.length ≤ n →
    ∀ (op : Bool) (O P O2 P2 : List Value),
      doParse cfg toks op O P = .ok (O2, P2) →
      (∃ dO, O2 = O ++ dO) ∧ ∃ dP, P2 = P ++ dP := by
  intro n
  induction n with
  | zero =>
    intro toks hlen op O P O2 P2 h
    have htoks : toks = [] := List.length_eq_zero.mp (by omega)
    subst htoks
    rw [doParse_nil] at h
    simp only [Except.ok.injEq, Prod.mk.injEq] at h
    exact ⟨⟨[], by simp [← h.1]⟩, ⟨[], by simp [← h.2]⟩⟩
  | succ n ih =>
    intro toks hlen op O P O2 P2 h
    match toks with
    | [] =>
      rw [doParse_nil] at h
      simp only [Except.ok.injEq, Prod.mk.injEq] at h
      exact ⟨⟨[], by simp [← h.1]⟩, ⟨[], by simp [← h.2]⟩⟩
    | [t] =>
      rw [doParse_single] at h
      cases hstep : doParseStep cfg t none op O P with
      | error e => simp [hstep] at h
      | ok r =>
        obtain ⟨c, op1, O1, P1⟩ := r
        simp only [hstep, Except.ok.injEq, Prod.mk.injEq] at h
        obtain ⟨hfO, hfP⟩ := doParseStep_frame hstep
        rw [← h.1, ← h.2]
        exact ⟨hfO, hfP⟩
    | t :: u :: T =>
      rw [doParse_cons₂] at h
      cases hstep : doParseStep cfg t (some u) op O P with
      | error e => simp [hstep] at h
      | ok r =>
        obtain ⟨c, op1, O1, P1⟩ := r
        simp only [hstep] at h
        obtain ⟨⟨dO1, hdO1⟩, dP1, hdP1⟩ := doParseStep_frame hstep
        cases c with
        | true =>
          rw [if_pos rfl] at h
          obtain ⟨⟨dO2, hdO2⟩, dP2, hdP2⟩ := ih T (by
            simp at hlen ⊢; omega) op1 O1 P1 O2 P2 h
          exact ⟨⟨dO1 ++ dO2, by rw [hdO2, hdO1, List.append_assoc]⟩,
            ⟨dP1 ++ dP2, by rw [hdP2, hdP1, List.append_assoc]⟩⟩
        | false =>
          rw [if_neg (by simp)] at h
          obtain ⟨⟨dO2, hdO2⟩, dP2, hdP2⟩ := ih (u :: T) (by
            simp at hlen ⊢; omega) op1 O1 P1 O2 P2 h
          exact ⟨⟨dO1 ++ dO2, by rw [hdO2, hdO1, List.append_assoc]⟩,
            ⟨dP1 ++ dP2, by rw [hdP2, hdP1, List.append_assoc]⟩⟩

/-- what a successful standalone-option resolution guarantees: the value
names a declared option of a standalone class, no-argument values are
empty, optional values are empty only for an empty default, and a
consumed flag pins the value to the next token text. -/
theorem doParseStandaloneOption_ok {cfg : Config} {cur : OptionToken}
    {next : Option Token} {c : Bool} {v : Value}
    (hname : ∀ n o, mapLookup cfg.options n = some o → o.name = n)
    (h : doParseStandaloneOption cfg cur next = .ok (c, v)) :
    ∃ o w, v = Value.option o (.option cur) w ∧
      mapLookup cfg.options o.name = some o ∧
      ((o.otype = OptionTypeStandaloneArgumentNone ∧ w = [] ∧ c = false) ∨
       (o.otype = OptionTypeStandaloneArgumentOptional ∧
         (w = [] → o.defaultValue = []) ∧ c = false) ∨
       (o.otype = OptionTypeStandaloneArgumentRequired ∧
         (c = false ∨ (c = true ∧ ∃ u, next = some u ∧ w = u.str)))) := by
  unfold doParseStandaloneOption at h
  rcases hsp : splitOptName cur.name with ⟨n1, v1⟩
  rw [hsp] at h
  simp only [] at h
  cases hfind : cfg.findOption cur n1 optionKindStandalone with
  | error e => simp [hfind] at h
  | ok opt =>
    simp only [hfind] at h
    obtain ⟨hlk, hpfx, hbits⟩ := findOption_ok hfind
    have hnm : opt.name = n1 := hname n1 opt hlk
    have hlk2 : mapLookup cfg.options opt.name = some opt := by rw [hnm]; exact hlk
    by_cases h1 : opt.otype = OptionTypeStandaloneArgumentNone
    · rw [if_pos h1] at h
      by_cases h2 : n1 ≠ cur.name
      · rw [if_pos h2] at h
        exact absurd h (by simp)
      · rw [if_neg h2] at h
        simp only [Except.ok.injEq, Prod.mk.injEq] at h
        have hv1 : v1 = [] := by
          have hfst : (splitOptName cur.name).1 = cur.name := by
            rw [hsp]
            simpa using not_not.mp h2
          have := splitOptName_fst_eq hfst
          rw [hsp] at this
          exact this
        exact ⟨opt, v1, h.2.symm, hlk2, Or.inl ⟨h1, hv1, h.1.symm⟩⟩
    · rw [if_neg h1] at h
      by_cases h2 : opt.otype = OptionTypeStandaloneArgumentOptional
      · rw [if_pos h2] at h
        simp only [Except.ok.injEq, Prod.mk.injEq] at h
        refine ⟨opt, if v1 = [] then opt.defaultValue else v1, h.2.symm, hlk2,
          Or.inr (Or.inl ⟨h2, ?_, h.1.symm⟩)⟩
        intro hw
        by_cases hv1 : v1 = []
        · rw [if_pos hv1] at hw
          exact hw
        · rw [if_neg hv1] at hw
          exact absurd hw hv1
      · rw [if_neg h2] at h
        by_cases h3 : opt.otype = OptionTypeStandaloneArgumentRequired
        · rw [if_pos h3] at h
          by_cases h4 : n1 = cur.name
          · rw [if_pos h4] at h
            cases next with
            | none => exact absurd h (by simp)
            | some u =>
              simp only [Except.ok.injEq, Prod.mk.injEq] at h
              exact ⟨opt, u.str, h.2.symm, hlk2,
                Or.inr (Or.inr ⟨h3, Or.inr ⟨h.1.symm, u, rfl, rfl⟩⟩)⟩
          · rw [if_neg h4] at h
            simp only [Except.ok.injEq, Prod.mk.injEq] at h
            exact ⟨opt, v1, h.2.symm, hlk2,
              Or.inr (Or.inr ⟨h3, Or.inl h.1.symm⟩)⟩
        · rw [if_neg h3] at h
          exact absurd h (by simp)

/-- what a successful groupable walk guarantees for every produced value,
and what the consumed flag pins down. -/
theorem groupWalk_ok {cfg : Config} {cur : OptionToken}
    (hname : ∀ n o, mapLookup cfg.options n = some o → o.name = n) :
    ∀ (s : GoStr) (next : Option Token) (acc : List Value) (c : Bool)
      (out : List Value),
      groupWalk cfg cur s next acc = .ok (c, out) →
      ∃ d, out = acc ++ d ∧
        (∀ v ∈ d, ∃ o w, v = Value.option o (.option cur) w ∧
          mapLookup cfg.options o.name = some o ∧
          ((o.otype = OptionTypeGroupableArgumentNone ∧ w = []) ∨
            o.otype = OptionTypeGroupableArgumentRequired)) ∧
        (c = true → ∃ u, next = some u ∧ ∃ o,
          Value.option o (.option cur) u.str ∈ d ∧
          o.otype = OptionTypeGroupableArgumentRequired) := by
  intro s
  induction s with
  | nil =>
    intro next acc c out h
    simp only [groupWalk, Except.ok.injEq, Prod.mk.injEq] at h
    refine ⟨[], by simp [← h.2], by simp, ?_⟩
    intro hc
    rw [hc] at h
    exact absurd h.1.symm (by simp)
  | cons ch rest ih =>
    intro next acc c out h
    rw [groupWalk_cons_eq] at h
    cases hfind : cfg.findOption cur [ch] optionKindGroupable with
    | error e => simp [hfind] at h
    | ok opt =>
      simp only [hfind] at h
      obtain ⟨hlk, hpfx, hbits⟩ := findOption_ok hfind
      have hnm : opt.name = [ch] := hname [ch] opt hlk
      have hlk2 : mapLookup cfg.options opt.name = some opt := by
        rw [hnm]; exact hlk
      by_cases h1 : opt.otype = OptionTypeGroupableArgumentNone
      · rw [if_pos h1] at h
        obtain ⟨d, hd, hvals, hcons⟩ := ih next _ c out h
        refine ⟨Value.option opt (.option cur) [] :: d, by simp [hd], ?_, ?_⟩
        · intro v hv
          rcases List.mem_cons.mp hv with he | hm
          · exact ⟨opt, [], he, hlk2, Or.inl ⟨h1, rfl⟩⟩
          · exact hvals v hm
        · intro hc
          obtain ⟨u, hu, o, hmem, ho⟩ := hcons hc
          exact ⟨u, hu, o, List.mem_cons_of_mem _ hmem, ho⟩
      · rw [if_neg h1] at h
        by_cases h2 : opt.otype = OptionTypeGroupableArgumentRequired
        · rw [if_pos h2] at h
          by_cases h3 : rest.length ≠ 0
          · rw [if_pos h3] at h
            simp only [Except.ok.injEq, Prod.mk.injEq] at h
            refine ⟨[Value.option opt (.option cur) rest], by simp [← h.2], ?_, ?_⟩
            · intro v hv
              rcases List.mem_cons.mp hv with he | hm
              · exact ⟨opt, rest, he, hlk2, Or.inr h2⟩
              · exact absurd hm (by simp)
            · intro hc
              rw [hc] at h
              exact absurd h.1.symm (by simp)
          · rw [if_neg h3] at h
            cases next with
            | none => exact absurd h (by simp)
            | some u =>
              simp only [Except.ok.injEq, Prod.mk.injEq] at h
              refine ⟨[Value.option opt (.option cur) u.str],
                by simp [← h.2], ?_, ?_⟩
              · intro v hv
                rcases List.mem_cons.mp hv with he | hm
                · exact ⟨opt, u.str, he, hlk2, Or.inr h2⟩
                · exact absurd hm (by simp)
              · intro _
                exact ⟨u, rfl, opt, by simp, h2⟩
        · rw [if_neg h2] at h
          exact absurd h (by simp)


/-- the forward invariant is monotone in the cursor. -/
theorem fwdInv_mono {cfg : Config} {keys : List GoStr} {sep : GoStr}
    {i j : Nat} {st : Bool × Bool} {op : Bool} {O P : List Value}
    (hij : i ≤ j) (h : fwdInv cfg keys sep i st op O P) :
    fwdInv cfg keys sep j st op O P := by
  obtain ⟨h1, h2, h3, h4, h5, h6, h7, h8, h9, h10⟩ := h
  exact ⟨h1, h2, h3, fun v hv => lt_of_lt_of_le (h4 v hv) hij,
    fun v hv => lt_of_lt_of_le (h5 v hv) hij, h6, h7, h8, h9, h10⟩

/-- the forward invariant yields the forward guarantees on the buffers. -/
theorem fwdInv_out {cfg : Config} {keys : List GoStr} {sep : GoStr}
    {i : Nat} {st : Bool × Bool} {op : Bool} {O P : List Value}
    (h : fwdInv cfg keys sep i st op O P) : fwdOut cfg keys sep O P := by
  obtain ⟨h1, h2, h3, h4, h5, h6, h7, h8, h9, h10⟩ := h
  exact ⟨h8, h3, h9, h6, h7, fun hdp => (h10 hdp).2⟩

/-- an option token processed with permutation still live appends sound
option values at the cursor, keeps the positionals buffer, and pins a
consumed flag to a required-argument value spelling the next token. -/
theorem doParseStep_option_forward {cfg : Config} {keys : List GoStr}
    {sep : GoStr}
    (hname : ∀ n o, mapLookup cfg.options n = some o → o.name = n)
    {cur : OptionToken} {nx : Option Token} {i : Nat} {st : Bool × Bool}
    {O P : List Value} {c op1 : Bool} {O1 P1 : List Value}
    (hidx : cur.idx = i)
    (hinv : fwdInv cfg keys sep i st false O P)
    (hstep : doParseStep cfg (.option cur) nx false O P = .ok (c, op1, O1, P1)) :
    op1 = false ∧ P1 = P ∧
    fwdInv cfg keys sep (i + 1) st false O1 P1 ∧
    (c = true → ∃ u, nx = some u ∧ ∃ o tok, Value.option o tok u.str ∈ O1 ∧
      (o.otype = OptionTypeStandaloneArgumentRequired ∨
        o.otype = OptionTypeGroupableArgumentRequired)) := by
  obtain ⟨h1, h2, h3, h4, h5, h6, h7, h8, h9, h10⟩ := hinv
  simp only [doParseStep] at hstep
  rw [if_neg (by decide : ¬ (false = true))] at hstep
  by_cases hsa : OptionType.isStandalone
      ((mapLookup cfg.pfxMap cur.pfx).getD 0) = true
  · rw [if_pos hsa] at hstep
    cases hrun : doParseStandaloneOption cfg cur nx with
    | error e => simp [hrun] at hstep
    | ok r =>
      obtain ⟨c1, v⟩ := r
      simp only [hrun, Except.ok.injEq, Prod.mk.injEq] at hstep
      obtain ⟨hc1, hop1, hO1, hP1⟩ := hstep
      subst hc1
      subst hop1
      subst hO1
      subst hP1
      obtain ⟨o, w, hv, hlk, hcases⟩ := doParseStandaloneOption_ok hname hrun
      subst hv
      have hvi : (Value.option o (.option cur) w).index = i := by
        simp [Value.index, Value.token, Token.index, hidx]
      have hcore : optValueCore cfg o w := by
        refine ⟨hlk, ?_⟩
        rcases hcases with ⟨ht, hw, -⟩ | ⟨ht, hw, -⟩ | ⟨ht, -⟩
        · exact Or.inl ⟨ht, hw⟩
        · exact Or.inr (Or.inl ⟨ht, hw⟩)
        · exact Or.inr (Or.inr (Or.inl ht))
      refine ⟨rfl, rfl, ⟨h1, h2, h3, ?_,
        fun u hu => lt_of_lt_of_le (h5 u hu) (by omega), ?_, h7, ?_, h9, ?_⟩, ?_⟩
      · intro u hu
        rcases List.mem_append.mp hu with hm | hm
        · exact lt_of_lt_of_le (h4 u hm) (by omega)
        · have he : u = Value.option o (.option cur) w := by simpa using hm
          rw [he, hvi]
          omega
      · rw [List.pairwise_append]
        refine ⟨h6, by simp, ?_⟩
        intro a ha b hb
        have hb2 : b = Value.option o (.option cur) w := by simpa using hb
        rw [hb2, hvi]
        exact le_of_lt (h4 a ha)
      · intro u hu
        rcases List.mem_append.mp hu with hm | hm
        · exact h8 u hm
        · have he : u = Value.option o (.option cur) w := by simpa using hm
          exact ⟨o, .option cur, w, he, hcore⟩
      · intro hdp
        obtain ⟨hPe, hcross⟩ := h10 hdp
        have hP0 : P = [] := by
          rcases hPe with he | he
          · exact he
          · exact absurd he (by simp)
        subst hP0
        exact ⟨Or.inl rfl, by simp⟩
      · intro hc
        rcases hcases with ⟨-, -, hcf⟩ | ⟨-, -, hcf⟩ | ⟨ht, hor⟩
        · rw [hcf] at hc; exact absurd hc (by decide)
        · rw [hcf] at hc; exact absurd hc (by decide)
        · rcases hor with hcf | ⟨-, u, hu, hw⟩
          · rw [hcf] at hc; exact absurd hc (by decide)
          · refine ⟨u, hu, o, .option cur, ?_, Or.inl ht⟩
            rw [← hw]
            exact List.mem_append_right _ (by simp)
  · rw [if_neg hsa] at hstep
    by_cases hg : OptionType.isGroupable
        ((mapLookup cfg.pfxMap cur.pfx).getD 0) = true
    · rw [if_pos hg] at hstep
      cases hrun : doParseGroupableOption cfg cur nx with
      | error e => simp [hrun] at hstep
      | ok r =>
        obtain ⟨c1, vs⟩ := r
        simp only [hrun, Except.ok.injEq, Prod.mk.injEq] at hstep
        obtain ⟨hc1, hop1, hO1, hP1⟩ := hstep
        subst hc1
        subst hop1
        subst hO1
        subst hP1
        have hrun2 : groupWalk cfg cur cur.name nx [] = .ok (c1, vs) := hrun
        obtain ⟨d, hd, hvals, hcons⟩ := groupWalk_ok hname cur.name nx [] c1 vs hrun2
        have hdvs : vs = d := by simpa using hd
        subst hdvs
        have hidxd : ∀ u ∈ vs, Value.index u = i := by
          intro u hu
          obtain ⟨o, w, he, -, -⟩ := hvals u hu
          rw [he]
          simp [Value.index, Value.token, Token.index, hidx]
        refine ⟨rfl, rfl, ⟨h1, h2, h3, ?_,
          fun u hu => lt_of_lt_of_le (h5 u hu) (by omega), ?_, h7, ?_, h9, ?_⟩, ?_⟩
        · intro u hu
          rcases List.mem_append.mp hu with hm | hm
          · exact lt_of_lt_of_le (h4 u hm) (by omega)
          · rw [hidxd u hm]
            omega
        · rw [List.pairwise_append]
          refine ⟨h6, ?_, ?_⟩
          · apply List.pairwise_iff_forall_sublist.mpr
            intro a b hsub
            have ha : a ∈ vs := hsub.subset (by simp)
            have hb : b ∈ vs := hsub.subset (by simp)
            rw [hidxd a ha, hidxd b hb]
          · intro a ha b hb
            rw [hidxd b hb]
            exact le_of_lt (h4 a ha)
        · intro u hu
          rcases List.mem_append.mp hu with hm | hm
          · exact h8 u hm
          · obtain ⟨o, w, he, hlk2, hk⟩ := hvals u hm
            refine ⟨o, .option cur, w, he, hlk2, ?_⟩
            rcases hk with ⟨ht, hw⟩ | ht
            · exact Or.inr (Or.inr (Or.inr (Or.inl ⟨ht, hw⟩)))
            · exact Or.inr (Or.inr (Or.inr (Or.inr ht)))
        · intro hdp
          obtain ⟨hPe, hcross⟩ := h10 hdp
          have hP0 : P = [] := by
            rcases hPe with he | he
            · exact he
            · exact absurd he (by simp)
          subst hP0
          exact ⟨Or.inl rfl, by simp⟩
        · intro hc
          obtain ⟨u, hu, o, hmem, ht⟩ := hcons hc
          exact ⟨u, hu, o, .option cur, List.mem_append_right _ hmem, Or.inr ht⟩
    · rw [if_neg hg] at hstep
      exact absurd hstep (by simp)


/-- appending one fine non-option value to the positionals buffer pushes
the forward invariant across the corresponding machine step. -/
theorem fwdInv_push {cfg : Config} {keys : List GoStr} {sep : GoStr}
    {i : Nat} {st : Bool × Bool} {op : Bool} {O P : List Value}
    (hinv : fwdInv cfg keys sep i st op O P) (v : Value)
    (hvi : v.index = i)
    (hnotopt : isOptionValue v = false)
    (hfine : valueFineAt cfg keys sep st v)
    {op2 : Bool}
    (hop2 : op2 = ((posStep st v).1 || ((posStep st v).2 && cfg.disablePermute)))
    (hople : op = true → op2 = true) :
    fwdInv cfg keys sep (i + 1) (posStep st v) op2 O (P ++ [v]) := by
  obtain ⟨h1, h2, h3, h4, h5, h6, h7, h8, h9, h10⟩ := hinv
  have hsnd : (posStep st v).2 = true := by
    cases v with
    | option o tok w => simp [isOptionValue] at hnotopt
    | positionalArgument tok w => rfl
    | optionsArgumentsSeparator tok s2 => rfl
  refine ⟨hop2, ?_, ?_, fun u hu => lt_of_lt_of_le (h4 u hu) (by omega),
    ?_, h6, ?_, h8, ?_, ?_⟩
  · rw [stateAfter_append, ← h2]
  · apply seqFine_append h3
    rw [← h2]
    exact hfine
  · intro u hu
    rcases List.mem_append.mp hu with hm | hm
    · exact lt_of_lt_of_le (h5 u hm) (by omega)
    · rw [List.mem_singleton.mp hm, hvi]
      omega
  · rw [List.pairwise_append]
    refine ⟨h7, by simp, ?_⟩
    intro a ha b hb
    rw [List.mem_singleton.mp hb, hvi]
    exact le_of_lt (h5 a ha)
  · intro u hu
    rcases List.mem_append.mp hu with hm | hm
    · exact h9 u hm
    · rw [List.mem_singleton.mp hm]
      exact hnotopt
  · intro hdp
    obtain ⟨hPe, hcross⟩ := h10 hdp
    have hop2t : op2 = true := by
      rcases hPe with hP0 | hopt
      · rw [hop2, hsnd, hdp]
        simp
      · exact hople hopt
    refine ⟨Or.inr hop2t, ?_⟩
    intro vO hO vP hP
    rcases List.mem_append.mp hP with hm | hm
    · exact hcross vO hO vP hm
    · rw [List.mem_singleton.mp hm, hvi]
      exact le_of_lt (h4 vO hO)

/-- the forward soundness of the state machine: on a tokenizer-shaped
stream either some required option captured the separator token, or the
final buffers satisfy the forward guarantees. -/
theorem doParse_forward {cfg : Config} {keys : List GoStr} {sep : GoStr}
    (hname : ∀ n o, mapLookup cfg.options n = some o → o.name = n) :
    ∀ (n : Nat) (toks : List Token), toks.length ≤ n →
    ∀ (i : Nat) (st : Bool × Bool) (op : Bool) (O P O2 P2 : List Value),
      toks.map Token.index = List.range' i toks.length →
      ((st.1 = false ∧ scanShape keys sep toks) ∨
        (op = true ∧ st.1 = true ∧ allPositional toks)) →
      fwdInv cfg keys sep i st op O P →
      doParse cfg toks op O P = .ok (O2, P2) →
      badReqSep sep O2 ∨ fwdOut cfg keys sep O2 P2 := by
  intro n
  induction n with
  | zero =>
    intro toks hlen i st op O P O2 P2 hmap hshape hinv h
    have htoks : toks = [] := List.length_eq_zero.mp (by omega)
    subst htoks
    rw [doParse_nil] at h
    simp only [Except.ok.injEq, Prod.mk.injEq] at h
    obtain ⟨hO, hP⟩ := h
    subst hO
    subst hP
    exact Or.inr (fwdInv_out hinv)
  | succ n ih =>
    intro toks hlen i st op O P O2 P2 hmap hshape hinv h
    obtain ⟨s1, s2⟩ := st
    cases toks with
    | nil =>
      rw [doParse_nil] at h
      simp only [Except.ok.injEq, Prod.mk.injEq] at h
      obtain ⟨hO, hP⟩ := h
      subst hO
      subst hP
      exact Or.inr (fwdInv_out hinv)
    | cons t rest =>
      simp only [List.map_cons, List.length_cons, List.range'_succ,
        List.cons.injEq] at hmap
      obtain ⟨hti, hmap2⟩ := hmap
      have hlen2 : rest.length ≤ n := by simp at hlen; omega
      cases t with
      | positional cur =>
        have hcuri : cur.idx = i := hti
        have hstep : ∀ nx, doParseStep cfg (.positional cur) nx op O P =
            .ok (false, op || cfg.parser.disablePermute, O,
              P ++ [.positionalArgument (.positional cur) cur.value]) :=
          fun nx => rfl
        rw [doParse_step_nonconsume hstep rest] at h
        have hop2eq : (op || cfg.parser.disablePermute) =
            ((posStep (s1, s2)
                (.positionalArgument (.positional cur) cur.value)).1 ||
              ((posStep (s1, s2)
                (.positionalArgument (.positional cur) cur.value)).2 &&
                cfg.disablePermute)) := by
          have h1 := hinv.1
          show (op || cfg.parser.disablePermute) =
            (s1 || (true && cfg.disablePermute))
          simp only [Config.disablePermute] at h1 ⊢
          rw [h1]
          show ((s1 || (s2 && cfg.parser.disablePermute)) ||
            cfg.parser.disablePermute) =
            (s1 || (true && cfg.parser.disablePermute))
          generalize cfg.parser.disablePermute = dp
          cases s1 <;> cases s2 <;> cases dp <;> rfl
        have hople : op = true → (op || cfg.parser.disablePermute) = true := by
          intro ho
          rw [ho]
          rfl
        rcases hshape with ⟨hst1, hnol, hnsep, hssrest⟩ | ⟨hop, hst1, hall⟩
        · have hfine : valueFineAt cfg keys sep (s1, s2)
              (.positionalArgument (.positional cur) cur.value) :=
            ⟨fun hs => Or.inr (hnsep hs), fun hol => absurd hol hnol⟩
          exact ih rest hlen2 (i + 1) (s1, true) (op || cfg.parser.disablePermute)
            O _ O2 P2 hmap2 (Or.inl ⟨hst1, hssrest⟩)
            (fwdInv_push hinv
              (.positionalArgument (.positional cur) cur.value)
              hcuri rfl hfine hop2eq hople) h
        · have hfine : valueFineAt cfg keys sep (s1, s2)
              (.positionalArgument (.positional cur) cur.value) :=
            ⟨fun _ => Or.inl hst1, fun _ => Or.inl hst1⟩
          exact ih rest hlen2 (i + 1) (s1, true) (op || cfg.parser.disablePermute)
            O _ O2 P2 hmap2 (Or.inr ⟨by rw [hop]; rfl, hst1, hall⟩)
            (fwdInv_push hinv
              (.positionalArgument (.positional cur) cur.value)
              hcuri rfl hfine hop2eq hople) h
      | separator cur =>
        have hcuri : cur.idx = i := hti
        rcases hshape with ⟨hst1, hss⟩ | ⟨hop, hst1, hall⟩
        · obtain ⟨hsepeq, hsepne, hall⟩ := hss
          have hstep : ∀ nx, doParseStep cfg (.separator cur) nx op O P =
              .ok (false, true, O,
                P ++ [.optionsArgumentsSeparator (.separator cur) cur.sep]) :=
            fun nx => rfl
          rw [doParse_step_nonconsume hstep rest] at h
          have hfine : valueFineAt cfg keys sep (s1, s2)
              (.optionsArgumentsSeparator (.separator cur) cur.sep) :=
            ⟨hsepeq, hsepne, hst1⟩
          exact ih rest hlen2 (i + 1) (true, true) true O _ O2 P2 hmap2
            (Or.inr ⟨rfl, rfl, hall⟩)
            (fwdInv_push hinv
              (.optionsArgumentsSeparator (.separator cur) cur.sep)
              hcuri rfl hfine rfl (fun _ => rfl)) h
        · exact hall.elim
      | option cur =>
        have hcuri : cur.idx = i := hti
        rcases hshape with ⟨hst1, hss⟩ | ⟨hop, hst1, hall⟩
        swap
        · exact hall.elim
        obtain ⟨hfragsep, hssrest⟩ := hss
        cases op with
        | true =>
          have hs1 : s1 = false := hst1
          have hdp2 : s2 && cfg.disablePermute = true := by
            have h1 := hinv.1
            rw [hs1] at h1
            simpa using h1.symm
          obtain ⟨hs2, hdp⟩ : s2 = true ∧ cfg.disablePermute = true := by
            simpa using hdp2
          have hstep : ∀ nx, doParseStep cfg (.option cur) nx true O P =
              .ok (false, true, O,
                P ++ [.positionalArgument (.option cur)
                  (Token.str (.option cur))]) :=
            fun nx => rfl
          rw [doParse_step_nonconsume hstep rest] at h
          have hfine : valueFineAt cfg keys sep (s1, s2)
              (.positionalArgument (.option cur) (Token.str (.option cur))) :=
            ⟨fun hs => Or.inr (hfragsep hs), fun _ => Or.inr hs2⟩
          have hop2eq : true = ((posStep (s1, s2)
              (.positionalArgument (.option cur) (Token.str (.option cur)))).1 ||
              ((posStep (s1, s2)
                (.positionalArgument (.option cur) (Token.str (.option cur)))).2 &&
                cfg.disablePermute)) := by
            show true = (s1 || (true && cfg.disablePermute))
            rw [hs1, hdp]
            rfl
          exact ih rest hlen2 (i + 1) (s1, true) true O _ O2 P2 hmap2
            (Or.inl ⟨hst1, hssrest⟩)
            (fwdInv_push hinv
              (.positionalArgument (.option cur) (Token.str (.option cur)))
              hcuri rfl hfine hop2eq (fun _ => rfl)) h
        | false =>
          cases rest with
          | nil =>
            rw [doParse_single] at h
            cases hstep : doParseStep cfg (.option cur) none false O P with
            | error e => simp [hstep] at h
            | ok r =>
              obtain ⟨c, op1, O1, P1⟩ := r
              simp only [hstep, Except.ok.injEq, Prod.mk.injEq] at h
              obtain ⟨hO2, hP2⟩ := h
              subst hO2
              subst hP2
              obtain ⟨-, -, hinv3, -⟩ :=
                doParseStep_option_forward hname hcuri hinv hstep
              exact Or.inr (fwdInv_out hinv3)
          | cons u T =>
            rw [doParse_cons₂] at h
            cases hstep : doParseStep cfg (.option cur) (some u) false O P with
            | error e => simp [hstep] at h
            | ok r =>
              obtain ⟨c, op1, O1, P1⟩ := r
              simp only [hstep] at h
              obtain ⟨hop1, hP1, hinv3, hcons⟩ :=
                doParseStep_option_forward hname hcuri hinv hstep
              subst hop1
              cases c with
              | false =>
                rw [if_neg (by decide : ¬ (false = true))] at h
                exact ih (u :: T) (by simp at hlen ⊢; omega) (i + 1) (s1, s2)
                  false O1 P1 O2 P2 hmap2 (Or.inl ⟨hst1, hssrest⟩) hinv3 h
              | true =>
                rw [if_pos rfl] at h
                obtain ⟨u2, hu2, o, tok, hmem, hreq⟩ := hcons rfl
                have huu : u = u2 := by simpa using hu2
                subst huu
                simp only [List.map_cons, List.length_cons, List.range'_succ,
                  List.cons.injEq] at hmap2
                obtain ⟨hui, hmapT⟩ := hmap2
                cases u with
                | separator us =>
                  obtain ⟨hsepeq, hsepne, hallT⟩ := hssrest
                  obtain ⟨⟨dO, hdO⟩, -⟩ :=
                    doParse_frame cfg T.length T le_rfl false O1 P1 O2 P2 h
                  left
                  refine ⟨Value.option o tok ((Token.separator us).str), ?_,
                    o, tok, (Token.separator us).str, rfl, hsepne, hsepeq, hreq⟩
                  rw [hdO]
                  exact List.mem_append_left _ hmem
                | positional up =>
                  obtain ⟨-, -, hssT⟩ := hssrest
                  exact ih T (by simp at hlen ⊢; omega) (i + 2) (s1, s2) false
                    O1 P1 O2 P2 (by simpa using hmapT)
                    (Or.inl ⟨hst1, hssT⟩)
                    (fwdInv_mono (by omega) hinv3) h
                | option uo =>
                  obtain ⟨-, hssT⟩ := hssrest
                  exact ih T (by simp at hlen ⊢; omega) (i + 2) (s1, s2) false
                    O1 P1 O2 P2 (by simpa using hmapT)
                    (Or.inl ⟨hst1, hssT⟩)
                    (fwdInv_mono (by omega) hinv3) h


/-- replaying a serialized no-argument standalone option consumes its one
token and reproduces its value. -/
theorem replayStep_SN {cfg2 : Config} {o : FlagOption} (idx : Nat)
    (hlk : mapLookup cfg2.options o.name = some o)
    (hnoeq : '=' ∉ o.name)
    (hsa : OptionType.isStandalone ((mapLookup cfg2.pfxMap o.pfx).getD 0) = true)
    (ht : o.otype = OptionTypeStandaloneArgumentNone) (TS : List Token)
    (O P : List Value) :
    doParse cfg2 (.option ⟨idx, o.pfx, o.name⟩ :: TS) false O P =
      doParse cfg2 TS false
        (O ++ [.option o (.option ⟨idx, o.pfx, o.name⟩) []]) P := by
  apply doParse_step_nonconsume
  intro nx
  have hbit : o.otype &&& optionKindStandalone ≠ 0 := by rw [ht]; decide
  have hsplit : splitOptName (OptionToken.mk idx o.pfx o.name).name =
      (o.name, []) := splitOptName_no_eq hnoeq
  have hfo : cfg2.findOption ⟨idx, o.pfx, o.name⟩ o.name
      optionKindStandalone = .ok o := findOption_ok_intro hlk rfl hbit
  have hrun : doParseStandaloneOption cfg2 ⟨idx, o.pfx, o.name⟩ nx =
      .ok (false, .option o (.option ⟨idx, o.pfx, o.name⟩) []) := by
    simp only [doParseStandaloneOption, hsplit, hfo]
    rw [if_pos ht, if_neg (by simp)]
  simp only [doParseStep]
  rw [if_neg (by decide : ¬ (false = true)), if_pos hsa, hrun]

/-- replaying a serialized optional-argument standalone option consumes
its one name-equals-value token and reproduces its resolved value. -/
theorem replayStep_SO {cfg2 : Config} {o : FlagOption} {w : GoStr} (idx : Nat)
    (hlk : mapLookup cfg2.options o.name = some o)
    (hnoeq : '=' ∉ o.name) (hnne : o.name ≠ [])
    (hsa : OptionType.isStandalone ((mapLookup cfg2.pfxMap o.pfx).getD 0) = true)
    (ht : o.otype = OptionTypeStandaloneArgumentOptional)
    (hdef : w = [] → o.defaultValue = []) (TS : List Token)
    (O P : List Value) :
    doParse cfg2 (.option ⟨idx, o.pfx, o.name ++ '=' :: w⟩ :: TS) false O P =
      doParse cfg2 TS false
        (O ++ [.option o (.option ⟨idx, o.pfx, o.name ++ '=' :: w⟩) w]) P := by
  apply doParse_step_nonconsume
  intro nx
  have hbit : o.otype &&& optionKindStandalone ≠ 0 := by rw [ht]; decide
  have hsplit : splitOptName
      (OptionToken.mk idx o.pfx (o.name ++ '=' :: w)).name =
      (o.name, w) := splitOptName_append w hnne hnoeq
  have hfo : cfg2.findOption ⟨idx, o.pfx, o.name ++ '=' :: w⟩ o.name
      optionKindStandalone = .ok o := findOption_ok_intro hlk rfl hbit
  have hval : (if w = [] then o.defaultValue else w) = w := by
    by_cases hw : w = []
    · rw [if_pos hw, hdef hw, hw]
    · rw [if_neg hw]
  have hrun : doParseStandaloneOption cfg2 ⟨idx, o.pfx, o.name ++ '=' :: w⟩ nx =
      .ok (false, .option o (.option ⟨idx, o.pfx, o.name ++ '=' :: w⟩) w) := by
    simp only [doParseStandaloneOption, hsplit, hfo]
    rw [if_neg (by rw [ht]; decide), if_pos ht, hval]
  simp only [doParseStep]
  rw [if_neg (by decide : ¬ (false = true)), if_pos hsa, hrun]

/-- replaying a serialized required-argument standalone option consumes
its name token and the following token whole, reproducing its value. -/
theorem replayStep_SR {cfg2 : Config} {o : FlagOption} {w : GoStr} (idx : Nat)
    (hlk : mapLookup cfg2.options o.name = some o)
    (hnoeq : '=' ∉ o.name)
    (hsa : OptionType.isStandalone ((mapLookup cfg2.pfxMap o.pfx).getD 0) = true)
    (ht : o.otype = OptionTypeStandaloneArgumentRequired)
    {u : Token} (hu : u.str = w) (TS : List Token) (O P : List Value) :
    doParse cfg2 (.option ⟨idx, o.pfx, o.name⟩ :: u :: TS) false O P =
      doParse cfg2 TS false
        (O ++ [.option o (.option ⟨idx, o.pfx, o.name⟩) w]) P := by
  apply doParse_step_consume
  have hbit : o.otype &&& optionKindStandalone ≠ 0 := by rw [ht]; decide
  have hsplit : splitOptName (OptionToken.mk idx o.pfx o.name).name =
      (o.name, []) := splitOptName_no_eq hnoeq
  have hfo : cfg2.findOption ⟨idx, o.pfx, o.name⟩ o.name
      optionKindStandalone = .ok o := findOption_ok_intro hlk rfl hbit
  have hrun : doParseStandaloneOption cfg2 ⟨idx, o.pfx, o.name⟩ (some u) =
      .ok (true, .option o (.option ⟨idx, o.pfx, o.name⟩) w) := by
    simp only [doParseStandaloneOption, hsplit, hfo]
    rw [if_neg (by rw [ht]; decide), if_neg (by rw [ht]; decide), if_pos ht,
      if_pos trivial, hu]
  simp only [doParseStep]
  rw [if_neg (by decide : ¬ (false = true)), if_pos hsa, hrun]

/-- replaying a serialized no-argument groupable option consumes its one
token and reproduces its value. -/
theorem replayStep_GN {cfg2 : Config} {o : FlagOption} {c : Char} (idx : Nat)
    (hlk : mapLookup cfg2.options o.name = some o)
    (hc : o.name = [c])
    (hsa : OptionType.isStandalone ((mapLookup cfg2.pfxMap o.pfx).getD 0) = false)
    (hg : OptionType.isGroupable ((mapLookup cfg2.pfxMap o.pfx).getD 0) = true)
    (ht : o.otype = OptionTypeGroupableArgumentNone) (TS : List Token)
    (O P : List Value) :
    doParse cfg2 (.option ⟨idx, o.pfx, o.name⟩ :: TS) false O P =
      doParse cfg2 TS false
        (O ++ [.option o (.option ⟨idx, o.pfx, o.name⟩) []]) P := by
  apply doParse_step_nonconsume
  intro nx
  have hbit : o.otype &&& optionKindGroupable ≠ 0 := by rw [ht]; decide
  have hlkc : mapLookup cfg2.options [c] = some o := by rw [← hc]; exact hlk
  have hfo : cfg2.findOption ⟨idx, o.pfx, o.name⟩ [c]
      optionKindGroupable = .ok o := findOption_ok_intro hlkc rfl hbit
  have hrun : doParseGroupableOption cfg2 ⟨idx, o.pfx, o.name⟩ nx =
      .ok (false, [.option o (.option ⟨idx, o.pfx, o.name⟩) []]) := by
    show groupWalk cfg2 ⟨idx, o.pfx, o.name⟩
      (OptionToken.mk idx o.pfx o.name).name nx [] = _
    have hname2 : (OptionToken.mk idx o.pfx o.name).name = [c] := hc
    rw [hname2, groupWalk_cons_eq, hfo]
    simp only []
    rw [if_pos ht]
    rfl
  simp only [doParseStep]
  rw [if_neg (by decide : ¬ (false = true)), if_neg (by rw [hsa]; decide),
    if_pos hg, hrun]

/-- replaying a serialized required-argument groupable option consumes its
name token and the following token whole, reproducing its value. -/
theorem replayStep_GR {cfg2 : Config} {o : FlagOption} {c : Char} {w : GoStr}
    (idx : Nat)
    (hlk : mapLookup cfg2.options o.name = some o)
    (hc : o.name = [c])
    (hsa : OptionType.isStandalone ((mapLookup cfg2.pfxMap o.pfx).getD 0) = false)
    (hg : OptionType.isGroupable ((mapLookup cfg2.pfxMap o.pfx).getD 0) = true)
    (ht : o.otype = OptionTypeGroupableArgumentRequired)
    {u : Token} (hu : u.str = w) (TS : List Token) (O P : List Value) :
    doParse cfg2 (.option ⟨idx, o.pfx, o.name⟩ :: u :: TS) false O P =
      doParse cfg2 TS false
        (O ++ [.option o (.option ⟨idx, o.pfx, o.name⟩) w]) P := by
  apply doParse_step_consume
  have hbit : o.otype &&& optionKindGroupable ≠ 0 := by rw [ht]; decide
  have hlkc : mapLookup cfg2.options [c] = some o := by rw [← hc]; exact hlk
  have hfo : cfg2.findOption ⟨idx, o.pfx, o.name⟩ [c]
      optionKindGroupable = .ok o := findOption_ok_intro hlkc rfl hbit
  have hrun : doParseGroupableOption cfg2 ⟨idx, o.pfx, o.name⟩ (some u) =
      .ok (true, [.option o (.option ⟨idx, o.pfx, o.name⟩) w]) := by
    show groupWalk cfg2 ⟨idx, o.pfx, o.name⟩
      (OptionToken.mk idx o.pfx o.name).name (some u) [] = _
    have hname2 : (OptionToken.mk idx o.pfx o.name).name = [c] := hc
    rw [hname2, groupWalk_cons_eq, hfo]
    simp only []
    rw [if_neg (by rw [ht]; decide), if_pos ht, if_neg (by simp), hu]
    rfl
  simp only [doParseStep]
  rw [if_neg (by decide : ¬ (false = true)), if_neg (by rw [hsa]; decide),
    if_pos hg, hrun]


/-- the serialization of a no-argument option value is its bare fragment. -/
theorem strings_nameOnly (o : FlagOption) (tok : Token) (w : GoStr)
    (ht : o.otype = OptionTypeEarlyArgumentNone ∨
      o.otype = OptionTypeGroupableArgumentNone ∨
      o.otype = OptionTypeStandaloneArgumentNone) :
    Value.strings (.option o tok w) = [o.pfx ++ o.name] := by
  simp only [Value.strings]
  rw [if_pos ht]

/-- the serialization of an optional-argument value glues the value. -/
theorem strings_SO (o : FlagOption) (tok : Token) (w : GoStr)
    (ht : o.otype = OptionTypeStandaloneArgumentOptional) :
    Value.strings (.option o tok w) = [o.pfx ++ o.name ++ '=' :: w] := by
  simp only [Value.strings]
  rw [if_neg (by rw [ht]; decide), if_pos ht]

/-- the serialization of a required-argument value is two fragments. -/
theorem strings_required (o : FlagOption) (tok : Token) (w : GoStr)
    (ht : o.otype = OptionTypeStandaloneArgumentRequired ∨
      o.otype = OptionTypeGroupableArgumentRequired) :
    Value.strings (.option o tok w) = [o.pfx ++ o.name, w] := by
  simp only [Value.strings]
  rw [if_neg (by rcases ht with h | h <;> rw [h] <;> decide),
    if_neg (by rcases ht with h | h <;> rw [h] <;> decide), if_pos ht]

/-- serialization distributes over a front value. -/
theorem serializeValues_cons (v : Value) (l : List Value) :
    serializeValues (v :: l) = Value.strings v ++ serializeValues l := by
  simp [serializeValues]

/-- serialization distributes over concatenation. -/
theorem serializeValues_append (l1 l2 : List Value) :
    serializeValues (l1 ++ l2) = serializeValues l1 ++ serializeValues l2 := by
  simp [serializeValues]

/-- replaying the serialized options segment: the scan re-tokenizes each
fragment group and the machine reproduces each option value in order at
consecutive positions, leaving the rest of the command line for later. -/
theorem replayOpts {cfg2 : Config} {keys : List GoStr} {sep : GoStr} :
    ∀ (vs : List Value),
      (∀ v ∈ vs, ∃ o tok w, v = Value.option o tok w ∧
        replayOptOk cfg2 keys sep o w) →
      ∀ (idx : Nat) (frest : List GoStr) (O P : List Value),
      ∃ dO,
        dO.map Value.content = vs.map Value.content ∧
        dO.Pairwise (fun a b => a.index ≤ b.index) ∧
        (∀ v ∈ dO, idx ≤ v.index ∧
          v.index < idx + (serializeValues vs).length) ∧
        doParse cfg2
            (scanFrom keys sep idx false (serializeValues vs ++ frest))
            false O P =
          doParse cfg2
            (scanFrom keys sep (idx + (serializeValues vs).length) false frest)
            false (O ++ dO) P := by
  intro vs
  induction vs with
  | nil =>
    intro _ idx frest O P
    exact ⟨[], rfl, List.Pairwise.nil, by simp, by simp [serializeValues]⟩
  | cons v rest ih =>
    intro hok idx frest O P
    obtain ⟨o, tok, w, hv, hOk⟩ := hok v (List.mem_cons_self v rest)
    subst hv
    obtain ⟨hlk, hnne, hnoeq, hfragsep, hbest, hclass⟩ := hOk
    have hrest : ∀ v2 ∈ rest, ∃ o2 tok2 w2, v2 = Value.option o2 tok2 w2 ∧
        replayOptOk cfg2 keys sep o2 w2 :=
      fun v2 h2 => hok v2 (List.mem_cons_of_mem _ h2)
    rcases hclass with ⟨ht, hw, hsa⟩ | ⟨ht, hdef, hsa, hbest2, hsep2⟩ |
      ⟨ht, hwsep, hsa⟩ | ⟨ht, hw, ⟨c, hc⟩, hsa, hg⟩ |
      ⟨ht, hwsep, ⟨c, hc⟩, hsa, hg⟩
    · -- standalone, no argument
      subst hw
      have hstr : Value.strings (Value.option o tok []) = [o.pfx ++ o.name] :=
        strings_nameOnly o tok [] (Or.inr (Or.inr ht))
      have hlen : (serializeValues (Value.option o tok [] :: rest)).length =
          1 + (serializeValues rest).length := by
        rw [serializeValues_cons, hstr]
        simp only [List.length_append, List.length_cons, List.length_nil]
      obtain ⟨dO2, hcont, hsort, hbounds, heq⟩ :=
        ih hrest (idx + 1) frest
          (O ++ [Value.option o (.option ⟨idx, o.pfx, o.name⟩) []]) P
      refine ⟨Value.option o (.option ⟨idx, o.pfx, o.name⟩) [] :: dO2,
        ?_, ?_, ?_, ?_⟩
      · simp only [List.map_cons, hcont]
        rfl
      · rw [List.pairwise_cons]
        refine ⟨?_, hsort⟩
        intro b hb
        have hbi := (hbounds b hb).1
        have hni : (Value.option o (.option ⟨idx, o.pfx, o.name⟩) []).index =
          idx := rfl
        omega
      · intro b hb
        rw [hlen]
        rcases List.mem_cons.mp hb with he | hm
        · rw [he]
          have hni : (Value.option o (.option ⟨idx, o.pfx, o.name⟩) []).index =
            idx := rfl
          omega
        · obtain ⟨hb1, hb2⟩ := hbounds b hm
          omega
      · rw [hlen, serializeValues_cons, hstr, List.append_assoc,
          List.singleton_append,
          scanFrom_cons_opt keys sep idx (o.pfx ++ o.name) _ o.pfx
            hfragsep hbest,
          show (o.pfx ++ o.name).drop o.pfx.length = o.name from
            List.drop_left _ _,
          replayStep_SN idx hlk hnoeq hsa ht, heq, List.append_assoc,
          List.singleton_append,
          show idx + (1 + (serializeValues rest).length) =
            idx + 1 + (serializeValues rest).length from by omega]
    · -- standalone, optional argument
      have hstr : Value.strings (Value.option o tok w) =
          [o.pfx ++ o.name ++ '=' :: w] := strings_SO o tok w ht
      have hlen : (serializeValues (Value.option o tok w :: rest)).length =
          1 + (serializeValues rest).length := by
        rw [serializeValues_cons, hstr]
        simp only [List.length_append, List.length_cons, List.length_nil]
      obtain ⟨dO2, hcont, hsort, hbounds, heq⟩ :=
        ih hrest (idx + 1) frest
          (O ++ [Value.option o (.option ⟨idx, o.pfx, o.name ++ '=' :: w⟩) w]) P
      refine ⟨Value.option o (.option ⟨idx, o.pfx, o.name ++ '=' :: w⟩) w :: dO2,
        ?_, ?_, ?_, ?_⟩
      · simp only [List.map_cons, hcont]
        rfl
      · rw [List.pairwise_cons]
        refine ⟨?_, hsort⟩
        intro b hb
        have hbi := (hbounds b hb).1
        have hni : (Value.option o
          (.option ⟨idx, o.pfx, o.name ++ '=' :: w⟩) w).index = idx := rfl
        omega
      · intro b hb
        rw [hlen]
        rcases List.mem_cons.mp hb with he | hm
        · rw [he]
          have hni : (Value.option o
            (.option ⟨idx, o.pfx, o.name ++ '=' :: w⟩) w).index = idx := rfl
          omega
        · obtain ⟨hb1, hb2⟩ := hbounds b hm
          omega
      · rw [hlen, serializeValues_cons, hstr, List.append_assoc,
          List.singleton_append,
          scanFrom_cons_opt keys sep idx (o.pfx ++ o.name ++ '=' :: w) _ o.pfx
            hsep2 hbest2,
          show (o.pfx ++ o.name ++ '=' :: w).drop o.pfx.length =
            o.name ++ '=' :: w from by
              rw [List.append_assoc]
              exact List.drop_left o.pfx (o.name ++ '=' :: w),
          replayStep_SO idx hlk hnoeq hnne hsa ht hdef, heq, List.append_assoc,
          List.singleton_append,
          show idx + (1 + (serializeValues rest).length) =
            idx + 1 + (serializeValues rest).length from by omega]
    · -- standalone, required argument
      have hstr : Value.strings (Value.option o tok w) = [o.pfx ++ o.name, w] :=
        strings_required o tok w (Or.inl ht)
      have hlen : (serializeValues (Value.option o tok w :: rest)).length =
          2 + (serializeValues rest).length := by
        rw [serializeValues_cons, hstr]
        simp only [List.length_append, List.length_cons, List.length_nil]
      obtain ⟨dO2, hcont, hsort, hbounds, heq⟩ :=
        ih hrest (idx + 1 + 1) frest
          (O ++ [Value.option o (.option ⟨idx, o.pfx, o.name⟩) w]) P
      obtain ⟨u, hscan2, hustr, huidx⟩ := scanFrom_head_str keys sep (idx + 1) w
        (serializeValues rest ++ frest)
        (by rintro ⟨hs, he⟩; exact hwsep hs he)
      refine ⟨Value.option o (.option ⟨idx, o.pfx, o.name⟩) w :: dO2,
        ?_, ?_, ?_, ?_⟩
      · simp only [List.map_cons, hcont]
        rfl
      · rw [List.pairwise_cons]
        refine ⟨?_, hsort⟩
        intro b hb
        have hbi := (hbounds b hb).1
        have hni : (Value.option o (.option ⟨idx, o.pfx, o.name⟩) w).index =
          idx := rfl
        omega
      · intro b hb
        rw [hlen]
        rcases List.mem_cons.mp hb with he | hm
        · rw [he]
          have hni : (Value.option o (.option ⟨idx, o.pfx, o.name⟩) w).index =
            idx := rfl
          omega
        · obtain ⟨hb1, hb2⟩ := hbounds b hm
          omega
      · rw [hlen, serializeValues_cons, hstr,
          show ([o.pfx ++ o.name, w] ++ serializeValues rest) ++ frest =
            (o.pfx ++ o.name) :: w :: (serializeValues rest ++ frest) from by
              simp,
          scanFrom_cons_opt keys sep idx (o.pfx ++ o.name) _ o.pfx
            hfragsep hbest,
          show (o.pfx ++ o.name).drop o.pfx.length = o.name from
            List.drop_left _ _,
          hscan2, replayStep_SR idx hlk hnoeq hsa ht hustr, heq,
          List.append_assoc, List.singleton_append,
          show idx + (2 + (serializeValues rest).length) =
            idx + 1 + 1 + (serializeValues rest).length from by omega]
    · -- groupable, no argument
      subst hw
      have hstr : Value.strings (Value.option o tok []) = [o.pfx ++ o.name] :=
        strings_nameOnly o tok [] (Or.inr (Or.inl ht))
      have hlen : (serializeValues (Value.option o tok [] :: rest)).length =
          1 + (serializeValues rest).length := by
        rw [serializeValues_cons, hstr]
        simp only [List.length_append, List.length_cons, List.length_nil]
      obtain ⟨dO2, hcont, hsort, hbounds, heq⟩ :=
        ih hrest (idx + 1) frest
          (O ++ [Value.option o (.option ⟨idx, o.pfx, o.name⟩) []]) P
      refine ⟨Value.option o (.option ⟨idx, o.pfx, o.name⟩) [] :: dO2,
        ?_, ?_, ?_, ?_⟩
      · simp only [List.map_cons, hcont]
        rfl
      · rw [List.pairwise_cons]
        refine ⟨?_, hsort⟩
        intro b hb
        have hbi := (hbounds b hb).1
        have hni : (Value.option o (.option ⟨idx, o.pfx, o.name⟩) []).index =
          idx := rfl
        omega
      · intro b hb
        rw [hlen]
        rcases List.mem_cons.mp hb with he | hm
        · rw [he]
          have hni : (Value.option o (.option ⟨idx, o.pfx, o.name⟩) []).index =
            idx := rfl
          omega
        · obtain ⟨hb1, hb2⟩ := hbounds b hm
          omega
      · rw [hlen, serializeValues_cons, hstr, List.append_assoc,
          List.singleton_append,
          scanFrom_cons_opt keys sep idx (o.pfx ++ o.name) _ o.pfx
            hfragsep hbest,
          show (o.pfx ++ o.name).drop o.pfx.length = o.name from
            List.drop_left _ _,
          replayStep_GN idx hlk hc hsa hg ht, heq, List.append_assoc,
          List.singleton_append,
          show idx + (1 + (serializeValues rest).length) =
            idx + 1 + (serializeValues rest).length from by omega]
    · -- groupable, required argument
      have hstr : Value.strings (Value.option o tok w) = [o.pfx ++ o.name, w] :=
        strings_required o tok w (Or.inr ht)
      have hlen : (serializeValues (Value.option o tok w :: rest)).length =
          2 + (serializeValues rest).length := by
        rw [serializeValues_cons, hstr]
        simp only [List.length_append, List.length_cons, List.length_nil]
      obtain ⟨dO2, hcont, hsort, hbounds, heq⟩ :=
        ih hrest (idx + 1 + 1) frest
          (O ++ [Value.option o (.option ⟨idx, o.pfx, o.name⟩) w]) P
      obtain ⟨u, hscan2, hustr, huidx⟩ := scanFrom_head_str keys sep (idx + 1) w
        (serializeValues rest ++ frest)
        (by rintro ⟨hs, he⟩; exact hwsep hs he)
      refine ⟨Value.option o (.option ⟨idx, o.pfx, o.name⟩) w :: dO2,
        ?_, ?_, ?_, ?_⟩
      · simp only [List.map_cons, hcont]
        rfl
      · rw [List.pairwise_cons]
        refine ⟨?_, hsort⟩
        intro b hb
        have hbi := (hbounds b hb).1
        have hni : (Value.option o (.option ⟨idx, o.pfx, o.name⟩) w).index =
          idx := rfl
        omega
      · intro b hb
        rw [hlen]
        rcases List.mem_cons.mp hb with he | hm
        · rw [he]
          have hni : (Value.option o (.option ⟨idx, o.pfx, o.name⟩) w).index =
            idx := rfl
          omega
        · obtain ⟨hb1, hb2⟩ := hbounds b hm
          omega
      · rw [hlen, serializeValues_cons, hstr,
          show ([o.pfx ++ o.name, w] ++ serializeValues rest) ++ frest =
            (o.pfx ++ o.name) :: w :: (serializeValues rest ++ frest) from by
              simp,
          scanFrom_cons_opt keys sep idx (o.pfx ++ o.name) _ o.pfx
            hfragsep hbest,
          show (o.pfx ++ o.name).drop o.pfx.length = o.name from
            List.drop_left _ _,
          hscan2, replayStep_GR idx hlk hc hsa hg ht hustr, heq,
          List.append_assoc, List.singleton_append,
          show idx + (2 + (serializeValues rest).length) =
            idx + 1 + 1 + (serializeValues rest).length from by omega]


/-- replaying the serialized positional segment in preserve mode: the scan
and the machine reproduce every positional and separator value in order,
with demoted option-shaped text re-demoted by the dead permutation flag. -/
theorem replayPoss (cfg2 : Config) {keys : List GoStr} {sep : GoStr}
    (hdp : cfg2.parser.disablePermute = true)
    (hkeysne : ∀ q ∈ keys, q ≠ []) :
    ∀ (vs : List Value) (s1 s2 : Bool) (idx : Nat) (O P : List Value),
      seqFine cfg2 keys sep (s1, s2) vs →
      (∀ v ∈ vs, isOptionValue v = false) →
      ∃ dP,
        dP.map Value.content = vs.map Value.content ∧
        dP.Pairwise (fun a b => a.index ≤ b.index) ∧
        (∀ v ∈ dP, idx ≤ v.index) ∧
        doParse cfg2 (scanFrom keys sep idx s1 (serializeValues vs))
            (s1 || s2) O P =
          .ok (O, P ++ dP) := by
  intro vs
  induction vs with
  | nil =>
    intro s1 s2 idx O P _ _
    refine ⟨[], rfl, List.Pairwise.nil, by simp, ?_⟩
    show doParse cfg2 (scanFrom keys sep idx s1 []) (s1 || s2) O P = _
    rw [show scanFrom keys sep idx s1 [] = [] from by cases s1 <;> rfl,
      doParse_nil, List.append_nil]
  | cons v rest ih =>
    intro s1 s2 idx O P hseq hopt
    obtain ⟨hfine, hseqrest⟩ := hseq
    have hoptrest : ∀ v2 ∈ rest, isOptionValue v2 = false :=
      fun v2 h2 => hopt v2 (List.mem_cons_of_mem _ h2)
    cases v with
    | option o tok w =>
      have := hopt _ (List.mem_cons_self _ rest)
      simp [isOptionValue] at this
    | positionalArgument tok w =>
      obtain ⟨hc1, hc2⟩ := hfine
      have hstr : Value.strings (Value.positionalArgument tok w) = [w] := rfl
      cases s1 with
      | true =>
        obtain ⟨dP2, hcont, hsort, hbounds, heq⟩ :=
          ih true true (idx + 1) O
            (P ++ [Value.positionalArgument (.positional ⟨idx, w⟩) w])
            hseqrest hoptrest
        refine ⟨Value.positionalArgument (.positional ⟨idx, w⟩) w :: dP2,
          ?_, ?_, ?_, ?_⟩
        · simp only [List.map_cons, hcont]
          rfl
        · rw [List.pairwise_cons]
          refine ⟨?_, hsort⟩
          intro b hb
          have hbi := hbounds b hb
          have hni : (Value.positionalArgument
            (.positional ⟨idx, w⟩) w).index = idx := rfl
          omega
        · intro b hb
          rcases List.mem_cons.mp hb with he | hm
          · rw [he]
            have hni : (Value.positionalArgument
              (.positional ⟨idx, w⟩) w).index = idx := rfl
            omega
          · have := hbounds b hm
            omega
        · have hstep : ∀ nx, doParseStep cfg2 (.positional ⟨idx, w⟩) nx
              (true || s2) O P =
              .ok (false, (true || s2) || cfg2.parser.disablePermute, O,
                P ++ [Value.positionalArgument (.positional ⟨idx, w⟩) w]) :=
            fun nx => rfl
          rw [serializeValues_cons, hstr, List.singleton_append,
            scanFrom_cons_seen,
            doParse_step_nonconsume hstep
              (scanFrom keys sep (idx + 1) true (serializeValues rest)),
            show ((true || s2) || cfg2.parser.disablePermute) = (true || true)
              from by rw [hdp]; cases s2 <;> rfl,
            heq, List.append_assoc, List.singleton_append]
      | false =>
        have hnsep : sep ≠ [] → w ≠ sep := by
          intro hs
          rcases hc1 hs with h | h
          · exact absurd h (by simp)
          · exact h
        by_cases hol : optionLike keys w
        · have hs2 : s2 = true := by
            rcases hc2 hol with h | h
            · exact absurd h (by simp)
            · exact h
          obtain ⟨q, hq, hqpre, hqne⟩ := hol
          obtain ⟨p, hp⟩ := bestPfx_isSome keys w q hq (hkeysne q hq) hqpre hqne
          have hppre : p <+: w := by
            have hprop := bestPfx_fold_prop w
              (fun r => r ∈ keys ∧ r <+: w ∧ r ≠ w) keys none
              (by intro r hr; exact absurd hr (by simp))
              (fun k hk hc => ⟨hk, hc⟩) p (bestPfx_eq_foldl keys w ▸ hp)
            exact hprop.2.1
          have hdvw : Token.str (.option ⟨idx, p, w.drop p.length⟩) = w :=
            prefix_append_drop hppre
          obtain ⟨dP2, hcont, hsort, hbounds, heq⟩ :=
            ih false true (idx + 1) O
              (P ++ [Value.positionalArgument
                (.option ⟨idx, p, w.drop p.length⟩) w])
              hseqrest hoptrest
          have heq2 : doParse cfg2
              (scanFrom keys sep (idx + 1) false (serializeValues rest)) true O
              (P ++ [Value.positionalArgument
                (.option ⟨idx, p, w.drop p.length⟩) w]) =
              .ok (O, (P ++ [Value.positionalArgument
                (.option ⟨idx, p, w.drop p.length⟩) w]) ++ dP2) := heq
          refine ⟨Value.positionalArgument
            (.option ⟨idx, p, w.drop p.length⟩) w :: dP2, ?_, ?_, ?_, ?_⟩
          · simp only [List.map_cons, hcont]
            rfl
          · rw [List.pairwise_cons]
            refine ⟨?_, hsort⟩
            intro b hb
            have hbi := hbounds b hb
            have hni : (Value.positionalArgument
              (.option ⟨idx, p, w.drop p.length⟩) w).index = idx := rfl
            omega
          · intro b hb
            rcases List.mem_cons.mp hb with he | hm
            · rw [he]
              have hni : (Value.positionalArgument
                (.option ⟨idx, p, w.drop p.length⟩) w).index = idx := rfl
              omega
            · have := hbounds b hm
              omega
          · have hstep : ∀ nx, doParseStep cfg2
                (.option ⟨idx, p, w.drop p.length⟩) nx true O P =
                .ok (false, true, O,
                  P ++ [Value.positionalArgument
                    (.option ⟨idx, p, w.drop p.length⟩)
                    (Token.str (.option ⟨idx, p, w.drop p.length⟩))]) :=
              fun nx => rfl
            rw [serializeValues_cons, hstr, List.singleton_append,
              scanFrom_cons_opt keys sep idx w _ p hnsep hp,
              show ((false || s2) : Bool) = true from hs2]
            rw [doParse_step_nonconsume hstep
                (scanFrom keys sep (idx + 1) false (serializeValues rest))]
            rw [hdvw, heq2, List.append_assoc, List.singleton_append]
        · have hbest : bestPfx keys w = none := bestPfx_eq_none keys w hol
          obtain ⟨dP2, hcont, hsort, hbounds, heq⟩ :=
            ih false true (idx + 1) O
              (P ++ [Value.positionalArgument (.positional ⟨idx, w⟩) w])
              hseqrest hoptrest
          refine ⟨Value.positionalArgument (.positional ⟨idx, w⟩) w :: dP2,
            ?_, ?_, ?_, ?_⟩
          · simp only [List.map_cons, hcont]
            rfl
          · rw [List.pairwise_cons]
            refine ⟨?_, hsort⟩
            intro b hb
            have hbi := hbounds b hb
            have hni : (Value.positionalArgument
              (.positional ⟨idx, w⟩) w).index = idx := rfl
            omega
          · intro b hb
            rcases List.mem_cons.mp hb with he | hm
            · rw [he]
              have hni : (Value.positionalArgument
                (.positional ⟨idx, w⟩) w).index = idx := rfl
              omega
            · have := hbounds b hm
              omega
          · have hstep : ∀ nx, doParseStep cfg2 (.positional ⟨idx, w⟩) nx
                (false || s2) O P =
                .ok (false, (false || s2) || cfg2.parser.disablePermute, O,
                  P ++ [Value.positionalArgument (.positional ⟨idx, w⟩) w]) :=
              fun nx => rfl
            rw [serializeValues_cons, hstr, List.singleton_append,
              scanFrom_cons_pos keys sep idx w _ hnsep hbest,
              doParse_step_nonconsume hstep
                (scanFrom keys sep (idx + 1) false (serializeValues rest)),
              show ((false || s2) || cfg2.parser.disablePermute) =
                (false || true) from by rw [hdp]; cases s2 <;> rfl,
              heq, List.append_assoc, List.singleton_append]
    | optionsArgumentsSeparator tok sv =>
      obtain ⟨hsveq, hsepne, hs1f⟩ := hfine
      have hsv2 : sep = sv := hsveq.symm
      subst hsv2
      have hs1 : s1 = false := hs1f
      subst hs1
      have hstr : Value.strings
        (Value.optionsArgumentsSeparator tok sep) = [sep] := rfl
      obtain ⟨dP2, hcont, hsort, hbounds, heq⟩ :=
        ih true true (idx + 1) O
          (P ++ [Value.optionsArgumentsSeparator (.separator ⟨idx, sep⟩) sep])
          hseqrest hoptrest
      have heq2 : doParse cfg2
          (scanFrom keys sep (idx + 1) true (serializeValues rest)) true O
          (P ++ [Value.optionsArgumentsSeparator (.separator ⟨idx, sep⟩) sep]) =
          .ok (O, (P ++ [Value.optionsArgumentsSeparator
            (.separator ⟨idx, sep⟩) sep]) ++ dP2) := heq
      refine ⟨Value.optionsArgumentsSeparator (.separator ⟨idx, sep⟩) sep :: dP2,
        ?_, ?_, ?_, ?_⟩
      · simp only [List.map_cons, hcont]
        rfl
      · rw [List.pairwise_cons]
        refine ⟨?_, hsort⟩
        intro b hb
        have hbi := hbounds b hb
        have hni : (Value.optionsArgumentsSeparator
          (.separator ⟨idx, sep⟩) sep).index = idx := rfl
        omega
      · intro b hb
        rcases List.mem_cons.mp hb with he | hm
        · rw [he]
          have hni : (Value.optionsArgumentsSeparator
            (.separator ⟨idx, sep⟩) sep).index = idx := rfl
          omega
        · have := hbounds b hm
          omega
      · have hstep : ∀ nx, doParseStep cfg2 (.separator ⟨idx, sep⟩) nx
            (false || s2) O P =
            .ok (false, true, O,
              P ++ [Value.optionsArgumentsSeparator
                (.separator ⟨idx, sep⟩) sep]) :=
          fun nx => rfl
        rw [serializeValues_cons, hstr, List.singleton_append,
          scanFrom_cons_sep keys sep idx (serializeValues rest) hsepne,
          doParse_step_nonconsume hstep
            (scanFrom keys sep (idx + 1) true (serializeValues rest))]
        rw [heq2, List.append_assoc, List.singleton_append]


/-- a fine positional sequence is insensitive to the stored configuration
when it holds no option values. -/
theorem seqFine_transport {cfg cfg2 : Config} {keys : List GoStr}
    {sep : GoStr} :
    ∀ {l : List Value} {st : Bool × Bool},
      (∀ v ∈ l, isOptionValue v = false) →
      seqFine cfg keys sep st l → seqFine cfg2 keys sep st l := by
  intro l
  induction l with
  | nil => intro st _ _; trivial
  | cons v rest ih =>
    intro st hno hseq
    obtain ⟨hfine, hrest⟩ := hseq
    refine ⟨?_, ih (fun u hu => hno u (List.mem_cons_of_mem _ hu)) hrest⟩
    cases v with
    | option o tok w =>
      have := hno _ (List.mem_cons_self _ _)
      simp [isOptionValue] at this
    | positionalArgument tok w => exact hfine
    | optionsArgumentsSeparator tok s2 => exact hfine

/-- the amended round-trip hypotheses make every sound option value
replayable: its fragments re-tokenize at its own marker and re-resolve to
the same option and argument. -/
theorem replayOptOk_of_ctx {px : Parser} {cfg : Config}
    (ctx : RoundTripCtx px cfg) {o : FlagOption} {w : GoStr}
    (hfine : optValueFine cfg px.optionsArgumentsSeparator o w) :
    replayOptOk cfg (pfxKeys cfg) px.optionsArgumentsSeparator o w := by
  obtain ⟨hlk, hclass⟩ := hfine
  have hmem : o ∈ px.options := (optionsMap_mem ctx.hcfg hlk).1
  obtain ⟨-, ⟨names, hbn, -⟩, -, -, -, -⟩ := newConfig_ok_parts ctx.hcfg
  obtain ⟨hnne, hpne⟩ := buildNames_ok_clean hbn o hmem
  have hnoeq : '=' ∉ o.name := ctx.namesClean o hmem
  have hfragsep : px.optionsArgumentsSeparator ≠ [] →
      o.pfx ++ o.name ≠ px.optionsArgumentsSeparator :=
    fun _ => ctx.notSep o hmem
  have hbestName : o.pfx ∈ pfxKeys cfg →
      bestPfx (pfxKeys cfg) (o.pfx ++ o.name) = some o.pfx := by
    intro hkey
    refine bestPfx_eq_some _ _ _ hkey hpne (List.prefix_append _ _) ?_ ?_
    · intro he
      have hl := congrArg List.length he
      simp only [List.length_append] at hl
      exact hnne (List.length_eq_zero.mp (by omega))
    · intro q hq hqpre _
      exact ctx.noShadow o hmem q hq hqpre
  have hbestSO : o.pfx ∈ pfxKeys cfg →
      bestPfx (pfxKeys cfg) (o.pfx ++ o.name ++ '=' :: w) = some o.pfx := by
    intro hkey
    refine bestPfx_eq_some _ _ _ hkey hpne
      ((List.prefix_append _ _).trans (List.prefix_append _ _)) ?_ ?_
    · intro he
      have hl := congrArg List.length he
      simp only [List.length_append, List.length_cons] at hl
      omega
    · intro q hq hqpre _
      by_cases hql : q.length ≤ (o.pfx ++ o.name).length
      · exact ctx.noShadow o hmem q hq
          (List.prefix_of_prefix_length_le hqpre (List.prefix_append _ _) hql)
      · exfalso
        have hq_take : q = ((o.pfx ++ o.name) ++ '=' :: w).take q.length :=
          List.prefix_iff_eq_take.mp hqpre
        have hmemq : '=' ∈ q := by
          rw [hq_take, List.take_append_eq_append_take]
          refine List.mem_append_right _ ?_
          cases hk : q.length - (o.pfx ++ o.name).length with
          | zero => omega
          | succ m =>
            rw [List.take_succ_cons]
            exact List.mem_cons_self _ _
        exact ctx.pfxClean q hq hmemq
  have hSOsep : px.optionsArgumentsSeparator ≠ [] →
      o.pfx ++ o.name ++ '=' :: w ≠ px.optionsArgumentsSeparator := by
    intro _ he
    apply ctx.sepClean
    rw [← he]
    exact List.mem_append_right _ (List.mem_cons_self _ _)
  rcases hclass with ⟨ht, hw⟩ | ⟨ht, hw⟩ | ⟨ht, hwsep⟩ | ⟨ht, hw⟩ | ⟨ht, hwsep⟩
  · have hbits := pfxMap_bit_standalone ctx.hcfg hmem
      (by rw [ht]; decide) (by rw [ht]; decide)
    exact ⟨hlk, hnne, hnoeq, hfragsep, hbestName hbits.2,
      Or.inl ⟨ht, hw, hbits.1⟩⟩
  · have hbits := pfxMap_bit_standalone ctx.hcfg hmem
      (by rw [ht]; decide) (by rw [ht]; decide)
    exact ⟨hlk, hnne, hnoeq, hfragsep, hbestName hbits.2,
      Or.inr (Or.inl ⟨ht, hw, hbits.1, hbestSO hbits.2, hSOsep⟩)⟩
  · have hbits := pfxMap_bit_standalone ctx.hcfg hmem
      (by rw [ht]; decide) (by rw [ht]; decide)
    exact ⟨hlk, hnne, hnoeq, hfragsep, hbestName hbits.2,
      Or.inr (Or.inr (Or.inl ⟨ht, hwsep, hbits.1⟩))⟩
  · have hbits := pfxMap_bit_groupable ctx.hcfg hmem (by rw [ht]; decide)
    exact ⟨hlk, hnne, hnoeq, hfragsep, hbestName hbits.2.2,
      Or.inr (Or.inr (Or.inr (Or.inl ⟨ht, hw,
        groupable_name_single ctx.hcfg hmem (by rw [ht]; decide),
        hbits.2.1, hbits.1⟩)))⟩
  · have hbits := pfxMap_bit_groupable ctx.hcfg hmem (by rw [ht]; decide)
    exact ⟨hlk, hnne, hnoeq, hfragsep, hbestName hbits.2.2,
      Or.inr (Or.inr (Or.inr (Or.inr ⟨ht, hwsep,
        groupable_name_single ctx.hcfg hmem (by rw [ht]; decide),
        hbits.2.1, hbits.1⟩)))⟩


/-- C1 (amended): for a validated configuration with no early options,
no equals sign in names, markers or separator, no marker shadowing an
option fragment beyond its own marker, and no option fragment spelling
the separator, every accepted parse whose required-argument values do not
spell the separator re-serializes to a command line that re-parses in
preserve mode to the same values modulo originating tokens: the contents
(matched option, resolved argument, positional and separator texts) agree
position by position, implicit optional defaults having already been made
explicit by resolution. -/
theorem claim_C1_roundtrip_modulo_tokens {px : Parser} {cfg : Config}
    {args : List GoStr} {vals : List Value}
    (ctx : RoundTripCtx px cfg)
    (h : px.parse args = .ok vals)
    (hreq : ∀ v ∈ vals, reqValueNotSep px.optionsArgumentsSeparator v) :
    ∃ vals2, (preservePx px).parse (serializeValues vals) = .ok vals2 ∧
      vals2.map Value.content = vals.map Value.content := by
  classical
  have hname : ∀ n o, mapLookup cfg.options n = some o → o.name = n :=
    fun n o hlk => (optionsMap_mem ctx.hcfg hlk).2
  simp only [Parser.parse, ctx.hcfg] at h
  have hearly : earlyParse px.options
      (scan (pfxKeys cfg) px.optionsArgumentsSeparator args)
      px.disablePermute = none :=
    earlyParse_none_of_noEarly ctx.noEarly _ _
  simp only [parseTokens, hearly] at h
  cases hdo : doParse cfg
      (scan (pfxKeys cfg) px.optionsArgumentsSeparator args) false [] [] with
  | error e =>
    simp only [parseMain, hdo] at h
    exact absurd h (by simp)
  | ok r =>
    obtain ⟨O2, P2⟩ := r
    simp only [parseMain, hdo] at h
    by_cases hmin : ((P2.length : Int) < px.minPositionalArguments)
    · rw [if_pos hmin] at h
      exact absurd h (by simp)
    rw [if_neg hmin] at h
    by_cases hmax : (px.maxPositionalArguments < (P2.length : Int))
    · rw [if_pos hmax] at h
      exact absurd h (by simp)
    rw [if_neg hmax] at h
    have hvals : vals = permute cfg.disablePermute O2 P2 := by
      have h2 := h
      simp only [Except.ok.injEq] at h2
      exact h2.symm
    have hlenEq : (scan (pfxKeys cfg) px.optionsArgumentsSeparator
        args).length = args.length := by
      have := congrArg List.length (scanFrom_map_index (pfxKeys cfg)
        px.optionsArgumentsSeparator args 0 false)
      simpa using this
    have hidxmap : (scan (pfxKeys cfg) px.optionsArgumentsSeparator
        args).map Token.index =
        List.range' 0 (scan (pfxKeys cfg) px.optionsArgumentsSeparator
          args).length := by
      rw [hlenEq]
      exact scanFrom_map_index (pfxKeys cfg) px.optionsArgumentsSeparator
        args 0 false
    have hinv0 : fwdInv cfg (pfxKeys cfg) px.optionsArgumentsSeparator 0
        (false, false) false [] [] :=
      ⟨rfl, rfl, trivial, by simp, by simp, List.Pairwise.nil,
        List.Pairwise.nil, by simp, by simp,
        fun _ => ⟨Or.inl rfl, by simp⟩⟩
    have hfwd := doParse_forward hname args.length
      (scan (pfxKeys cfg) px.optionsArgumentsSeparator args)
      (le_of_eq hlenEq) 0 (false, false) false [] [] O2 P2 hidxmap
      (Or.inl ⟨rfl, scanShape_scanFrom (pfxKeys cfg)
        px.optionsArgumentsSeparator (pfxKeys_ne_nil ctx.hcfg) args 0⟩)
      hinv0 hdo
    have hp1 : (permute cfg.disablePermute O2 P2).Perm (O2 ++ P2) := by
      cases hdp : cfg.disablePermute
      · rw [permute_reorder]
        exact List.Perm.append (sortValues_perm O2) (sortValues_perm P2)
      · rw [permute_preserve]
        exact sortValues_perm _
    have hmemvals : ∀ v ∈ O2, v ∈ vals := by
      intro v hv
      rw [hvals]
      exact hp1.mem_iff.mpr (List.mem_append_left _ hv)
    rcases hfwd with hbad | hout
    · obtain ⟨v, hvO, o, tok, w, hveq, hsepne, hwsep, hreqty⟩ := hbad
      have hrv := hreq v (hmemvals v hvO)
      rw [hveq] at hrv
      exact absurd hwsep (hrv hreqty hsepne)
    obtain ⟨hcore, hseqP, hnoptP, hOsort, hPsort, hcross⟩ := hout
    have hvals2 : vals = O2 ++ P2 := by
      rw [hvals]
      cases hdp : cfg.disablePermute
      · rw [permute_reorder, sortValues_eq_self hOsort,
          sortValues_eq_self hPsort]
      · rw [permute_preserve, sortValues_eq_self
          (List.pairwise_append.mpr ⟨hOsort, hPsort, hcross hdp⟩)]
    have hfineO : ∀ v ∈ O2, ∃ o tok w, v = Value.option o tok w ∧
        optValueFine cfg px.optionsArgumentsSeparator o w := by
      intro v hv
      obtain ⟨o, tok, w, hveq, hlk, hcls⟩ := hcore v hv
      refine ⟨o, tok, w, hveq, hlk, ?_⟩
      have hrv := hreq v (by rw [hvals2]; exact List.mem_append_left _ hv)
      rw [hveq] at hrv
      rcases hcls with ⟨ht, hw⟩ | ⟨ht, hw⟩ | ht | ⟨ht, hw⟩ | ht
      · exact Or.inl ⟨ht, hw⟩
      · exact Or.inr (Or.inl ⟨ht, hw⟩)
      · exact Or.inr (Or.inr (Or.inl ⟨ht, fun hs => hrv (Or.inl ht) hs⟩))
      · exact Or.inr (Or.inr (Or.inr (Or.inl ⟨ht, hw⟩)))
      · exact Or.inr (Or.inr (Or.inr (Or.inr
          ⟨ht, fun hs => hrv (Or.inr ht) hs⟩)))
    have hcfg2 := newConfig_preserve ctx.hcfg
    have hO2ok : ∀ v ∈ O2, ∃ o tok w, v = Value.option o tok w ∧
        replayOptOk (preserveCfg px cfg)
          (pfxKeys cfg) px.optionsArgumentsSeparator o w := by
      intro v hv
      obtain ⟨o, tok, w, hveq, hfi⟩ := hfineO v hv
      exact ⟨o, tok, w, hveq, replayOptOk_of_ctx ctx hfi⟩
    obtain ⟨dO, hcontO, hsortO, hboundsO, heqO⟩ :=
      replayOpts O2 hO2ok 0 (serializeValues P2) [] []
    have hseqP2 : seqFine (preserveCfg px cfg) (pfxKeys cfg)
        px.optionsArgumentsSeparator (false, false) P2 :=
      seqFine_transport hnoptP hseqP
    obtain ⟨dP, hcontP, hsortP, hboundsP, heqP⟩ :=
      replayPoss (preserveCfg px cfg) rfl
        (pfxKeys_ne_nil ctx.hcfg) P2
        false false (0 + (serializeValues O2).length) ([] ++ dO) []
        hseqP2 hnoptP
    have heqP2 : doParse (preserveCfg px cfg)
        (scanFrom (pfxKeys cfg) px.optionsArgumentsSeparator
          (0 + (serializeValues O2).length) false (serializeValues P2))
        false ([] ++ dO) [] = .ok (dO, dP) := heqP
    have hdo2 : doParse (preserveCfg px cfg)
        (scan (pfxKeys cfg) px.optionsArgumentsSeparator
          (serializeValues vals)) false [] [] = .ok (dO, dP) := by
      show doParse _ (scanFrom (pfxKeys cfg) px.optionsArgumentsSeparator
        0 false (serializeValues vals)) false [] [] = _
      rw [hvals2, serializeValues_append]
      exact heqO.trans heqP2
    have hlenP : dP.length = P2.length := by
      have := congrArg List.length hcontP
      simpa using this
    refine ⟨dO ++ dP, ?_, ?_⟩
    · simp only [Parser.parse, hcfg2]
      have hk2 : pfxKeys (preserveCfg px cfg) = pfxKeys cfg := rfl
      have hsep2 : (preservePx px).optionsArgumentsSeparator =
          px.optionsArgumentsSeparator := rfl
      rw [hk2, hsep2]
      have hearly2 : earlyParse (preservePx px).options
          (scan (pfxKeys cfg) px.optionsArgumentsSeparator
            (serializeValues vals))
          (preservePx px).disablePermute = none :=
        earlyParse_none_of_noEarly ctx.noEarly _ _
      simp only [parseTokens, hearly2]
      simp only [parseMain, hdo2]
      have hmin2 : ¬ ((dP.length : Int) <
          (preservePx px).minPositionalArguments) := by
        show ¬ ((dP.length : Int) < px.minPositionalArguments)
        rw [hlenP]
        exact hmin
      have hmax2 : ¬ ((preservePx px).maxPositionalArguments <
          (dP.length : Int)) := by
        show ¬ (px.maxPositionalArguments < (dP.length : Int))
        rw [hlenP]
        exact hmax
      rw [if_neg hmin2, if_neg hmax2,
        show Config.disablePermute (preserveCfg px cfg) = true from rfl,
        permute_preserve, sortValues_eq_self ?_]
      rw [List.pairwise_append]
      refine ⟨hsortO, hsortP, ?_⟩
      intro a ha b hb
      have h1 := (hboundsO a ha).2
      have h2 := hboundsP b hb
      omega
    · rw [List.map_append, hcontO, hcontP, ← List.map_append, ← hvals2]


/-- concrete round-trip: parsing the grouped short option z under the
sample configuration and re-parsing its serialization in preserve mode
reproduces the same content. -/
theorem claim_C1_roundtrip_modulo_tokens_witness :
    ∃ vals2, (preservePx sampleParser).parse (serializeValues
        [Value.option optZ (.option ⟨0, ['-'], ['z']⟩) []]) = .ok vals2 ∧
      vals2.map Value.content =
        [Value.option optZ (.option ⟨0, ['-'], ['z']⟩) []].map Value.content :=
  claim_C1_roundtrip_modulo_tokens
    (show RoundTripCtx sampleParser sampleConfig from
      ⟨rfl, by decide, by decide, by decide, by decide, by decide, by decide⟩)
    (show sampleParser.parse [['-', 'z']] =
        .ok [Value.option optZ (.option ⟨0, ['-'], ['z']⟩) []] by decide)
    (by
      intro v hv
      rw [List.mem_singleton.mp hv]
      intro hty _
      rcases hty with hh | hh <;> exact absurd hh (by decide))

end Flagparser
